import Mathlib

/-!
# tree-alloc: a shallow embedding of `tree_allocator.c`

The allocator keeps a bitmap of blocks (`leaves`, one 32-bit word per 32 blocks)
and six summary trees, one per size class `s ∈ {0..5}` (runs of `2^s` blocks).

Modelling conventions.

* `uint32_t` values are natural numbers, every operation that can leave the
  32-bit range is followed by `u32` (reduction modulo `2^32`).
* `size_t` is 64 bits wide (the code accepts `min_blocks = 2^32`, which only
  fits a `size_t` wider than 32 bits).
* The caller-supplied buffer is the list of its 32-bit words, pointers into it
  are word indices (`rd` reads a word, `wr` writes one).  `row_offsets` is a
  list of six words.
* `assert`s are not part of the release behaviour and are not modelled.
* Loops are structural recursions on their iteration count.
-/

namespace TreeAlloc

/-! ## Machine arithmetic -/

/-- Truncation to `uint32_t`. -/
def u32 (x : Nat) : Nat := x % 4294967296

/-- C truth value of a proposition (`!!e`, comparison results). -/
def b2n (p : Prop) [Decidable p] : Nat := if p then 1 else 0

/-- Bitwise complement of a `uint32_t` (`~x`). -/
def not32 (x : Nat) : Nat := 4294967295 - u32 x

/-- Unary minus of a `uint32_t` (`-x`). -/
def neg32 (x : Nat) : Nat := u32 (4294967296 - u32 x)

/-- Read word `i` of a buffer. -/
def rd (buf : List Nat) (i : Nat) : Nat := buf.getD i 0

/-- Write word `i` of a buffer. -/
def wr (buf : List Nat) (i v : Nat) : List Nat := buf.set i v

/-! ## Constants and macros -/

def NUM_BRANCHES_LOG2 : Nat := 5
def NUM_BRANCHES : Nat := 1 <<< NUM_BRANCHES_LOG2
def BRANCH_INDEX_MASK : Nat := NUM_BRANCHES - 1
def NUM_TREES : Nat := NUM_BRANCHES_LOG2 + 1
def TRAL_MARK_MAX_BLOCKS : Nat := 32

/-- The macro `CEIL_LOG2_SMALL(x)`. -/
def CEIL_LOG2_SMALL (x : Nat) : Nat :=
  b2n (x > 1) + b2n (x > 2) + b2n (x > 4) + b2n (x > 8) + b2n (x > 16)

/-! ## The member structure -/

/-- The struct `tral_member_t`; `buf` is the word-indexed view of the buffer. -/
structure Member where
  buf : List Nat
  num_leaves : Nat
  tree_stride : Nat
  row_offsets : List Nat
  num_top_branches : Nat
  tree_height : Nat
  deriving DecidableEq

/-! ## Geometry -/

/-- The loop of `treeHeight`: `for (; capacity; capacity <<= 5) h += min_blocks > capacity`.
`none` when the fuel runs out before `capacity` reaches zero. -/
def treeHeightLoop (min_blocks : Nat) : Nat → Nat → Nat → Option Nat
  | 0, _, _ => none
  | fuel + 1, capacity, h =>
    if capacity = 0 then some h
    else treeHeightLoop min_blocks fuel (u32 (capacity <<< NUM_BRANCHES_LOG2))
      (h + b2n (min_blocks > capacity))

/-- The function `treeHeight`.  Seven rounds of fuel are enough for the loop to
leave through its exit test (`treeHeightLoop_some`). -/
def treeHeight (min_blocks : Nat) : Nat :=
  match treeHeightLoop min_blocks 7 NUM_BRANCHES 1 with
  | some h => h - 1
  | none => 0

/-- The function `numTopNodeBranches`. -/
def numTopNodeBranches (min_blocks : Nat) : Nat :=
  let h := treeHeight min_blocks
  let num_top_branch_blocks := u32 (1 <<< (NUM_BRANCHES_LOG2 * h))
  min_blocks / num_top_branch_blocks + b2n (min_blocks % num_top_branch_blocks ≠ 0)

/-- The function `numLeaves`. -/
def numLeaves (min_blocks : Nat) : Nat :=
  let num_top_branches := u32 (numTopNodeBranches min_blocks)
  let h := treeHeight min_blocks
  u32 (num_top_branches <<< (NUM_BRANCHES_LOG2 * (h - 1)))

/-- The loop of `numTreeNodes`, `n` iterations left. -/
def numTreeNodesLoop : Nat → Nat → Nat → Nat
  | 0, _, res => res
  | n + 1, row_width, res =>
    numTreeNodesLoop n (u32 (row_width <<< NUM_BRANCHES_LOG2)) (u32 (res + row_width))

/-- The function `numTreeNodes`: the loop runs for `i = 1 .. h-1`. -/
def numTreeNodes (min_blocks : Nat) : Nat :=
  let h := treeHeight min_blocks
  let row_width := u32 (numTopNodeBranches min_blocks)
  numTreeNodesLoop (h - 1) row_width 1

/-- The loop of `rowOffsets`, `n` iterations left. -/
def rowOffsetsLoop : Nat → Nat → Nat → Nat → List Nat → List Nat
  | 0, _, _, _, offsets_out => offsets_out
  | n + 1, row_i, offset, row_width, offsets_out =>
    rowOffsetsLoop n (row_i + 1) (u32 (offset + row_width))
      (u32 (row_width <<< NUM_BRANCHES_LOG2)) (wr offsets_out row_i offset)

/-- The function `rowOffsets`: the loop runs for `row_i = 1 .. tree_height-1`. -/
def rowOffsets (num_top_branches tree_height : Nat) (offsets_out : List Nat) : List Nat :=
  rowOffsetsLoop (tree_height - 1) 1 1 (u32 num_top_branches) (wr offsets_out 0 0)

/-- The function `checkMinBlocks`. -/
def checkMinBlocks (min_blocks : Nat) : Nat :=
  let lower_cap := NUM_BRANCHES * 2
  if min_blocks < lower_cap then lower_cap else min_blocks

/-- The function `requiredBufferSize` (bytes). -/
def requiredBufferSize (num_leaves num_tree_nodes : Nat) : Nat :=
  u32 ((num_leaves + num_tree_nodes * NUM_TREES) * 4)

/-- The function `tral_required_member_buffer_size`. -/
def tral_required_member_buffer_size (min_blocks : Nat) : Nat :=
  let min_blocks := checkMinBlocks min_blocks
  let num_leaves := numLeaves min_blocks
  let num_tree_nodes := numTreeNodes min_blocks
  requiredBufferSize num_leaves num_tree_nodes

/-- The loop of `initTopNodes`: `for (; p < end; p += tree_stride) *p = v`. -/
def initTopNodesLoop (stride end_ v : Nat) : Nat → Nat → List Nat → List Nat
  | 0, _, buf => buf
  | fuel + 1, p, buf =>
    if p < end_ then initTopNodesLoop stride end_ v fuel (p + stride) (wr buf p v)
    else buf

/-- The function `initTopNodes`; the loop makes at most `NUM_TREES` rounds. -/
def initTopNodes (m : Member) : Member :=
  let p := m.num_leaves
  let end_ := p + m.tree_stride * NUM_TREES
  let non_existent_marked :=
    if m.num_top_branches < NUM_BRANCHES then not32 (u32 (u32 (1 <<< m.num_top_branches) + 4294967295))
    else 0
  { m with buf := initTopNodesLoop m.tree_stride end_ non_existent_marked NUM_TREES p m.buf }

/-- The call `memset(buf, 0, size)` on the word view of the buffer (`size` bytes,
a multiple of 4): the words lying in the first `size` bytes become zero. -/
def memsetZero (buf : List Nat) (size : Nat) : List Nat :=
  (List.range buf.length).map (fun i => if 4 * i < size then 0 else rd buf i)

/-- The function `tral_init_member`; `buf` is the caller's buffer as found.
`memset(m, 0, sizeof *m)` leaves the six `row_offsets` at zero. -/
def tral_init_member (min_blocks : Nat) (buf : List Nat) : Member :=
  let min_blocks := checkMinBlocks min_blocks
  let tree_height := treeHeight min_blocks % 256
  let num_top_branches := numTopNodeBranches min_blocks % 256
  let num_leaves := numLeaves min_blocks
  let tree_stride := numTreeNodes min_blocks
  let row_offsets := rowOffsets num_top_branches tree_height (List.replicate 6 0)
  let buf_size := requiredBufferSize num_leaves tree_stride
  initTopNodes
    { buf := memsetZero buf buf_size
      num_leaves := num_leaves
      tree_stride := tree_stride
      row_offsets := row_offsets
      num_top_branches := num_top_branches
      tree_height := tree_height }

/-- The function `tral_num_blocks` (a 64-bit `size_t`). -/
def tral_num_blocks (m : Member) : Nat :=
  (m.num_leaves <<< NUM_BRANCHES_LOG2) % 18446744073709551616

/-! ## Bit primitives -/

/-- The function `countTrailingZeros`. -/
def countTrailingZeros (x : Nat) : Nat :=
  let x := x &&& neg32 x
  (b2n (x &&& 0xffff0000 ≠ 0) <<< 4) ||| (b2n (x &&& 0xff00ff00 ≠ 0) <<< 3) |||
    (b2n (x &&& 0xf0f0f0f0 ≠ 0) <<< 2) ||| (b2n (x &&& 0xcccccccc ≠ 0) <<< 1) |||
    b2n (x &&& 0xaaaaaaaa ≠ 0)

/-- The function `indexOfFirstZero`. -/
def indexOfFirstZero (x : Nat) : Nat := countTrailingZeros (not32 x)

/-! ## Tree descent -/

/-- The loop of `leafWithSpaceIndex`, `n` iterations left, at row `i`. -/
def leafWithSpaceLoop (buf : List Nat) (tree : Nat) (row_offsets : List Nat) :
    Nat → Nat → Nat → Nat
  | 0, _, node_i => node_i
  | n + 1, i, node_i =>
    let node := rd buf (tree + rd row_offsets i + node_i)
    let branch_i := indexOfFirstZero node
    leafWithSpaceLoop buf tree row_offsets n (i + 1)
      (u32 (u32 (node_i <<< NUM_BRANCHES_LOG2) + branch_i))

/-- The function `leafWithSpaceIndex`: the loop runs for `i = 1 .. tree_height-1`. -/
def leafWithSpaceIndex (buf : List Nat) (tree : Nat) (row_offsets : List Nat)
    (tree_height : Nat) : Nat :=
  leafWithSpaceLoop buf tree row_offsets (tree_height - 1) 1 (indexOfFirstZero (rd buf tree))

/-! ## Leaf analysis -/

/-- The function `leafBlocksOffset`.  The code has no result outside the six
cases (`assert(0)`); the model returns 0 there. -/
def leafBlocksOffset (x : Nat) (num_blocks_log2 : Nat) : Nat :=
  match num_blocks_log2 with
  | 5 => 0
  | 4 => b2n (x &&& 0xffff ≠ 0) <<< 4
  | 3 =>
    let x := (x >>> 1) ||| x ||| 0xaaaaaaaa
    let x := (x >>> 2) ||| x ||| 0xeeeeeeee
    let x := (x >>> 4) ||| x ||| 0xfefefefe
    let x := not32 x &&& neg32 (not32 x)
    (b2n (x &&& 0xffff0000 ≠ 0) <<< 4) ||| (b2n (x &&& 0xff00ff00 ≠ 0) <<< 3)
  | 2 =>
    let x := (x >>> 1) ||| x ||| 0xaaaaaaaa
    let x := (x >>> 2) ||| x ||| 0xeeeeeeee
    let x := not32 x &&& neg32 (not32 x)
    (b2n (x &&& 0xffff0000 ≠ 0) <<< 4) ||| (b2n (x &&& 0xff00ff00 ≠ 0) <<< 3) |||
      (b2n (x &&& 0xf0f0f0f0 ≠ 0) <<< 2)
  | 1 => indexOfFirstZero ((x >>> 1) ||| x ||| 0xaaaaaaaa)
  | 0 => indexOfFirstZero x
  | _ => 0

/-- The table `fold_mask` of `leafHasSpaceEnd`. -/
def fold_mask (i : Nat) : Nat :=
  match i with
  | 0 => 0x55555555
  | 1 => 0x11111111
  | 2 => 0x01010101
  | 3 => 0x00010001
  | _ => 0

/-- The loop of `leafHasSpaceEnd`, `k` iterations left, at index `i`. -/
def leafHasSpaceLoop : Nat → Nat → Nat → Nat → Nat
  | 0, _, _, n => n
  | k + 1, i, free_blocks, n =>
    let free_blocks := (free_blocks >>> (1 <<< i)) &&& free_blocks &&& fold_mask i
    leafHasSpaceLoop k (i + 1) free_blocks (n + b2n (free_blocks ≠ 0))

/-- The function `leafHasSpaceEnd`. -/
def leafHasSpaceEnd (leaf : Nat) : Nat :=
  let free_blocks := not32 leaf
  let n := b2n (free_blocks ≠ 0) + b2n (leaf = 0)
  leafHasSpaceLoop 4 0 free_blocks n

/-- The function `leafBlocksMask`. -/
def leafBlocksMask (num_blocks_log2 offset : Nat) : Nat :=
  let w := 1 <<< num_blocks_log2
  let width_mask := u32 ((b2n (w ≠ NUM_BRANCHES) <<< (w &&& BRANCH_INDEX_MASK)) + 4294967295)
  u32 (width_mask <<< offset)

/-! ## Tree maintenance -/

/-- The loop of `updateTreeLeafFull`, entered at row `row_i`. -/
def updateTreeLeafFullLoop (tree : Nat) (row_offsets : List Nat) :
    Nat → Nat → Nat → List Nat → List Nat
  | 0, branch_i, node_i, buf =>
    let node := tree + rd row_offsets 0 + node_i
    wr buf node (rd buf node ||| u32 (1 <<< branch_i))
  | row_i + 1, branch_i, node_i, buf =>
    let node := tree + rd row_offsets (row_i + 1) + node_i
    let buf1 := wr buf node (rd buf node ||| u32 (1 <<< branch_i))
    let node_has_space_left := not32 (rd buf1 node) ≠ 0
    if node_has_space_left then buf1
    else updateTreeLeafFullLoop tree row_offsets row_i (node_i &&& BRANCH_INDEX_MASK)
      (node_i >>> NUM_BRANCHES_LOG2) buf1

/-- The function `updateTreeLeafFull`. -/
def updateTreeLeafFull (buf : List Nat) (tree leaf_i : Nat) (row_offsets : List Nat)
    (tree_height : Nat) : List Nat :=
  updateTreeLeafFullLoop tree row_offsets (tree_height - 1) (leaf_i &&& BRANCH_INDEX_MASK)
    (leaf_i >>> NUM_BRANCHES_LOG2) buf

/-- The loop of `updateTreeLeafHasSpace`, entered at row `row_i`. -/
def updateTreeLeafHasSpaceLoop (tree : Nat) (row_offsets : List Nat) :
    Nat → Nat → Nat → List Nat → List Nat
  | 0, branch_i, node_i, buf =>
    let node := tree + rd row_offsets 0 + node_i
    wr buf node (rd buf node &&& not32 (u32 (1 <<< branch_i)))
  | row_i + 1, branch_i, node_i, buf =>
    let node := tree + rd row_offsets (row_i + 1) + node_i
    let node_had_space := not32 (rd buf node) ≠ 0
    let buf1 := wr buf node (rd buf node &&& not32 (u32 (1 <<< branch_i)))
    if node_had_space then buf1
    else updateTreeLeafHasSpaceLoop tree row_offsets row_i (node_i &&& BRANCH_INDEX_MASK)
      (node_i >>> NUM_BRANCHES_LOG2) buf1

/-- The function `updateTreeLeafHasSpace`. -/
def updateTreeLeafHasSpace (buf : List Nat) (tree leaf_i : Nat) (row_offsets : List Nat)
    (tree_height : Nat) : List Nat :=
  updateTreeLeafHasSpaceLoop tree row_offsets (tree_height - 1) (leaf_i &&& BRANCH_INDEX_MASK)
    (leaf_i >>> NUM_BRANCHES_LOG2) buf

/-! ## Public operations -/

/-- The tree loop of `tral_mark`: `n` trees left, `tree_it` the current tree. -/
def markTreesLoop (stride leaf_i : Nat) (row_offsets : List Nat) (tree_height : Nat) :
    Nat → Nat → List Nat → List Nat
  | 0, _, buf => buf
  | n + 1, tree_it, buf =>
    markTreesLoop stride leaf_i row_offsets tree_height n (tree_it + stride)
      (updateTreeLeafFull buf tree_it leaf_i row_offsets tree_height)

/-- The function `tral_mark`.  The result is the returned flag, the member
afterwards and the content of `*adr_out` afterwards (`adr_out` is its content
before the call). -/
def tral_mark (m : Member) (num_blocks adr_out : Nat) : Bool × Member × Nat :=
  let num_blocks_log2 := CEIL_LOG2_SMALL num_blocks
  let tree0 := m.num_leaves
  let tree := tree0 + u32 (num_blocks_log2 * m.tree_stride)
  if rd m.buf tree = 4294967295 then (false, m, adr_out)
  else
    let leaf_i := leafWithSpaceIndex m.buf tree m.row_offsets m.tree_height
    let blocks_offset := leafBlocksOffset (rd m.buf leaf_i) num_blocks_log2
    let buf1 := wr m.buf leaf_i
      (rd m.buf leaf_i ||| leafBlocksMask num_blocks_log2 blocks_offset)
    let adr := u32 (u32 (leaf_i <<< NUM_BRANCHES_LOG2) + blocks_offset)
    let update_start_i := leafHasSpaceEnd (rd buf1 leaf_i)
    let tree_it := tree0 + u32 (m.tree_stride * update_start_i)
    let buf2 := markTreesLoop m.tree_stride leaf_i m.row_offsets m.tree_height
      (NUM_TREES - update_start_i) tree_it buf1
    (true, { m with buf := buf2 }, adr)

/-- The tree loop of `tral_clear`: `n` trees left, `tree_it` the current tree. -/
def clearTreesLoop (stride leaf_i : Nat) (row_offsets : List Nat) (tree_height : Nat) :
    Nat → Nat → List Nat → List Nat
  | 0, _, buf => buf
  | n + 1, tree_it, buf =>
    clearTreesLoop stride leaf_i row_offsets tree_height n (tree_it + stride)
      (updateTreeLeafHasSpace buf tree_it leaf_i row_offsets tree_height)

/-- The function `tral_clear`. -/
def tral_clear (m : Member) (adr num_blocks : Nat) : Member :=
  let num_blocks_log2 := CEIL_LOG2_SMALL num_blocks
  let leaf_i := adr >>> NUM_BRANCHES_LOG2
  let blocks_offset := adr &&& BRANCH_INDEX_MASK
  let buf1 := wr m.buf leaf_i
    (rd m.buf leaf_i &&& not32 (leafBlocksMask num_blocks_log2 blocks_offset))
  let tree_it := m.num_leaves
  let update_end_i := leafHasSpaceEnd (rd buf1 leaf_i)
  let buf2 := clearTreesLoop m.tree_stride leaf_i m.row_offsets m.tree_height
    update_end_i tree_it buf1
  { m with buf := buf2 }

/-! ## Specification vocabulary -/

/-- Bits `o .. o+2^s-1` of the word `w` are all clear. -/
def runFree (w s o : Nat) : Prop := ∀ i, i < 2 ^ s → w.testBit (o + i) = false

instance (w s o : Nat) : Decidable (runFree w s o) := by
  unfold runFree; infer_instance

/-- The leaf word `w` holds a free run of `2^s` blocks at an offset that is a multiple of `2^s`. -/
def leafFree (w s : Nat) : Prop := ∃ o, o < 32 ∧ o % 2 ^ s = 0 ∧ runFree w s o

instance (w s : Nat) : Decidable (leafFree w s) := by
  unfold leafFree; infer_instance

/-- Number of nodes in row `r` of one tree with `t` top branches (row 0 is the top node). -/
def rowWidth (t : Nat) : Nat → Nat
  | 0 => 1
  | r + 1 => t * 32 ^ r

/-- Index of the first node of row `r` inside one tree; `rowStart t h` is the node count. -/
def rowStart (t : Nat) : Nat → Nat
  | 0 => 0
  | r + 1 => rowStart t r + rowWidth t r

/-- The geometry fields of a member describe a tree of height `1..6` with `2..32` top
branches over at most `2^27` leaves, and the buffer holds the leaves and the six trees. -/
structure Geom (m : Member) : Prop where
  h_pos : 1 ≤ m.tree_height
  h_le : m.tree_height ≤ 6
  t_ge : 2 ≤ m.num_top_branches
  t_le : m.num_top_branches ≤ 32
  leaves : m.num_leaves = m.num_top_branches * 32 ^ (m.tree_height - 1)
  leaves_le : m.num_leaves ≤ 134217728
  stride : m.tree_stride = rowStart m.num_top_branches m.tree_height
  stride_le : m.tree_stride ≤ m.num_leaves
  offs : ∀ r, r < m.tree_height → rd m.row_offsets r = rowStart m.num_top_branches r
  len : m.num_leaves + 6 * m.tree_stride ≤ m.buf.length

/-- No leaf below child `c` at depth `d` (counted upwards from the leaf row) has a free
aligned run of class `s`; `lv` gives the leaf words and `L` is the number of leaves. -/
def closedAt (lv : Nat → Nat) (L s d c : Nat) : Prop :=
  ∀ l, l < L → l / 32 ^ d = c → ¬ leafFree (lv l) s

/-- Row `r` of the class-`s` tree stored at word index `T` summarises the leaves `lv`:
bit `b` of node `j` is set iff child `32 * j + b` is closed. -/
def RowOK (buf : List Nat) (lv : Nat → Nat) (T t h s r : Nat) : Prop :=
  ∀ j, j < rowWidth t r →
    rd buf (T + rowStart t r + j) < 4294967296 ∧
    ∀ b, b < 32 → ((rd buf (T + rowStart t r + j)).testBit b = true ↔
      closedAt lv (t * 32 ^ (h - 1)) s (h - 1 - r) (32 * j + b))

/-- Every row of the class-`s` tree stored at word index `T` summarises the leaves `lv`. -/
def TreeOK (buf : List Nat) (lv : Nat → Nat) (T t h s : Nat) : Prop :=
  ∀ r, r < h → RowOK buf lv T t h s r

/-- The representation invariant of a member: sound geometry, 32-bit leaf words, and each
of the six trees summarises the leaf bitmap. -/
structure Inv (m : Member) : Prop where
  geom : Geom m
  words : ∀ l, l < m.num_leaves → rd m.buf l < 4294967296
  trees : ∀ s, s < 6 →
    TreeOK m.buf (rd m.buf) (m.num_leaves + s * m.tree_stride) m.num_top_branches m.tree_height s

/-- The buffer that `tral_mark` leaves behind once the descent has chosen leaf `leaf_i` for a
request of class `s`: the statements of `tral_mark` after the call of `leafWithSpaceIndex`,
named so that the proofs can refer to them. -/
def markBuf (m : Member) (s leaf_i : Nat) : List Nat :=
  let blocks_offset := leafBlocksOffset (rd m.buf leaf_i) s
  let buf1 := wr m.buf leaf_i (rd m.buf leaf_i ||| leafBlocksMask s blocks_offset)
  let update_start_i := leafHasSpaceEnd (rd buf1 leaf_i)
  markTreesLoop m.tree_stride leaf_i m.row_offsets m.tree_height (NUM_TREES - update_start_i)
    (m.num_leaves + u32 (m.tree_stride * update_start_i)) buf1

/-! ## Blocks, requests and reachable states -/

/-- Block `a` is in use: its bit in the leaf bitmap is set. -/
def blockUsed (m : Member) (a : Nat) : Bool := (rd m.buf (a / 32)).testBit (a % 32)

/-- Width of the size class of a request for `n` blocks: `2 ^ ceil(log2 n)`. -/
def classWidth (n : Nat) : Nat := 2 ^ CEIL_LOG2_SMALL n

/-- The blocks `a .. a + 2^s - 1` form a free run of class `s` inside the allocator,
starting at a multiple of `2^s`. -/
def freeRunAt (m : Member) (s a : Nat) : Prop :=
  a % 2 ^ s = 0 ∧ a + 2 ^ s ≤ tral_num_blocks m ∧ ∀ i, i < 2 ^ s → blockUsed m (a + i) = false

instance (m : Member) (s a : Nat) : Decidable (freeRunAt m s a) := by
  unfold freeRunAt; infer_instance

/-- The subtree below child `c` of a node of row `r` (the leaves `c * 32^d .. (c+1) * 32^d - 1`
with `d = tree_height - 1 - r`) contains a free aligned run of class `s`. -/
def subtreeHasFreeRun (m : Member) (s r c : Nat) : Prop :=
  ∃ a, a < tral_num_blocks m ∧ freeRunAt m s a ∧
    c * 32 ^ (m.tree_height - 1 - r) ≤ a / 32 ∧ a / 32 < (c + 1) * 32 ^ (m.tree_height - 1 - r)

instance (m : Member) (s r c : Nat) : Decidable (subtreeHasFreeRun m s r c) := by
  unfold subtreeHasFreeRun; infer_instance

/-- The ranges of two requests `(address, num_blocks)`, each of its class width, do not meet. -/
def disjointRanges (p q : Nat × Nat) : Prop :=
  p.1 + classWidth p.2 ≤ q.1 ∨ q.1 + classWidth q.2 ≤ p.1

/-- The states reachable from `tral_init_member` by `tral_mark` and valid `tral_clear` calls,
together with the outstanding marks `(address, num_blocks)`: a clear is valid when it repeats
the address and the `num_blocks` of an outstanding mark, which it then retires. -/
inductive Reachable : Member → List (Nat × Nat) → Prop
  | init (min_blocks : Nat) (buf : List Nat) (h1 : 1 ≤ min_blocks)
      (h2 : min_blocks ≤ 4294967296)
      (hbuf : tral_required_member_buffer_size min_blocks ≤ 4 * buf.length) :
      Reachable (tral_init_member min_blocks buf) []
  | mark_ok (m : Member) (outs : List (Nat × Nat)) (n a : Nat) (hr : Reachable m outs)
      (h1 : 1 ≤ n) (h2 : n ≤ 32) (hok : (tral_mark m n a).1 = true) :
      Reachable (tral_mark m n a).2.1 (((tral_mark m n a).2.2, n) :: outs)
  | mark_fail (m : Member) (outs : List (Nat × Nat)) (n a : Nat) (hr : Reachable m outs)
      (h1 : 1 ≤ n) (h2 : n ≤ 32) (hok : (tral_mark m n a).1 = false) :
      Reachable (tral_mark m n a).2.1 outs
  | clear (m : Member) (outs : List (Nat × Nat)) (adr n : Nat) (hr : Reachable m outs)
      (hmem : (adr, n) ∈ outs) :
      Reachable (tral_clear m adr n) (outs.erase (adr, n))

/-- The states reachable from `tral_init_member` by `tral_mark` and by `tral_clear` calls
with any address below `tral_num_blocks`, matching a mark or not. -/
inductive ReachableAny : Member → Prop
  | init (min_blocks : Nat) (buf : List Nat) (h1 : 1 ≤ min_blocks)
      (h2 : min_blocks ≤ 4294967296)
      (hbuf : tral_required_member_buffer_size min_blocks ≤ 4 * buf.length) :
      ReachableAny (tral_init_member min_blocks buf)
  | mark (m : Member) (n a : Nat) (hr : ReachableAny m) (h1 : 1 ≤ n) (h2 : n ≤ 32) :
      ReachableAny (tral_mark m n a).2.1
  | clear (m : Member) (adr n : Nat) (hr : ReachableAny m) (h1 : 1 ≤ n) (h2 : n ≤ 32)
      (hadr : adr < tral_num_blocks m) :
      ReachableAny (tral_clear m adr n)

/-- The outstanding marks account for the leaf bitmap: a block is in use iff it lies in the
range of an outstanding mark, the ranges are pairwise disjoint, aligned and inside the
allocator. -/
structure OutsOK (m : Member) (outs : List (Nat × Nat)) : Prop where
  marked : ∀ x, x < tral_num_blocks m →
    (blockUsed m x = true ↔ ∃ p, p ∈ outs ∧ p.1 ≤ x ∧ x < p.1 + classWidth p.2)
  disjoint : outs.Pairwise disjointRanges
  aligned : ∀ p, p ∈ outs → p.1 % classWidth p.2 = 0 ∧ p.1 + classWidth p.2 ≤ tral_num_blocks m

/-- Scenario driver: the requests `ns` passed to `tral_mark` one after the other, each with
an output cell that holds 0; the result is the final member and, per call, the returned
flag and the content of the output cell. -/
def markAll (m : Member) : List Nat → Member × List (Bool × Nat)
  | [] => (m, [])
  | n :: ns =>
    let r := tral_mark m n 0
    let rest := markAll r.2.1 ns
    (rest.1, (r.1, r.2.2) :: rest.2)

/-- A caller's buffer of `k` words with arbitrary content, for the scenarios. -/
def rawBuf (k : Nat) : List Nat := List.replicate k 3735928559

/-- The node count `1 + t + t * 32 + … + t * 32 ^ (k - 1)` of a tree with `k` rows below
the top node, `t` nodes in the first of them and a fan-out of 32. -/
def nodeCount (t : Nat) : Nat → Nat
  | 0 => 1
  | k + 1 => nodeCount t k + t * 32 ^ k

/-- The capacity counter of the loop of `treeHeight` after `k` shifts. -/
def capacityAfter : Nat → Nat
  | 0 => NUM_BRANCHES
  | k + 1 => u32 (capacityAfter k <<< NUM_BRANCHES_LOG2)

/-- Number of set bits among the 32 bits of a word. -/
def popCount32 (w : Nat) : Nat := (List.range 32).countP (fun i => w.testBit i)

/-- Number of 1 bits over all leaf words. -/
def leafBitCount (m : Member) : Nat :=
  ((List.range m.num_leaves).map (fun l => popCount32 (rd m.buf l))).sum

/-- The reachable states with the outstanding marks and two running totals: `W`, the class
widths of the successful `tral_mark` calls so far, and `C`, the class widths of the valid
`tral_clear` calls so far. -/
inductive ReachableCount : Member → List (Nat × Nat) → Nat → Nat → Prop
  | init (min_blocks : Nat) (buf : List Nat) (h1 : 1 ≤ min_blocks)
      (h2 : min_blocks ≤ 4294967296)
      (hbuf : tral_required_member_buffer_size min_blocks ≤ 4 * buf.length) :
      ReachableCount (tral_init_member min_blocks buf) [] 0 0
  | mark_ok (m : Member) (outs : List (Nat × Nat)) (W C n a : Nat)
      (hr : ReachableCount m outs W C) (h1 : 1 ≤ n) (h2 : n ≤ 32)
      (hok : (tral_mark m n a).1 = true) :
      ReachableCount (tral_mark m n a).2.1 (((tral_mark m n a).2.2, n) :: outs)
        (W + classWidth n) C
  | mark_fail (m : Member) (outs : List (Nat × Nat)) (W C n a : Nat)
      (hr : ReachableCount m outs W C) (h1 : 1 ≤ n) (h2 : n ≤ 32)
      (hok : (tral_mark m n a).1 = false) :
      ReachableCount (tral_mark m n a).2.1 outs W C
  | clear (m : Member) (outs : List (Nat × Nat)) (W C adr n : Nat)
      (hr : ReachableCount m outs W C) (hmem : (adr, n) ∈ outs) :
      ReachableCount (tral_clear m adr n) (outs.erase (adr, n)) W (C + classWidth n)

/-- The `(row, node index)` pairs at which the loop of `leafWithSpaceIndex` reads a node
(`tree[row_offsets[i] + node_i]`), in the order of the reads. -/
def leafWithSpaceReads (buf : List Nat) (tree : Nat) (row_offsets : List Nat) :
    Nat → Nat → Nat → List (Nat × Nat)
  | 0, _, _ => []
  | n + 1, i, node_i =>
    let node := rd buf (tree + rd row_offsets i + node_i)
    let branch_i := indexOfFirstZero node
    (i, node_i) :: leafWithSpaceReads buf tree row_offsets n (i + 1)
      (u32 (u32 (node_i <<< NUM_BRANCHES_LOG2) + branch_i))

/-- The `(row, node index)` pairs at which the loop of `updateTreeLeafFull` reads and writes
a node (`tree + row_offsets[row_i] + node_i`), in order. -/
def updateTreeLeafFullWrites (tree : Nat) (row_offsets : List Nat) :
    Nat → Nat → Nat → List Nat → List (Nat × Nat)
  | 0, _, node_i, _ => [(0, node_i)]
  | row_i + 1, branch_i, node_i, buf =>
    let node := tree + rd row_offsets (row_i + 1) + node_i
    let buf1 := wr buf node (rd buf node ||| u32 (1 <<< branch_i))
    let node_has_space_left := not32 (rd buf1 node) ≠ 0
    if node_has_space_left then [(row_i + 1, node_i)]
    else (row_i + 1, node_i) :: updateTreeLeafFullWrites tree row_offsets row_i
      (node_i &&& BRANCH_INDEX_MASK) (node_i >>> NUM_BRANCHES_LOG2) buf1

/-- The `(row, node index)` pairs at which the loop of `updateTreeLeafHasSpace` reads and
writes a node, in order. -/
def updateTreeLeafHasSpaceWrites (tree : Nat) (row_offsets : List Nat) :
    Nat → Nat → Nat → List Nat → List (Nat × Nat)
  | 0, _, node_i, _ => [(0, node_i)]
  | row_i + 1, branch_i, node_i, buf =>
    let node := tree + rd row_offsets (row_i + 1) + node_i
    let node_had_space := not32 (rd buf node) ≠ 0
    let buf1 := wr buf node (rd buf node &&& not32 (u32 (1 <<< branch_i)))
    if node_had_space then [(row_i + 1, node_i)]
    else (row_i + 1, node_i) :: updateTreeLeafHasSpaceWrites tree row_offsets row_i
      (node_i &&& BRANCH_INDEX_MASK) (node_i >>> NUM_BRANCHES_LOG2) buf1

/-- The `(tree, row, node index)` triples touched by the tree loop of `tral_mark`: the nodes
touched by `updateTreeLeafFull` in each of the `n` trees from `tree_it` on. -/
def markTreesWrites (stride leaf_i : Nat) (row_offsets : List Nat) (tree_height : Nat) :
    Nat → Nat → List Nat → List (Nat × Nat × Nat)
  | 0, _, _ => []
  | n + 1, tree_it, buf =>
    (updateTreeLeafFullWrites tree_it row_offsets (tree_height - 1)
        (leaf_i &&& BRANCH_INDEX_MASK) (leaf_i >>> NUM_BRANCHES_LOG2) buf).map
        (fun p => (tree_it, p)) ++
      markTreesWrites stride leaf_i row_offsets tree_height n (tree_it + stride)
        (updateTreeLeafFull buf tree_it leaf_i row_offsets tree_height)

/-- The `(tree, row, node index)` triples touched by the tree loop of `tral_clear`: the nodes
touched by `updateTreeLeafHasSpace` in each of the `n` trees from `tree_it` on. -/
def clearTreesWrites (stride leaf_i : Nat) (row_offsets : List Nat) (tree_height : Nat) :
    Nat → Nat → List Nat → List (Nat × Nat × Nat)
  | 0, _, _ => []
  | n + 1, tree_it, buf =>
    (updateTreeLeafHasSpaceWrites tree_it row_offsets (tree_height - 1)
        (leaf_i &&& BRANCH_INDEX_MASK) (leaf_i >>> NUM_BRANCHES_LOG2) buf).map
        (fun p => (tree_it, p)) ++
      clearTreesWrites stride leaf_i row_offsets tree_height n (tree_it + stride)
        (updateTreeLeafHasSpace buf tree_it leaf_i row_offsets tree_height)

/-- The word index of the node `(tree, row, node index)`: `tree + row_offsets[row] + node_i`. -/
def nodeWord (row_offsets : List Nat) (q : Nat × Nat × Nat) : Nat :=
  q.1 + rd row_offsets q.2.1 + q.2.2

/-- The nodes `(tree, row, node index)` that `tral_mark` addresses through `row_offsets`:
the descent of `leafWithSpaceIndex`, then the updates of the trees. -/
def tral_mark_nodes (m : Member) (num_blocks : Nat) : List (Nat × Nat × Nat) :=
  let num_blocks_log2 := CEIL_LOG2_SMALL num_blocks
  let tree0 := m.num_leaves
  let tree := tree0 + u32 (num_blocks_log2 * m.tree_stride)
  if rd m.buf tree = 4294967295 then []
  else
    let leaf_i := leafWithSpaceIndex m.buf tree m.row_offsets m.tree_height
    let blocks_offset := leafBlocksOffset (rd m.buf leaf_i) num_blocks_log2
    let buf1 := wr m.buf leaf_i
      (rd m.buf leaf_i ||| leafBlocksMask num_blocks_log2 blocks_offset)
    let update_start_i := leafHasSpaceEnd (rd buf1 leaf_i)
    let tree_it := tree0 + u32 (m.tree_stride * update_start_i)
    (leafWithSpaceReads m.buf tree m.row_offsets (m.tree_height - 1) 1
        (indexOfFirstZero (rd m.buf tree))).map (fun p => (tree, p)) ++
      markTreesWrites m.tree_stride leaf_i m.row_offsets m.tree_height
        (NUM_TREES - update_start_i) tree_it buf1

/-- The word indices of the buffer that `tral_mark` reads or writes, in order: the top node
of the tree of the class, then, if the tree is not full, the nodes of the descent, the leaf
and the nodes updated in the trees. -/
def tral_mark_words (m : Member) (num_blocks : Nat) : List Nat :=
  let num_blocks_log2 := CEIL_LOG2_SMALL num_blocks
  let tree0 := m.num_leaves
  let tree := tree0 + u32 (num_blocks_log2 * m.tree_stride)
  if rd m.buf tree = 4294967295 then [tree]
  else
    let leaf_i := leafWithSpaceIndex m.buf tree m.row_offsets m.tree_height
    let blocks_offset := leafBlocksOffset (rd m.buf leaf_i) num_blocks_log2
    let buf1 := wr m.buf leaf_i
      (rd m.buf leaf_i ||| leafBlocksMask num_blocks_log2 blocks_offset)
    let update_start_i := leafHasSpaceEnd (rd buf1 leaf_i)
    let tree_it := tree0 + u32 (m.tree_stride * update_start_i)
    tree :: ((leafWithSpaceReads m.buf tree m.row_offsets (m.tree_height - 1) 1
        (indexOfFirstZero (rd m.buf tree))).map (fun p => nodeWord m.row_offsets (tree, p)) ++
      leaf_i :: (markTreesWrites m.tree_stride leaf_i m.row_offsets m.tree_height
        (NUM_TREES - update_start_i) tree_it buf1).map (nodeWord m.row_offsets))

/-- The nodes `(tree, row, node index)` that `tral_clear` addresses through `row_offsets`. -/
def tral_clear_nodes (m : Member) (adr num_blocks : Nat) : List (Nat × Nat × Nat) :=
  let num_blocks_log2 := CEIL_LOG2_SMALL num_blocks
  let leaf_i := adr >>> NUM_BRANCHES_LOG2
  let blocks_offset := adr &&& BRANCH_INDEX_MASK
  let buf1 := wr m.buf leaf_i
    (rd m.buf leaf_i &&& not32 (leafBlocksMask num_blocks_log2 blocks_offset))
  let tree_it := m.num_leaves
  let update_end_i := leafHasSpaceEnd (rd buf1 leaf_i)
  clearTreesWrites m.tree_stride leaf_i m.row_offsets m.tree_height update_end_i tree_it buf1

/-- The word indices of the buffer that `tral_clear` reads or writes, in order: the leaf,
then the nodes updated in the trees. -/
def tral_clear_words (m : Member) (adr num_blocks : Nat) : List Nat :=
  (adr >>> NUM_BRANCHES_LOG2) :: (tral_clear_nodes m adr num_blocks).map (nodeWord m.row_offsets)

/-! ## Words and bits -/

theorem u32_lt (x : Nat) : u32 x < 4294967296 := Nat.mod_lt _ (by norm_num)

theorem u32_of_lt {x : Nat} (h : x < 4294967296) : u32 x = x := Nat.mod_eq_of_lt h

theorem testBit_u32 (x i : Nat) : (u32 x).testBit i = (decide (i < 32) && x.testBit i) := by
  unfold u32
  rw [show (4294967296 : Nat) = 2 ^ 32 by norm_num, Nat.testBit_mod_two_pow]

theorem not32_lt (x : Nat) : not32 x < 4294967296 := by
  unfold not32; omega

theorem testBit_not32 (x i : Nat) :
    (not32 x).testBit i = (decide (i < 32) && !x.testBit i) := by
  have h := Nat.testBit_two_pow_sub_succ (x := u32 x) (n := 32) (u32_lt x) i
  have e : not32 x = 2 ^ 32 - (u32 x + 1) := by unfold not32; omega
  rw [e, h, testBit_u32]
  by_cases hi : i < 32 <;> simp [hi]

theorem testBit_of_lt_word {x i : Nat} (hx : x < 4294967296) (hi : 32 ≤ i) :
    x.testBit i = false := by
  apply Nat.testBit_lt_two_pow
  calc x < 2 ^ 32 := hx
    _ ≤ 2 ^ i := Nat.pow_le_pow_right (by norm_num) hi

theorem lt_word_of_testBit {x : Nat} (h : ∀ i, 32 ≤ i → x.testBit i = false) :
    x < 4294967296 := Nat.lt_pow_two_of_testBit x h

theorem or_lt_word {x y : Nat} (hx : x < 4294967296) (hy : y < 4294967296) :
    x ||| y < 4294967296 := Nat.or_lt_two_pow (n := 32) hx hy

theorem and_lt_word {x y : Nat} (hx : x < 4294967296) : x &&& y < 4294967296 := by
  rw [Nat.and_comm]; exact Nat.and_lt_two_pow (n := 32) y hx

/-- A word is all ones exactly when each of its 32 bits is set. -/
theorem eq_ones_iff {x : Nat} (hx : x < 4294967296) :
    x = 4294967295 ↔ ∀ b, b < 32 → x.testBit b = true := by
  constructor
  · intro h b hb
    rw [h, show (4294967295 : Nat) = 2 ^ 32 - 1 by norm_num, Nat.testBit_two_pow_sub_one]
    simpa using hb
  · intro h
    apply Nat.eq_of_testBit_eq
    intro i
    rw [show (4294967295 : Nat) = 2 ^ 32 - 1 by norm_num, Nat.testBit_two_pow_sub_one]
    by_cases hi : i < 32
    · simp [hi, h i hi]
    · simp [hi, testBit_of_lt_word (i := i) hx (by omega)]

theorem not32_eq_zero_iff {x : Nat} (hx : x < 4294967296) :
    not32 x = 0 ↔ x = 4294967295 := by
  unfold not32; rw [u32_of_lt hx]; omega

/-- Every nonzero number has a lowest set bit. -/
theorem exists_lowest_bit {y : Nat} (hy : y ≠ 0) :
    ∃ k, y.testBit k = true ∧ ∀ i, i < k → y.testBit i = false := by
  classical
  have hex := Nat.ne_zero_implies_bit_true hy
  refine ⟨Nat.find hex, Nat.find_spec hex, ?_⟩
  intro i hi
  have := Nat.find_min hex hi
  simpa using this

theorem mod_of_lowest_bit {y k : Nat} (hk : y.testBit k = true)
    (hlow : ∀ i, i < k → y.testBit i = false) : y % 2 ^ (k + 1) = 2 ^ k := by
  apply Nat.eq_of_testBit_eq
  intro i
  rw [Nat.testBit_mod_two_pow, Nat.testBit_two_pow]
  by_cases h1 : i < k
  · have : k ≠ i := by omega
    simp [hlow i h1, this]
  · by_cases h2 : i = k
    · subst h2; simp [hk]
    · have h3 : ¬ i < k + 1 := by omega
      have : k ≠ i := by omega
      simp [h3, this]

/-- The idiom `y & -y` isolates the lowest set bit. -/
theorem and_neg32 {y k : Nat} (hy : y < 4294967296) (hk : y.testBit k = true)
    (hlow : ∀ i, i < k → y.testBit i = false) : y &&& neg32 y = 2 ^ k := by
  have hk32 : k < 32 := by
    by_contra hc
    rw [testBit_of_lt_word hy (by omega)] at hk
    exact Bool.noConfusion hk
  have hmod := mod_of_lowest_bit hk hlow
  have hdm := Nat.div_add_mod y (2 ^ (k + 1))
  rw [hmod] at hdm
  set q := y / 2 ^ (k + 1) with hq
  have hpos : 0 < 2 ^ k := Nat.two_pow_pos k
  have hlt : 2 ^ k < 2 ^ (k + 1) := Nat.pow_lt_pow_right (by norm_num) (by omega)
  have hy1 : y - 1 = 2 ^ (k + 1) * q + (2 ^ k - 1) := by omega
  have hypos : 0 < y := by omega
  have hneg : neg32 y = 2 ^ 32 - ((y - 1) + 1) := by
    unfold neg32; rw [u32_of_lt hy]; unfold u32; omega
  have hy1lt : y - 1 < 2 ^ 32 := by omega
  apply Nat.eq_of_testBit_eq
  intro i
  rw [Nat.testBit_and, hneg, Nat.testBit_two_pow_sub_succ hy1lt, Nat.testBit_two_pow]
  have ey : y.testBit i = if i < k + 1 then (2 ^ k).testBit i else q.testBit (i - (k + 1)) := by
    conv_lhs => rw [← hdm]
    exact Nat.testBit_mul_pow_two_add q hlt i
  have ey1 : (y - 1).testBit i =
      if i < k + 1 then (2 ^ k - 1).testBit i else q.testBit (i - (k + 1)) := by
    rw [hy1]
    exact Nat.testBit_mul_pow_two_add q (by omega) i
  rw [ey, ey1, Nat.testBit_two_pow, Nat.testBit_two_pow_sub_one]
  by_cases h1 : i < k
  · have : k ≠ i := by omega
    have h2 : i < k + 1 := by omega
    simp [h1, h2, this]
  · by_cases h2 : i = k
    · subst h2; simp [hk32]
    · have h3 : ¬ i < k + 1 := by omega
      have : k ≠ i := by omega
      simp [h3, this]
      exact fun h _ => h

theorem neg32_zero : neg32 0 = 0 := by decide

/-- The flag cascade of `countTrailingZeros` on a single bit. -/
theorem ctz_flags_pow (k : Nat) (hk : k < 32) :
    ((b2n (2 ^ k &&& 0xffff0000 ≠ 0) <<< 4) ||| (b2n (2 ^ k &&& 0xff00ff00 ≠ 0) <<< 3) |||
      (b2n (2 ^ k &&& 0xf0f0f0f0 ≠ 0) <<< 2) ||| (b2n (2 ^ k &&& 0xcccccccc ≠ 0) <<< 1) |||
      b2n (2 ^ k &&& 0xaaaaaaaa ≠ 0)) = k := by
  interval_cases k <;> decide

/-- On a nonzero word `countTrailingZeros` is the index of the lowest set bit. -/
theorem countTrailingZeros_spec {y k : Nat} (hy : y < 4294967296) (hk : y.testBit k = true)
    (hlow : ∀ i, i < k → y.testBit i = false) : countTrailingZeros y = k := by
  have hk32 : k < 32 := by
    by_contra hc
    rw [testBit_of_lt_word hy (by omega)] at hk
    exact Bool.noConfusion hk
  unfold countTrailingZeros
  simp only [and_neg32 hy hk hlow]
  exact ctz_flags_pow k hk32

/-- On a word that is not all ones `indexOfFirstZero` is the index of the lowest clear bit. -/
theorem indexOfFirstZero_spec {x k : Nat} (hk32 : k < 32) (hk : x.testBit k = false)
    (hlow : ∀ i, i < k → x.testBit i = true) : indexOfFirstZero x = k := by
  unfold indexOfFirstZero
  apply countTrailingZeros_spec (not32_lt x)
  · rw [testBit_not32]; simp [hk32, hk]
  · intro i hi
    rw [testBit_not32]; simp [hlow i hi]

/-- A word that is not all ones has a lowest clear bit. -/
theorem exists_lowest_zero {x : Nat} (hx : x < 4294967296) (hne : x ≠ 4294967295) :
    ∃ k, k < 32 ∧ x.testBit k = false ∧ ∀ i, i < k → x.testBit i = true := by
  have hnz : not32 x ≠ 0 := fun h => hne ((not32_eq_zero_iff hx).1 h)
  obtain ⟨k, hk, hlow⟩ := exists_lowest_bit hnz
  rw [testBit_not32] at hk
  have hk32 : k < 32 := by
    by_contra hc; simp [hc] at hk
  refine ⟨k, hk32, by simpa [hk32] using hk, ?_⟩
  intro i hi
  have := hlow i hi
  rw [testBit_not32] at this
  have hi32 : i < 32 := by omega
  simpa [hi32] using this

/-! ## Leaf analysis: `leafHasSpaceEnd` -/

theorem runFree_zero (w o : Nat) : runFree w 0 o ↔ w.testBit o = false := by
  unfold runFree
  constructor
  · intro h; simpa using h 0 (by norm_num)
  · intro h i hi
    have : i = 0 := by simpa using hi
    subst this; simpa using h

theorem runFree_succ (w s o : Nat) :
    runFree w (s + 1) o ↔ runFree w s o ∧ runFree w s (o + 2 ^ s) := by
  unfold runFree
  have hp : 2 ^ (s + 1) = 2 ^ s + 2 ^ s := by rw [pow_succ]; omega
  constructor
  · intro h
    refine ⟨fun i hi => h i (by omega), fun i hi => ?_⟩
    have := h (2 ^ s + i) (by omega)
    rwa [← Nat.add_assoc] at this
  · rintro ⟨h1, h2⟩ i hi
    by_cases hlt : i < 2 ^ s
    · exact h1 i hlt
    · have := h2 (i - 2 ^ s) (by omega)
      rwa [show o + 2 ^ s + (i - 2 ^ s) = o + i by omega] at this

theorem runFree_mono {w w' : Nat} (h : ∀ i, w.testBit i = true → w'.testBit i = true)
    {s o : Nat} (hf : runFree w' s o) : runFree w s o := by
  intro i hi
  have := hf i hi
  by_contra hc
  rw [h _ (by simpa using hc)] at this
  exact Bool.noConfusion this

theorem leafFree_mono {w w' : Nat} (h : ∀ i, w.testBit i = true → w'.testBit i = true)
    {s : Nat} (hf : leafFree w' s) : leafFree w s := by
  obtain ⟨o, ho, ha, hr⟩ := hf
  exact ⟨o, ho, ha, runFree_mono h hr⟩

/-- A free aligned run of a class contains a free aligned run of the class below. -/
theorem leafFree_pred {w s : Nat} (hf : leafFree w (s + 1)) : leafFree w s := by
  obtain ⟨o, ho, ha, hr⟩ := hf
  refine ⟨o, ho, ?_, ((runFree_succ w s o).1 hr).1⟩
  have h1 : 2 ^ s ∣ 2 ^ (s + 1) := pow_dvd_pow 2 (by omega)
  exact Nat.mod_eq_zero_of_dvd (dvd_trans h1 (Nat.dvd_of_mod_eq_zero ha))

theorem testBit_mask_gen {m : Nat} (hm : m < 4294967296) (p : Nat → Bool)
    (h : ∀ i, i < 32 → m.testBit i = p i) (i : Nat) :
    m.testBit i = (decide (i < 32) && p i) := by
  by_cases hi : i < 32
  · simp [hi, h i hi]
  · simp [hi, testBit_of_lt_word (i := i) hm (by omega)]

theorem testBit_fold_mask (j : Nat) (hj : j < 4) (i : Nat) :
    (fold_mask j).testBit i = (decide (i < 32) && decide (i % 2 ^ (j + 1) = 0)) := by
  apply testBit_mask_gen
  · interval_cases j <;> decide
  · intro i hi
    interval_cases j <;> interval_cases i <;> rfl

/-- One round of the fold of `leafHasSpaceEnd`: from free runs of class `j` to class `j+1`. -/
theorem fold_step (w f j : Nat) (hj : j < 4)
    (hf : ∀ i, f.testBit i = (decide (i < 32) && decide (i % 2 ^ j = 0 ∧ runFree w j i))) (i : Nat) :
    ((f >>> (1 <<< j)) &&& f &&& fold_mask j).testBit i =
      (decide (i < 32) && decide (i % 2 ^ (j + 1) = 0 ∧ runFree w (j + 1) i)) := by
  rw [Nat.testBit_and, Nat.testBit_and, Nat.testBit_shiftRight, hf, hf, testBit_fold_mask j hj,
    Nat.shiftLeft_eq, Nat.one_mul]
  by_cases hi : i < 32
  swap
  · simp [hi]
  by_cases ha : i % 2 ^ (j + 1) = 0
  swap
  · simp [hi, ha]
  have hp : 2 ^ (j + 1) = 2 ^ j + 2 ^ j := by rw [pow_succ]; omega
  have h1 : 2 ^ j + i < 32 := by
    interval_cases j <;> simp at ha ⊢ <;> omega
  have h2 : (2 ^ j + i) % 2 ^ j = 0 := by
    interval_cases j <;> simp at ha ⊢ <;> omega
  have h3 : i % 2 ^ j = 0 := by
    interval_cases j <;> simp at ha ⊢ <;> omega
  simp only [runFree_succ, Nat.add_comm i (2 ^ j), hi, ha, h1, h2, h3, true_and, decide_True,
    Bool.true_and]
  by_cases r1 : runFree w j i <;> by_cases r2 : runFree w j (2 ^ j + i) <;> simp [r1, r2]

theorem ne_zero_iff_testBit (x : Nat) : x ≠ 0 ↔ ∃ i, x.testBit i = true := by
  constructor
  · exact Nat.ne_zero_implies_bit_true
  · rintro ⟨i, hi⟩ h
    rw [h, Nat.zero_testBit] at hi
    exact Bool.noConfusion hi

theorem fold_ne_zero_iff (w f j : Nat)
    (hf : ∀ i, f.testBit i = (decide (i < 32) && decide (i % 2 ^ j = 0 ∧ runFree w j i))) :
    f ≠ 0 ↔ leafFree w j := by
  rw [ne_zero_iff_testBit]
  constructor
  · rintro ⟨i, hi⟩
    rw [hf] at hi
    simp at hi
    exact ⟨i, hi.1, hi.2.1, hi.2.2⟩
  · rintro ⟨o, ho, ha, hr⟩
    refine ⟨o, ?_⟩
    rw [hf]; simp [ho, ha, hr]

theorem leafFree_five_iff {w : Nat} (hw : w < 4294967296) : leafFree w 5 ↔ w = 0 := by
  constructor
  · rintro ⟨o, ho, ha, hr⟩
    have ho0 : o = 0 := by norm_num at ha; omega
    subst ho0
    apply Nat.eq_of_testBit_eq
    intro i
    rw [Nat.zero_testBit]
    by_cases hi : i < 32
    · simpa using hr i (by norm_num; exact hi)
    · exact testBit_of_lt_word hw (by omega)
  · intro h
    subst h
    exact ⟨0, by norm_num, by norm_num, fun i _ => Nat.zero_testBit _⟩

/-- The function `leafHasSpaceEnd` counts the size classes that still have a free aligned slot. -/
theorem leafHasSpaceEnd_eq {w : Nat} (hw : w < 4294967296) :
    leafHasSpaceEnd w = b2n (leafFree w 0) + b2n (leafFree w 5) + b2n (leafFree w 1) +
      b2n (leafFree w 2) + b2n (leafFree w 3) + b2n (leafFree w 4) := by
  have h0 : ∀ i, (not32 w).testBit i =
      (decide (i < 32) && decide (i % 2 ^ 0 = 0 ∧ runFree w 0 i)) := by
    intro i
    rw [testBit_not32]
    by_cases hb : w.testBit i = true <;> simp [runFree_zero, hb, Nat.mod_one]
  have h1 := fold_step w _ 0 (by norm_num) h0
  have h2 := fold_step w _ 1 (by norm_num) h1
  have h3 := fold_step w _ 2 (by norm_num) h2
  have h4 := fold_step w _ 3 (by norm_num) h3
  have e0 := fold_ne_zero_iff w _ 0 h0
  have e1 := fold_ne_zero_iff w _ 1 h1
  have e2 := fold_ne_zero_iff w _ 2 h2
  have e3 := fold_ne_zero_iff w _ 3 h3
  have e4 := fold_ne_zero_iff w _ 4 h4
  have e5 := leafFree_five_iff hw
  unfold leafHasSpaceEnd
  simp only [leafHasSpaceLoop]
  unfold b2n
  simp only [e0, e1, e2, e3, e4, e5]

/-- Exactness of `leafHasSpaceEnd`: class `s` has a free aligned slot iff `s` is below the result. -/
theorem leafHasSpaceEnd_spec {w s : Nat} (hw : w < 4294967296) (hs : s < 6) :
    s < leafHasSpaceEnd w ↔ leafFree w s := by
  rw [leafHasSpaceEnd_eq hw]
  have m0 : leafFree w 1 → leafFree w 0 := leafFree_pred
  have m1 : leafFree w 2 → leafFree w 1 := leafFree_pred
  have m2 : leafFree w 3 → leafFree w 2 := leafFree_pred
  have m3 : leafFree w 4 → leafFree w 3 := leafFree_pred
  have m4 : leafFree w 5 → leafFree w 4 := leafFree_pred
  unfold b2n
  by_cases a0 : leafFree w 0 <;> by_cases a1 : leafFree w 1 <;> by_cases a2 : leafFree w 2 <;>
    by_cases a3 : leafFree w 3 <;> by_cases a4 : leafFree w 4 <;> by_cases a5 : leafFree w 5 <;>
    first
    | exact absurd (m0 a1) a0
    | exact absurd (m1 a2) a1
    | exact absurd (m2 a3) a2
    | exact absurd (m3 a4) a3
    | exact absurd (m4 a5) a4
    | (interval_cases s <;> simp [a0, a1, a2, a3, a4, a5])

theorem leafHasSpaceEnd_le (w : Nat) : leafHasSpaceEnd w ≤ 6 := by
  unfold leafHasSpaceEnd
  simp only [leafHasSpaceLoop]
  unfold b2n
  split_ifs <;> omega

/-! ## Leaf analysis: `leafBlocksOffset` and `leafBlocksMask` -/

/-- One round of the OR cascade of `leafBlocksOffset`: bit `i` of the folded word is clear
exactly at the aligned offsets that start a free run. -/
theorem orfold_step (x g j sh M : Nat) (hj : j < 3) (hsh : sh = 2 ^ j)
    (hM : ∀ i, i < 32 → M.testBit i = decide (i % 2 ^ (j + 1) ≠ 0))
    (hg : ∀ i, i < 32 → g.testBit i = !decide (i % 2 ^ j = 0 ∧ runFree x j i))
    (i : Nat) (hi : i < 32) :
    ((g >>> sh) ||| g ||| M).testBit i = !decide (i % 2 ^ (j + 1) = 0 ∧ runFree x (j + 1) i) := by
  rw [Nat.testBit_or, Nat.testBit_or, Nat.testBit_shiftRight, hM i hi, hg i hi]
  subst hsh
  by_cases ha : i % 2 ^ (j + 1) = 0
  swap
  · simp [ha]
  have h1 : 2 ^ j + i < 32 := by
    interval_cases j <;> simp at ha ⊢ <;> omega
  have h2 : (2 ^ j + i) % 2 ^ j = 0 := by
    interval_cases j <;> simp at ha ⊢ <;> omega
  have h3 : i % 2 ^ j = 0 := by
    interval_cases j <;> simp at ha ⊢ <;> omega
  rw [hg _ h1]
  simp only [runFree_succ, Nat.add_comm i (2 ^ j), ha, h2, h3, true_and, ne_eq, not_true_eq_false,
    decide_False, Bool.or_false]
  by_cases r1 : runFree x j i <;> by_cases r2 : runFree x j (2 ^ j + i) <;> simp [r1, r2]

theorem orfold_zero (x i : Nat) :
    x.testBit i = !decide (i % 2 ^ 0 = 0 ∧ runFree x 0 i) := by
  by_cases hb : x.testBit i = true <;> simp [runFree_zero, hb, Nat.mod_one]

theorem orfold_one (x : Nat) (i : Nat) (hi : i < 32) :
    ((x >>> 1) ||| x ||| 0xaaaaaaaa).testBit i = !decide (i % 2 ^ 1 = 0 ∧ runFree x 1 i) :=
  orfold_step x x 0 1 0xaaaaaaaa (by norm_num) (by norm_num)
    (fun i hi => by interval_cases i <;> rfl) (fun i _ => orfold_zero x i) i hi

theorem orfold_two (x : Nat) (i : Nat) (hi : i < 32) :
    ((((x >>> 1) ||| x ||| 0xaaaaaaaa) >>> 2) ||| ((x >>> 1) ||| x ||| 0xaaaaaaaa) |||
      0xeeeeeeee).testBit i = !decide (i % 2 ^ 2 = 0 ∧ runFree x 2 i) :=
  orfold_step x _ 1 2 0xeeeeeeee (by norm_num) (by norm_num)
    (fun i hi => by interval_cases i <;> rfl) (orfold_one x) i hi

theorem orfold_three (x : Nat) (i : Nat) (hi : i < 32) :
    ((((((x >>> 1) ||| x ||| 0xaaaaaaaa) >>> 2) ||| ((x >>> 1) ||| x ||| 0xaaaaaaaa) |||
      0xeeeeeeee) >>> 4) ||| ((((x >>> 1) ||| x ||| 0xaaaaaaaa) >>> 2) |||
      ((x >>> 1) ||| x ||| 0xaaaaaaaa) ||| 0xeeeeeeee) ||| 0xfefefefe).testBit i =
      !decide (i % 2 ^ 3 = 0 ∧ runFree x 3 i) :=
  orfold_step x _ 2 4 0xfefefefe (by norm_num) (by norm_num)
    (fun i hi => by interval_cases i <;> rfl) (orfold_two x) i hi

/-- Among the aligned offsets that start a free run there is a lowest one. -/
theorem exists_lowest_free {x s : Nat} (hfree : leafFree x s) :
    ∃ k, k < 32 ∧ k % 2 ^ s = 0 ∧ runFree x s k ∧
      ∀ o, o < k → o % 2 ^ s = 0 → ¬ runFree x s o := by
  classical
  have hex : ∃ k, k < 32 ∧ k % 2 ^ s = 0 ∧ runFree x s k := hfree
  obtain ⟨h1, h2, h3⟩ := Nat.find_spec hex
  refine ⟨Nat.find hex, h1, h2, h3, ?_⟩
  intro o ho ha hr
  exact Nat.find_min hex ho ⟨by omega, ha, hr⟩

/-- The lowest set bit of the complemented fold is the lowest aligned free offset. -/
theorem lowest_of_fold {x g s k : Nat}
    (hg : ∀ i, i < 32 → g.testBit i = !decide (i % 2 ^ s = 0 ∧ runFree x s i))
    (hk : k < 32) (ha : k % 2 ^ s = 0) (hr : runFree x s k)
    (hmin : ∀ o, o < k → o % 2 ^ s = 0 → ¬ runFree x s o) :
    (not32 g).testBit k = true ∧ ∀ i, i < k → (not32 g).testBit i = false := by
  constructor
  · rw [testBit_not32, hg k hk]; simp [hk, ha, hr]
  · intro i hi
    have hi32 : i < 32 := by omega
    rw [testBit_not32, hg i hi32]
    have := hmin i hi
    simp [hi32]
    exact this

theorem flags_pow_three (k : Nat) (hk : k < 32) (ha : k % 8 = 0) :
    ((b2n (2 ^ k &&& 0xffff0000 ≠ 0) <<< 4) ||| (b2n (2 ^ k &&& 0xff00ff00 ≠ 0) <<< 3)) = k := by
  interval_cases k <;> first | decide | omega

theorem flags_pow_two (k : Nat) (hk : k < 32) (ha : k % 4 = 0) :
    ((b2n (2 ^ k &&& 0xffff0000 ≠ 0) <<< 4) ||| (b2n (2 ^ k &&& 0xff00ff00 ≠ 0) <<< 3) |||
      (b2n (2 ^ k &&& 0xf0f0f0f0 ≠ 0) <<< 2)) = k := by
  interval_cases k <;> first | decide | omega

theorem and_low_half_eq_zero_iff (x : Nat) : x &&& 0xffff = 0 ↔ runFree x 4 0 := by
  constructor
  · intro h i hi
    have := congrArg (fun v => Nat.testBit v i) h
    simp only [Nat.testBit_and, Nat.zero_testBit] at this
    have hm : (0xffff : Nat).testBit i = true := by
      rw [show (0xffff : Nat) = 2 ^ 16 - 1 by norm_num, Nat.testBit_two_pow_sub_one]
      simpa using hi
    rw [hm, Bool.and_true] at this
    simpa using this
  · intro h
    apply Nat.eq_of_testBit_eq
    intro i
    rw [Nat.testBit_and, Nat.zero_testBit,
      show (0xffff : Nat) = 2 ^ 16 - 1 by norm_num, Nat.testBit_two_pow_sub_one]
    by_cases hi : i < 16
    · have := h i (by norm_num; exact hi)
      simp at this
      simp [this]
    · simp [hi]

/-- The function `leafBlocksOffset` returns the lowest aligned offset of a free run of the class. -/
theorem leafBlocksOffset_eq {x s k : Nat} (hs : s < 6)
    (hk : k < 32) (ha : k % 2 ^ s = 0) (hr : runFree x s k)
    (hmin : ∀ o, o < k → o % 2 ^ s = 0 → ¬ runFree x s o) : leafBlocksOffset x s = k := by
  interval_cases s
  · -- class 0
    have h := lowest_of_fold (g := x) (fun i _ => orfold_zero x i) hk ha hr hmin
    exact countTrailingZeros_spec (not32_lt _) h.1 h.2
  · have h := lowest_of_fold (orfold_one x) hk ha hr hmin
    exact countTrailingZeros_spec (not32_lt _) h.1 h.2
  · have h := lowest_of_fold (orfold_two x) hk ha hr hmin
    have e := and_neg32 (not32_lt _) h.1 h.2
    simp only [leafBlocksOffset, e]
    exact flags_pow_two k hk ha
  · have h := lowest_of_fold (orfold_three x) hk ha hr hmin
    have e := and_neg32 (not32_lt _) h.1 h.2
    simp only [leafBlocksOffset, e]
    exact flags_pow_three k hk ha
  · -- class 4
    have hk2 : k = 0 ∨ k = 16 := by norm_num at ha; omega
    simp only [leafBlocksOffset]
    rcases hk2 with h0 | h16
    · subst h0
      have := (and_low_half_eq_zero_iff x).2 hr
      simp [this, b2n]
    · subst h16
      have h0 : ¬ runFree x 4 0 := hmin 0 (by norm_num) (by norm_num)
      have : x &&& 0xffff ≠ 0 := fun h => h0 ((and_low_half_eq_zero_iff x).1 h)
      simp [this, b2n]
  · have hk2 : k = 0 := by norm_num at ha; omega
    simp [leafBlocksOffset, hk2]

theorem leafBlocksOffset_spec {x s : Nat} (hs : s < 6) (hfree : leafFree x s) :
    leafBlocksOffset x s < 32 ∧ leafBlocksOffset x s % 2 ^ s = 0 ∧
      runFree x s (leafBlocksOffset x s) ∧
      ∀ o, o < leafBlocksOffset x s → o % 2 ^ s = 0 → ¬ runFree x s o := by
  obtain ⟨k, hk, ha, hr, hmin⟩ := exists_lowest_free hfree
  rw [leafBlocksOffset_eq hs hk ha hr hmin]
  exact ⟨hk, ha, hr, hmin⟩

theorem leafBlocksMask_lt (s o : Nat) : leafBlocksMask s o < 4294967296 := u32_lt _

/-- The bits of `leafBlocksMask s o` are `o .. o+2^s-1`, cut at bit 32. -/
theorem testBit_leafBlocksMask {s : Nat} (hs : s < 6) (o i : Nat) :
    (leafBlocksMask s o).testBit i = decide (i < 32 ∧ o ≤ i ∧ i < o + 2 ^ s) := by
  have hw : u32 ((b2n ((1 <<< s) ≠ NUM_BRANCHES) <<< ((1 <<< s) &&& BRANCH_INDEX_MASK)) + 4294967295)
      = 2 ^ (2 ^ s) - 1 := by
    interval_cases s <;> decide
  unfold leafBlocksMask
  simp only [hw]
  rw [testBit_u32, Nat.testBit_shiftLeft, Nat.testBit_two_pow_sub_one]
  by_cases h1 : i < 32 <;> by_cases h2 : o ≤ i <;> simp [h1, h2]
  omega

/-! ## Buffers -/

theorem length_wr (buf : List Nat) (i v : Nat) : (wr buf i v).length = buf.length := by
  simp [wr]

theorem rd_wr_same {buf : List Nat} {i : Nat} (h : i < buf.length) (v : Nat) :
    rd (wr buf i v) i = v := by
  simp [rd, wr, List.getD_eq_getElem?_getD, List.getElem?_set, h]

theorem rd_wr_ne {buf : List Nat} {i j : Nat} (h : i ≠ j) (v : Nat) :
    rd (wr buf i v) j = rd buf j := by
  simp [rd, wr, List.getD_eq_getElem?_getD, List.getElem?_set, h]

theorem buf_ext {a b : List Nat} (hl : a.length = b.length)
    (h : ∀ i, i < a.length → rd a i = rd b i) : a = b := by
  apply List.ext_getElem hl
  intro i h1 h2
  have := h i h1
  simpa [rd, List.getD_eq_getElem?_getD, h1, h2] using this

/-! ## Geometry -/

theorem treeHeightLoop_some (min_blocks : Nat) :
    ∃ h, treeHeightLoop min_blocks 7 NUM_BRANCHES 1 = some h := by
  simp [treeHeightLoop, NUM_BRANCHES, NUM_BRANCHES_LOG2, u32]

theorem treeHeight_eq (mb : Nat) :
    treeHeight mb = b2n (mb > 32) + b2n (mb > 1024) + b2n (mb > 32768) + b2n (mb > 1048576) +
      b2n (mb > 33554432) + b2n (mb > 1073741824) := by
  simp [treeHeight, treeHeightLoop, NUM_BRANCHES, NUM_BRANCHES_LOG2, u32]
  omega

theorem rowWidth_pos {t : Nat} (ht : 0 < t) (r : Nat) : 0 < rowWidth t r := by
  cases r with
  | zero => simp [rowWidth]
  | succ r => simp only [rowWidth]; positivity

theorem rowStart_mono (t : Nat) {r r' : Nat} (h : r ≤ r') : rowStart t r ≤ rowStart t r' := by
  induction h with
  | refl => exact le_refl _
  | step _ ih => simp only [rowStart]; omega

theorem rowStart_succ_le (t : Nat) {r r' : Nat} (h : r < r') :
    rowStart t r + rowWidth t r ≤ rowStart t r' :=
  rowStart_mono t (r := r + 1) h

/-- Height and top-branch count computed for an admissible (clamped) request. -/
theorem height_branches {mb : Nat} (h1 : 64 ≤ mb) (h2 : mb ≤ 4294967296) :
    1 ≤ treeHeight mb ∧ treeHeight mb ≤ 6 ∧ 2 ≤ numTopNodeBranches mb ∧
      numTopNodeBranches mb ≤ 32 ∧ (treeHeight mb = 6 → numTopNodeBranches mb ≤ 4) ∧
      mb ≤ numTopNodeBranches mb * 32 ^ treeHeight mb := by
  have hh := treeHeight_eq mb
  unfold numTopNodeBranches
  simp only [NUM_BRANCHES_LOG2]
  unfold b2n at hh ⊢
  by_cases c1 : mb > 1024
  swap
  · have e : treeHeight mb = 1 := by rw [hh]; split_ifs <;> omega
    rw [e]; clear hh e
    simp only [Nat.shiftLeft_eq, u32]; norm_num
    split_ifs <;> omega
  by_cases c2 : mb > 32768
  swap
  · have e : treeHeight mb = 2 := by rw [hh]; split_ifs <;> omega
    rw [e]; clear hh e
    simp only [Nat.shiftLeft_eq, u32]; norm_num
    split_ifs <;> omega
  by_cases c3 : mb > 1048576
  swap
  · have e : treeHeight mb = 3 := by rw [hh]; split_ifs <;> omega
    rw [e]; clear hh e
    simp only [Nat.shiftLeft_eq, u32]; norm_num
    split_ifs <;> omega
  by_cases c4 : mb > 33554432
  swap
  · have e : treeHeight mb = 4 := by rw [hh]; split_ifs <;> omega
    rw [e]; clear hh e
    simp only [Nat.shiftLeft_eq, u32]; norm_num
    split_ifs <;> omega
  by_cases c5 : mb > 1073741824
  swap
  · have e : treeHeight mb = 5 := by rw [hh]; split_ifs <;> omega
    rw [e]; clear hh e
    simp only [Nat.shiftLeft_eq, u32]; norm_num
    split_ifs <;> omega
  · have e : treeHeight mb = 6 := by rw [hh]; split_ifs <;> omega
    rw [e]; clear hh e
    simp only [Nat.shiftLeft_eq, u32]; norm_num
    split_ifs <;> omega

/-- The loops of `numTreeNodes`, `rowOffsets` and `numLeaves` compute the row layout. -/
theorem loops_geometry {t h : Nat} (ht2 : 2 ≤ t) (ht : t ≤ 32) (hh1 : 1 ≤ h) (hh : h ≤ 6)
    (h6 : h = 6 → t ≤ 4) :
    numTreeNodesLoop (h - 1) (u32 t) 1 = rowStart t h ∧
    (∀ r, r < h → rd (rowOffsets t h (List.replicate 6 0)) r = rowStart t r) ∧
    u32 (u32 t <<< (NUM_BRANCHES_LOG2 * (h - 1))) = t * 32 ^ (h - 1) ∧
    t * 32 ^ (h - 1) ≤ 134217728 ∧ rowStart t h ≤ t * 32 ^ (h - 1) := by
  interval_cases h
  all_goals
    refine ⟨?_, ?_, ?_, ?_, ?_⟩
    · simp only [numTreeNodesLoop, rowStart, rowWidth, u32, Nat.shiftLeft_eq, NUM_BRANCHES_LOG2] <;>
        omega
    · intro r hr
      interval_cases r <;>
        simp [rowOffsets, rowOffsetsLoop, rd, wr, rowStart, rowWidth, u32, Nat.shiftLeft_eq,
          NUM_BRANCHES_LOG2, List.replicate] <;> omega
    · simp only [u32, Nat.shiftLeft_eq, NUM_BRANCHES_LOG2]
      omega
    · omega
    · simp only [rowStart, rowWidth]
      omega

theorem length_initTopNodesLoop (stride e v : Nat) :
    ∀ n p buf, (initTopNodesLoop stride e v n p buf).length = buf.length := by
  intro n
  induction n with
  | zero => intro p buf; rfl
  | succ n ih =>
    intro p buf
    simp only [initTopNodesLoop]
    split_ifs
    · rw [ih, length_wr]
    · rfl

theorem rd_initTopNodesLoop (stride e v i : Nat) (hs : 1 ≤ stride) :
    ∀ n p buf, p + n * stride = e → e ≤ List.length buf →
      rd (initTopNodesLoop stride e v n p buf) i =
        if (∃ k, k < n ∧ i = p + k * stride) then v else rd buf i := by
  intro n
  induction n with
  | zero =>
    intro p buf _ _
    simp [initTopNodesLoop]
  | succ n ih =>
    intro p buf he hlen
    have hmul : (n + 1) * stride = n * stride + stride := Nat.succ_mul n stride
    have hp : p < e := by omega
    simp only [initTopNodesLoop, hp, if_true]
    rw [ih (p + stride) (wr buf p v) (by omega) (by rw [length_wr]; exact hlen)]
    by_cases hi : i = p
    · subst hi
      have h1 : ¬ ∃ k, k < n ∧ i = i + stride + k * stride := by
        rintro ⟨k, _, hk⟩; omega
      have h2 : ∃ k, k < n + 1 ∧ i = i + k * stride := ⟨0, by omega, by simp⟩
      rw [if_neg h1, if_pos h2, rd_wr_same (by omega)]
    · rw [rd_wr_ne (Ne.symm hi)]
      have hiff : (∃ k, k < n ∧ i = p + stride + k * stride) ↔
          (∃ k, k < n + 1 ∧ i = p + k * stride) := by
        constructor
        · rintro ⟨k, hk, e1⟩
          refine ⟨k + 1, by omega, ?_⟩
          rw [Nat.succ_mul]; omega
        · rintro ⟨k, hk, e1⟩
          cases k with
          | zero => simp at e1; exact absurd e1 hi
          | succ k =>
            refine ⟨k, by omega, ?_⟩
            rw [Nat.succ_mul] at e1; omega
      simp only [hiff]

theorem length_memsetZero (buf : List Nat) (size : Nat) :
    (memsetZero buf size).length = buf.length := by
  simp [memsetZero]

theorem rd_memsetZero (buf : List Nat) (size i : Nat) :
    rd (memsetZero buf size) i = if 4 * i < size then 0 else rd buf i := by
  by_cases hi : i < buf.length
  · simp [memsetZero, rd, List.getD_eq_getElem?_getD, hi]
  · have h0 : buf.length ≤ i := by omega
    have h1 : (List.range buf.length)[i]? = none :=
      List.getElem?_eq_none (by simpa using h0)
    have h2 : buf[i]? = none := List.getElem?_eq_none h0
    simp [memsetZero, rd, List.getD_eq_getElem?_getD, h1, h2]

/-- The sentinel word written by `initTopNodes`: bits `t..31`. -/
theorem testBit_sentinel (t b : Nat) (ht : t ≤ 32) :
    (if t < NUM_BRANCHES then not32 (u32 (u32 (1 <<< t) + 4294967295)) else 0).testBit b =
      decide (t ≤ b ∧ b < 32) := by
  have hN : NUM_BRANCHES = 32 := rfl
  rw [hN]
  by_cases h : t < 32
  · rw [if_pos h]
    have e : u32 (u32 (1 <<< t) + 4294967295) = 2 ^ t - 1 := by
      interval_cases t <;> decide
    rw [e, testBit_not32, Nat.testBit_two_pow_sub_one]
    by_cases h1 : b < 32 <;> by_cases h2 : b < t <;> simp [h1, h2]
    all_goals omega
  · rw [if_neg h, Nat.zero_testBit]
    have : ¬ (t ≤ b ∧ b < 32) := by omega
    simp [this]

theorem sentinel_lt (t : Nat) :
    (if t < NUM_BRANCHES then not32 (u32 (u32 (1 <<< t) + 4294967295)) else 0) < 4294967296 := by
  split_ifs
  · exact not32_lt _
  · norm_num

/-- The fields computed by `tral_init_member`. -/
theorem init_fields (mb : Nat) (buf : List Nat) :
    (tral_init_member mb buf).tree_height = treeHeight (checkMinBlocks mb) % 256 ∧
    (tral_init_member mb buf).num_top_branches = numTopNodeBranches (checkMinBlocks mb) % 256 ∧
    (tral_init_member mb buf).num_leaves = numLeaves (checkMinBlocks mb) ∧
    (tral_init_member mb buf).tree_stride = numTreeNodes (checkMinBlocks mb) ∧
    (tral_init_member mb buf).row_offsets =
      rowOffsets (numTopNodeBranches (checkMinBlocks mb) % 256)
        (treeHeight (checkMinBlocks mb) % 256) (List.replicate 6 0) :=
  ⟨rfl, rfl, rfl, rfl, rfl⟩

theorem checkMinBlocks_bounds {mb : Nat} (h2 : mb ≤ 4294967296) :
    64 ≤ checkMinBlocks mb ∧ checkMinBlocks mb ≤ 4294967296 ∧ mb ≤ checkMinBlocks mb := by
  unfold checkMinBlocks
  simp only [show NUM_BRANCHES * 2 = 64 from rfl]
  split_ifs <;> omega

/-- The geometry established by `tral_init_member` on a buffer of the required size. -/
theorem geom_init {mb : Nat} {buf : List Nat} (h2 : mb ≤ 4294967296)
    (hbuf : tral_required_member_buffer_size mb ≤ 4 * buf.length) :
    Geom (tral_init_member mb buf) := by
  obtain ⟨c1, c2, _⟩ := checkMinBlocks_bounds h2
  obtain ⟨a1, a2, a3, a4, a5, _⟩ := height_branches c1 c2
  obtain ⟨f1, f2, f3, f4, f5⟩ := init_fields mb buf
  have eh : treeHeight (checkMinBlocks mb) % 256 = treeHeight (checkMinBlocks mb) :=
    Nat.mod_eq_of_lt (by omega)
  have et : numTopNodeBranches (checkMinBlocks mb) % 256 = numTopNodeBranches (checkMinBlocks mb) :=
    Nat.mod_eq_of_lt (by omega)
  rw [eh] at f1
  rw [et] at f2
  rw [eh, et] at f5
  obtain ⟨g1, g2, g3, g4, g5⟩ := loops_geometry a3 a4 a1 a2 a5
  have eL : numLeaves (checkMinBlocks mb) =
      numTopNodeBranches (checkMinBlocks mb) * 32 ^ (treeHeight (checkMinBlocks mb) - 1) := by
    unfold numLeaves; exact g3
  have eS : numTreeNodes (checkMinBlocks mb) =
      rowStart (numTopNodeBranches (checkMinBlocks mb)) (treeHeight (checkMinBlocks mb)) := by
    unfold numTreeNodes; exact g1
  have hlen : (tral_init_member mb buf).buf.length = buf.length := by
    simp only [tral_init_member, initTopNodes]
    rw [length_initTopNodesLoop, length_memsetZero]
  refine ⟨by rw [f1]; exact a1, by rw [f1]; exact a2, by rw [f2]; exact a3, by rw [f2]; exact a4,
    by rw [f3, f2, f1]; exact eL, by rw [f3, eL]; exact g4, by rw [f4, f2, f1]; exact eS,
    by rw [f4, f3, eS, eL]; exact g5, ?_, ?_⟩
  · intro r hr
    rw [f1] at hr
    rw [f5, f2]
    exact g2 r hr
  · rw [hlen, f3, f4]
    unfold tral_required_member_buffer_size requiredBufferSize at hbuf
    simp only [u32, show NUM_TREES = 6 from rfl] at hbuf
    rw [eS, eL] at hbuf ⊢
    omega

/-! ## Tree nodes and subtrees -/

theorem node_lt_stride {t r h j : Nat} (hr : r < h) (hj : j < rowWidth t r) :
    rowStart t r + j < rowStart t h :=
  lt_of_lt_of_le (by omega) (rowStart_succ_le t hr)

theorem node_inj {t r r' j j' : Nat} (hj : j < rowWidth t r) (hj' : j' < rowWidth t r')
    (e : rowStart t r + j = rowStart t r' + j') : r = r' ∧ j = j' := by
  rcases Nat.lt_trichotomy r r' with h | h | h
  · have := rowStart_succ_le t h; omega
  · subst h; exact ⟨rfl, by omega⟩
  · have := rowStart_succ_le t h; omega

theorem div_pow_succ (l d : Nat) : l / 32 ^ (d + 1) = l / 32 ^ d / 32 := by
  rw [pow_succ, Nat.div_div_eq_div_mul]

theorem div_pow_anc (l : Nat) {d d' : Nat} (h : d ≤ d') :
    l / 32 ^ d' = l / 32 ^ d / 32 ^ (d' - d) := by
  rw [Nat.div_div_eq_div_mul, ← pow_add]
  congr 2; omega

theorem closedAt_congr {lvn lvo : Nat → Nat} {L s d c l0 : Nat}
    (hsame : ∀ l, l ≠ l0 → lvn l = lvo l) (hne : l0 / 32 ^ d ≠ c) :
    closedAt lvn L s d c ↔ closedAt lvo L s d c := by
  unfold closedAt
  constructor <;> intro h l hl hc
  · have hl0 : l ≠ l0 := by rintro rfl; exact hne hc
    rw [← hsame l hl0]; exact h l hl hc
  · have hl0 : l ≠ l0 := by rintro rfl; exact hne hc
    rw [hsame l hl0]; exact h l hl hc

theorem closedAt_succ (lv : Nat → Nat) (L s d c : Nat) :
    closedAt lv L s (d + 1) c ↔ ∀ b, b < 32 → closedAt lv L s d (32 * c + b) := by
  unfold closedAt
  constructor
  · intro h b hb l hl hc
    apply h l hl
    rw [div_pow_succ, hc]; omega
  · intro h l hl hc
    rw [div_pow_succ] at hc
    exact h (l / 32 ^ d % 32) (Nat.mod_lt _ (by norm_num)) l hl (by omega)

/-- An open subtree makes every subtree above it open. -/
theorem not_closedAt_anc {lv : Nat → Nat} {L s d d' l0 : Nat} (h : d ≤ d')
    (hopen : ¬ closedAt lv L s d (l0 / 32 ^ d)) : ¬ closedAt lv L s d' (l0 / 32 ^ d') := by
  unfold closedAt at hopen ⊢
  push_neg at hopen ⊢
  obtain ⟨l, hl, hc, hf⟩ := hopen
  refine ⟨l, hl, ?_, hf⟩
  rw [div_pow_anc l h, div_pow_anc l0 h, hc]

/-- The witness of an open subtree, when a given leaf of it is not free. -/
theorem not_closedAt_other {lvn lvo : Nat → Nat} {L s d c l0 : Nat}
    (hsame : ∀ l, l ≠ l0 → lvn l = lvo l) (hnew : ¬ leafFree (lvn l0) s)
    (hopen : ¬ closedAt lvn L s d c) : ¬ closedAt lvo L s d c := by
  unfold closedAt at hopen ⊢
  push_neg at hopen ⊢
  obtain ⟨l, hl, hc, hf⟩ := hopen
  have hl0 : l ≠ l0 := by rintro rfl; exact hnew hf
  exact ⟨l, hl, hc, by rw [← hsame l hl0]; exact hf⟩

theorem path_node_lt {t h r l0 : Nat} (ht : t ≤ 32) (hr : r < h) (hl : l0 < t * 32 ^ (h - 1)) :
    l0 / 32 ^ (h - 1 - r) / 32 < rowWidth t r := by
  rw [← div_pow_succ]
  cases r with
  | zero =>
    simp only [rowWidth]
    have e : h - 1 - 0 + 1 = (h - 1) + 1 := by omega
    rw [e, div_pow_succ]
    have : l0 / 32 ^ (h - 1) < t := Nat.div_lt_of_lt_mul (by rw [Nat.mul_comm]; exact hl)
    omega
  | succ r =>
    simp only [rowWidth]
    have e : h - 1 - (r + 1) + 1 = h - 1 - r := by omega
    rw [e]
    apply Nat.div_lt_of_lt_mul
    have : 32 ^ (h - 1 - r) * (t * 32 ^ r) = t * 32 ^ (h - 1) := by
      rw [Nat.mul_comm, Nat.mul_assoc, ← pow_add]
      congr 2; omega
    rw [this]; exact hl

theorem and_mask_eq_mod (x : Nat) : x &&& BRANCH_INDEX_MASK = x % 32 := by
  have := Nat.and_pow_two_sub_one_eq_mod x 5
  simpa [BRANCH_INDEX_MASK, NUM_BRANCHES, NUM_BRANCHES_LOG2] using this

theorem shift_eq_div (x : Nat) : x >>> NUM_BRANCHES_LOG2 = x / 32 := by
  rw [Nat.shiftRight_eq_div_pow]; rfl

theorem testBit_bit (b i : Nat) (hb : b < 32) :
    (u32 (1 <<< b)).testBit i = decide (b = i) := by
  rw [testBit_u32, Nat.shiftLeft_eq, Nat.one_mul, Nat.testBit_two_pow]
  by_cases h : b = i
  · subst h; simp [hb]
  · simp [h]

/-- Transport of a row between two buffers and two leaf valuations. -/
theorem rowOK_of_eq {buf buf' : List Nat} {lv lv' : Nat → Nat} {T t h s r : Nat}
    (hE : ∀ j, j < rowWidth t r →
      rd buf' (T + rowStart t r + j) = rd buf (T + rowStart t r + j))
    (hC : ∀ c, closedAt lv' (t * 32 ^ (h - 1)) s (h - 1 - r) c ↔
      closedAt lv (t * 32 ^ (h - 1)) s (h - 1 - r) c)
    (hok : RowOK buf lv T t h s r) : RowOK buf' lv' T t h s r := by
  intro j hj
  rw [hE j hj]
  refine ⟨(hok j hj).1, fun b hb => ?_⟩
  rw [(hok j hj).2 b hb, hC]

/-- Writing one node leaves every other row as it was. -/
theorem rd_other_row {buf : List Nat} {T t r r' c v : Nat} (hc : c < rowWidth t r)
    (hne : r' ≠ r) (j : Nat) (hj : j < rowWidth t r') :
    rd (wr buf (T + rowStart t r + c) v) (T + rowStart t r' + j) =
      rd buf (T + rowStart t r' + j) := by
  apply rd_wr_ne
  intro e
  have := node_inj hc hj (by omega)
  exact hne this.1.symm

/-! ## Tree maintenance: `updateTreeLeafFull` -/

/-- A node is all ones exactly when the subtree below it is closed. -/
theorem node_full_iff {buf : List Nat} {lv : Nat → Nat} {T t h s r j : Nat}
    (hok : RowOK buf lv T t h s r) (hj : j < rowWidth t r) :
    not32 (rd buf (T + rowStart t r + j)) = 0 ↔
      closedAt lv (t * 32 ^ (h - 1)) s (h - 1 - r + 1) j := by
  rw [not32_eq_zero_iff (hok j hj).1, eq_ones_iff (hok j hj).1, closedAt_succ]
  constructor
  · intro h1 b hb; exact ((hok j hj).2 b hb).1 (h1 b hb)
  · intro h1 b hb; exact ((hok j hj).2 b hb).2 (h1 b hb)

theorem node_addr_ne {T t r h j i : Nat} (hr : r < h) (hj : j < rowWidth t r)
    (hi : i < T ∨ T + rowStart t h ≤ i) : T + rowStart t r + j ≠ i := by
  have := node_lt_stride hr hj
  omega

/-- Row `r` after the bit of the path child has been set. -/
theorem rowOK_set {buf : List Nat} {lvn lvo : Nat → Nat} {T t h s r l0 : Nat}
    (ht : t ≤ 32) (hr : r < h) (hl : l0 < t * 32 ^ (h - 1))
    (hlen : T + rowStart t h ≤ buf.length)
    (hsame : ∀ l, l ≠ l0 → lvn l = lvo l)
    (hcl : closedAt lvn (t * 32 ^ (h - 1)) s (h - 1 - r) (l0 / 32 ^ (h - 1 - r)))
    (hok : RowOK buf lvo T t h s r) :
    RowOK (wr buf (T + rowStart t r + l0 / 32 ^ (h - 1 - r) / 32)
        (rd buf (T + rowStart t r + l0 / 32 ^ (h - 1 - r) / 32) |||
          u32 (1 <<< (l0 / 32 ^ (h - 1 - r) % 32))))
      lvn T t h s r := by
  have hj0 := path_node_lt ht hr hl
  intro j hj
  by_cases e : j = l0 / 32 ^ (h - 1 - r) / 32
  · rw [e, rd_wr_same (by have := node_lt_stride hr hj0; omega)]
    refine ⟨or_lt_word (hok _ hj0).1 (u32_lt _), fun b hb => ?_⟩
    rw [Nat.testBit_or, testBit_bit _ _ (Nat.mod_lt _ (by norm_num))]
    by_cases hb0 : l0 / 32 ^ (h - 1 - r) % 32 = b
    · have e2 : 32 * (l0 / 32 ^ (h - 1 - r) / 32) + b = l0 / 32 ^ (h - 1 - r) := by omega
      rw [e2]
      simp [hb0, hcl]
    · have hne : l0 / 32 ^ (h - 1 - r) ≠ 32 * (l0 / 32 ^ (h - 1 - r) / 32) + b := by omega
      rw [closedAt_congr hsame hne, ← (hok _ hj0).2 b hb]
      simp [hb0]
  · rw [rd_wr_ne (by omega)]
    refine ⟨(hok j hj).1, fun b hb => ?_⟩
    have hne : l0 / 32 ^ (h - 1 - r) ≠ 32 * j + b := by omega
    rw [closedAt_congr hsame hne]
    exact (hok j hj).2 b hb

/-- The loop of `updateTreeLeafFull` entered at row `r`: the rows below `r` already summarise
the new leaves, the rows up to `r` still summarise the old ones, and the path child of row
`r` is closed.  Afterwards the whole tree summarises the new leaves. -/
theorem updateTreeLeafFullLoop_spec {lvn lvo : Nat → Nat} {T t h s l0 : Nat} {ro : List Nat}
    (ht : t ≤ 32) (hl : l0 < t * 32 ^ (h - 1))
    (hro : ∀ r, r < h → rd ro r = rowStart t r)
    (hsame : ∀ l, l ≠ l0 → lvn l = lvo l) (hnew : ¬ leafFree (lvn l0) s) :
    ∀ r, r < h → ∀ buf, T + rowStart t h ≤ List.length buf →
      (∀ r', r < r' → r' < h → RowOK buf lvn T t h s r') →
      (∀ r', r' ≤ r → RowOK buf lvo T t h s r') →
      closedAt lvn (t * 32 ^ (h - 1)) s (h - 1 - r) (l0 / 32 ^ (h - 1 - r)) →
      TreeOK (updateTreeLeafFullLoop T ro r (l0 / 32 ^ (h - 1 - r) % 32)
        (l0 / 32 ^ (h - 1 - r) / 32) buf) lvn T t h s ∧
      (updateTreeLeafFullLoop T ro r (l0 / 32 ^ (h - 1 - r) % 32)
        (l0 / 32 ^ (h - 1 - r) / 32) buf).length = buf.length ∧
      ∀ i, (i < T ∨ T + rowStart t h ≤ i) →
        rd (updateTreeLeafFullLoop T ro r (l0 / 32 ^ (h - 1 - r) % 32)
          (l0 / 32 ^ (h - 1 - r) / 32) buf) i = rd buf i := by
  intro r
  induction r with
  | zero =>
    intro hr buf hlen hup hdown hcl
    have hj0 := path_node_lt ht hr hl
    simp only [updateTreeLeafFullLoop, hro 0 hr]
    refine ⟨?_, length_wr _ _ _, ?_⟩
    · intro r' hr'
      by_cases e : r' = 0
      · subst e; exact rowOK_set ht hr hl hlen hsame hcl (hdown 0 le_rfl)
      · exact rowOK_of_eq (fun j hj => rd_other_row hj0 e j hj) (fun c => Iff.rfl)
          (hup r' (by omega) hr')
    · intro i hi
      exact rd_wr_ne (node_addr_ne hr hj0 hi) _
  | succ r ih =>
    intro hr buf hlen hup hdown hcl
    have hj0 := path_node_lt ht hr hl
    have hrow := rowOK_set ht hr hl hlen hsame hcl (hdown (r + 1) le_rfl)
    have ed : h - 1 - (r + 1) + 1 = h - 1 - r := by omega
    have ec : l0 / 32 ^ (h - 1 - (r + 1)) / 32 = l0 / 32 ^ (h - 1 - r) := by
      rw [← div_pow_succ, ed]
    have hfull := (node_full_iff hrow hj0).trans
      (show closedAt lvn (t * 32 ^ (h - 1)) s (h - 1 - (r + 1) + 1)
          (l0 / 32 ^ (h - 1 - (r + 1)) / 32) ↔
        closedAt lvn (t * 32 ^ (h - 1)) s (h - 1 - r) (l0 / 32 ^ (h - 1 - r)) by rw [ed, ec])
    have hframe : ∀ i, (i < T ∨ T + rowStart t h ≤ i) →
        rd (wr buf (T + rowStart t (r + 1) + l0 / 32 ^ (h - 1 - (r + 1)) / 32)
          (rd buf (T + rowStart t (r + 1) + l0 / 32 ^ (h - 1 - (r + 1)) / 32) |||
            u32 (1 <<< (l0 / 32 ^ (h - 1 - (r + 1)) % 32)))) i = rd buf i := by
      intro i hi
      exact rd_wr_ne (node_addr_ne hr hj0 hi) _
    simp only [updateTreeLeafFullLoop, hro (r + 1) hr]
    split_ifs with hsp
    · refine ⟨?_, length_wr _ _ _, hframe⟩
      have hopen : ¬ closedAt lvn (t * 32 ^ (h - 1)) s (h - 1 - r) (l0 / 32 ^ (h - 1 - r)) :=
        fun hc => hsp (hfull.2 hc)
      intro r' hr'
      rcases Nat.lt_trichotomy r' (r + 1) with hlt | heq | hgt
      · refine rowOK_of_eq (fun j hj => rd_other_row hj0 (by omega) j hj) (fun c' => ?_)
          (hdown r' (by omega))
        by_cases hp : l0 / 32 ^ (h - 1 - r') = c'
        · have hn : ¬ closedAt lvn (t * 32 ^ (h - 1)) s (h - 1 - r') c' := by
            rw [← hp]; exact not_closedAt_anc (by omega) hopen
          have ho : ¬ closedAt lvo (t * 32 ^ (h - 1)) s (h - 1 - r') c' :=
            not_closedAt_other hsame hnew hn
          exact ⟨fun x => absurd x hn, fun x => absurd x ho⟩
        · exact closedAt_congr hsame hp
      · rw [heq]; exact hrow
      · exact rowOK_of_eq (fun j hj => rd_other_row hj0 (by omega) j hj) (fun c => Iff.rfl)
          (hup r' hgt hr')
    · have hclosed : closedAt lvn (t * 32 ^ (h - 1)) s (h - 1 - r) (l0 / 32 ^ (h - 1 - r)) := by
        apply hfull.1
        by_contra hne
        exact hsp hne
      rw [and_mask_eq_mod, shift_eq_div, ec]
      have hup' : ∀ r', r < r' → r' < h → RowOK
          (wr buf (T + rowStart t (r + 1) + l0 / 32 ^ (h - 1 - r))
            (rd buf (T + rowStart t (r + 1) + l0 / 32 ^ (h - 1 - r)) |||
              u32 (1 <<< (l0 / 32 ^ (h - 1 - (r + 1)) % 32)))) lvn T t h s r' := by
        intro r' h1 h2
        by_cases e : r' = r + 1
        · rw [e, ← ec]; exact hrow
        · rw [← ec]
          exact rowOK_of_eq (fun j hj => rd_other_row hj0 e j hj) (fun c => Iff.rfl)
            (hup r' (by omega) h2)
      have hdown' : ∀ r', r' ≤ r → RowOK
          (wr buf (T + rowStart t (r + 1) + l0 / 32 ^ (h - 1 - r))
            (rd buf (T + rowStart t (r + 1) + l0 / 32 ^ (h - 1 - r)) |||
              u32 (1 <<< (l0 / 32 ^ (h - 1 - (r + 1)) % 32)))) lvo T t h s r' := by
        intro r' h1
        rw [← ec]
        exact rowOK_of_eq (fun j hj => rd_other_row hj0 (by omega) j hj) (fun c => Iff.rfl)
          (hdown r' (by omega))
      obtain ⟨i1, i2, i3⟩ := ih (by omega) _ (by rw [length_wr]; exact hlen) hup' hdown' hclosed
      refine ⟨i1, by rw [i2, length_wr], fun i hi => ?_⟩
      rw [i3 i hi, ← ec]
      exact hframe i hi

/-! ## Tree maintenance: `updateTreeLeafHasSpace` -/

theorem not_closedAt_of_free {lv : Nat → Nat} {L s l0 : Nat} (hl : l0 < L)
    (hfree : leafFree (lv l0) s) (d : Nat) : ¬ closedAt lv L s d (l0 / 32 ^ d) :=
  fun hc => hc l0 hl rfl hfree

/-- Row `r` after the bit of the path child has been cleared. -/
theorem rowOK_clear {buf : List Nat} {lvn lvo : Nat → Nat} {T t h s r l0 : Nat}
    (ht : t ≤ 32) (hr : r < h) (hl : l0 < t * 32 ^ (h - 1))
    (hlen : T + rowStart t h ≤ buf.length)
    (hsame : ∀ l, l ≠ l0 → lvn l = lvo l)
    (hfree : leafFree (lvn l0) s)
    (hok : RowOK buf lvo T t h s r) :
    RowOK (wr buf (T + rowStart t r + l0 / 32 ^ (h - 1 - r) / 32)
        (rd buf (T + rowStart t r + l0 / 32 ^ (h - 1 - r) / 32) &&&
          not32 (u32 (1 <<< (l0 / 32 ^ (h - 1 - r) % 32)))))
      lvn T t h s r := by
  have hj0 := path_node_lt ht hr hl
  intro j hj
  by_cases e : j = l0 / 32 ^ (h - 1 - r) / 32
  · rw [e, rd_wr_same (by have := node_lt_stride hr hj0; omega)]
    refine ⟨and_lt_word (hok _ hj0).1, fun b hb => ?_⟩
    rw [Nat.testBit_and, testBit_not32, testBit_bit _ _ (Nat.mod_lt _ (by norm_num))]
    by_cases hb0 : l0 / 32 ^ (h - 1 - r) % 32 = b
    · have e2 : 32 * (l0 / 32 ^ (h - 1 - r) / 32) + b = l0 / 32 ^ (h - 1 - r) := by omega
      rw [e2]
      have := not_closedAt_of_free hl hfree (h - 1 - r)
      simp [hb0, this]
    · have hne : l0 / 32 ^ (h - 1 - r) ≠ 32 * (l0 / 32 ^ (h - 1 - r) / 32) + b := by omega
      rw [closedAt_congr hsame hne, ← (hok _ hj0).2 b hb]
      simp [hb0, hb]
  · rw [rd_wr_ne (by omega)]
    refine ⟨(hok j hj).1, fun b hb => ?_⟩
    have hne : l0 / 32 ^ (h - 1 - r) ≠ 32 * j + b := by omega
    rw [closedAt_congr hsame hne]
    exact (hok j hj).2 b hb

/-- The loop of `updateTreeLeafHasSpace` entered at row `r`: the rows below `r` already
summarise the new leaves, in which leaf `l0` has a free slot, and the rows up to `r` still
summarise the old ones.  Afterwards the whole tree summarises the new leaves. -/
theorem updateTreeLeafHasSpaceLoop_spec {lvn lvo : Nat → Nat} {T t h s l0 : Nat} {ro : List Nat}
    (ht : t ≤ 32) (hl : l0 < t * 32 ^ (h - 1))
    (hro : ∀ r, r < h → rd ro r = rowStart t r)
    (hsame : ∀ l, l ≠ l0 → lvn l = lvo l) (hfree : leafFree (lvn l0) s) :
    ∀ r, r < h → ∀ buf, T + rowStart t h ≤ List.length buf →
      (∀ r', r < r' → r' < h → RowOK buf lvn T t h s r') →
      (∀ r', r' ≤ r → RowOK buf lvo T t h s r') →
      TreeOK (updateTreeLeafHasSpaceLoop T ro r (l0 / 32 ^ (h - 1 - r) % 32)
        (l0 / 32 ^ (h - 1 - r) / 32) buf) lvn T t h s ∧
      (updateTreeLeafHasSpaceLoop T ro r (l0 / 32 ^ (h - 1 - r) % 32)
        (l0 / 32 ^ (h - 1 - r) / 32) buf).length = buf.length ∧
      ∀ i, (i < T ∨ T + rowStart t h ≤ i) →
        rd (updateTreeLeafHasSpaceLoop T ro r (l0 / 32 ^ (h - 1 - r) % 32)
          (l0 / 32 ^ (h - 1 - r) / 32) buf) i = rd buf i := by
  intro r
  induction r with
  | zero =>
    intro hr buf hlen hup hdown
    have hj0 := path_node_lt ht hr hl
    simp only [updateTreeLeafHasSpaceLoop, hro 0 hr]
    refine ⟨?_, length_wr _ _ _, ?_⟩
    · intro r' hr'
      by_cases e : r' = 0
      · subst e; exact rowOK_clear ht hr hl hlen hsame hfree (hdown 0 le_rfl)
      · exact rowOK_of_eq (fun j hj => rd_other_row hj0 e j hj) (fun c => Iff.rfl)
          (hup r' (by omega) hr')
    · intro i hi
      exact rd_wr_ne (node_addr_ne hr hj0 hi) _
  | succ r ih =>
    intro hr buf hlen hup hdown
    have hj0 := path_node_lt ht hr hl
    have hrow := rowOK_clear ht hr hl hlen hsame hfree (hdown (r + 1) le_rfl)
    have ed : h - 1 - (r + 1) + 1 = h - 1 - r := by omega
    have ec : l0 / 32 ^ (h - 1 - (r + 1)) / 32 = l0 / 32 ^ (h - 1 - r) := by
      rw [← div_pow_succ, ed]
    have hfull := (node_full_iff (hdown (r + 1) le_rfl) hj0).trans
      (show closedAt lvo (t * 32 ^ (h - 1)) s (h - 1 - (r + 1) + 1)
          (l0 / 32 ^ (h - 1 - (r + 1)) / 32) ↔
        closedAt lvo (t * 32 ^ (h - 1)) s (h - 1 - r) (l0 / 32 ^ (h - 1 - r)) by rw [ed, ec])
    have hframe : ∀ i, (i < T ∨ T + rowStart t h ≤ i) →
        rd (wr buf (T + rowStart t (r + 1) + l0 / 32 ^ (h - 1 - (r + 1)) / 32)
          (rd buf (T + rowStart t (r + 1) + l0 / 32 ^ (h - 1 - (r + 1)) / 32) &&&
            not32 (u32 (1 <<< (l0 / 32 ^ (h - 1 - (r + 1)) % 32))))) i = rd buf i := by
      intro i hi
      exact rd_wr_ne (node_addr_ne hr hj0 hi) _
    simp only [updateTreeLeafHasSpaceLoop, hro (r + 1) hr]
    split_ifs with hsp
    · refine ⟨?_, length_wr _ _ _, hframe⟩
      have hopen : ¬ closedAt lvo (t * 32 ^ (h - 1)) s (h - 1 - r) (l0 / 32 ^ (h - 1 - r)) :=
        fun hc => hsp (hfull.2 hc)
      intro r' hr'
      rcases Nat.lt_trichotomy r' (r + 1) with hlt | heq | hgt
      · refine rowOK_of_eq (fun j hj => rd_other_row hj0 (by omega) j hj) (fun c' => ?_)
          (hdown r' (by omega))
        by_cases hp : l0 / 32 ^ (h - 1 - r') = c'
        · have hn : ¬ closedAt lvn (t * 32 ^ (h - 1)) s (h - 1 - r') c' := by
            rw [← hp]; exact not_closedAt_of_free hl hfree _
          have ho : ¬ closedAt lvo (t * 32 ^ (h - 1)) s (h - 1 - r') c' := by
            rw [← hp]; exact not_closedAt_anc (by omega) hopen
          exact ⟨fun x => absurd x hn, fun x => absurd x ho⟩
        · exact closedAt_congr hsame hp
      · rw [heq]; exact hrow
      · exact rowOK_of_eq (fun j hj => rd_other_row hj0 (by omega) j hj) (fun c => Iff.rfl)
          (hup r' hgt hr')
    · rw [and_mask_eq_mod, shift_eq_div, ec]
      have hup' : ∀ r', r < r' → r' < h → RowOK
          (wr buf (T + rowStart t (r + 1) + l0 / 32 ^ (h - 1 - r))
            (rd buf (T + rowStart t (r + 1) + l0 / 32 ^ (h - 1 - r)) &&&
              not32 (u32 (1 <<< (l0 / 32 ^ (h - 1 - (r + 1)) % 32))))) lvn T t h s r' := by
        intro r' h1 h2
        by_cases e : r' = r + 1
        · rw [e, ← ec]; exact hrow
        · rw [← ec]
          exact rowOK_of_eq (fun j hj => rd_other_row hj0 e j hj) (fun c => Iff.rfl)
            (hup r' (by omega) h2)
      have hdown' : ∀ r', r' ≤ r → RowOK
          (wr buf (T + rowStart t (r + 1) + l0 / 32 ^ (h - 1 - r))
            (rd buf (T + rowStart t (r + 1) + l0 / 32 ^ (h - 1 - r)) &&&
              not32 (u32 (1 <<< (l0 / 32 ^ (h - 1 - (r + 1)) % 32))))) lvo T t h s r' := by
        intro r' h1
        rw [← ec]
        exact rowOK_of_eq (fun j hj => rd_other_row hj0 (by omega) j hj) (fun c => Iff.rfl)
          (hdown r' (by omega))
      obtain ⟨i1, i2, i3⟩ := ih (by omega) _ (by rw [length_wr]; exact hlen) hup' hdown'
      refine ⟨i1, by rw [i2, length_wr], fun i hi => ?_⟩
      rw [i3 i hi, ← ec]
      exact hframe i hi

/-! ## Tree descent: `leafWithSpaceIndex` -/

theorem closedAt_zero (lv : Nat → Nat) (L s c : Nat) :
    closedAt lv L s 0 c ↔ (c < L → ¬ leafFree (lv c) s) := by
  unfold closedAt
  constructor
  · intro h hc; exact h c hc (by simp)
  · intro h l hl hc
    have : l = c := by simpa using hc
    subst this; exact h hl

/-- An open child at depth `n` lies inside its row. -/
theorem open_lt {lv : Nat → Nat} {t h s n c : Nat} (hn : n ≤ h - 1)
    (hopen : ¬ closedAt lv (t * 32 ^ (h - 1)) s n c) : c < t * 32 ^ (h - 1 - n) := by
  unfold closedAt at hopen
  push_neg at hopen
  obtain ⟨l, hl, hc, _⟩ := hopen
  rw [← hc]
  apply Nat.div_lt_of_lt_mul
  have : 32 ^ n * (t * 32 ^ (h - 1 - n)) = t * 32 ^ (h - 1) := by
    rw [Nat.mul_comm, Nat.mul_assoc, ← pow_add]
    congr 2; omega
  rw [this]; exact hl

theorem rowWidth_succ_le {t r h : Nat} (hr : r + 1 ≤ h - 1) :
    t * 32 ^ r ≤ t * 32 ^ (h - 1) :=
  Nat.mul_le_mul_left _ (Nat.pow_le_pow_right (by norm_num) (by omega))

/-- The descent loop: entered with the lowest open child at depth `n`, it returns the lowest
leaf that has a free slot. -/
theorem leafWithSpaceLoop_spec {buf : List Nat} {lv : Nat → Nat} {T t h s : Nat} {ro : List Nat}
    (hL : t * 32 ^ (h - 1) ≤ 134217728)
    (hro : ∀ r, r < h → rd ro r = rowStart t r)
    (hok : TreeOK buf lv T t h s) :
    ∀ n i c, n + i = h → 1 ≤ i →
      ¬ closedAt lv (t * 32 ^ (h - 1)) s n c →
      (∀ c', c' < c → closedAt lv (t * 32 ^ (h - 1)) s n c') →
      ¬ closedAt lv (t * 32 ^ (h - 1)) s 0 (leafWithSpaceLoop buf T ro n i c) ∧
      ∀ c', c' < leafWithSpaceLoop buf T ro n i c → closedAt lv (t * 32 ^ (h - 1)) s 0 c' := by
  intro n
  induction n with
  | zero =>
    intro i c _ _ h1 h2
    exact ⟨h1, h2⟩
  | succ n ih =>
    intro i c hni hi hopen hlow
    have hi' : i < h := by omega
    have hc : c < rowWidth t i := by
      have := open_lt (h := h) (by omega) hopen
      obtain ⟨i', rfl⟩ : ∃ i', i = i' + 1 := ⟨i - 1, by omega⟩
      simp only [rowWidth]
      rwa [show h - 1 - (n + 1) = i' by omega] at this
    have hrow := hok i hi'
    have hd : h - 1 - i = n := by omega
    have hnode := hrow c hc
    rw [hd] at hnode
    have hnf : rd buf (T + rowStart t i + c) ≠ 4294967295 := by
      intro hfull
      apply hopen
      rw [closedAt_succ]
      intro b hb
      exact (hnode.2 b hb).1 ((eq_ones_iff hnode.1).1 hfull b hb)
    obtain ⟨b0, hb0, hz, hlowb⟩ := exists_lowest_zero hnode.1 hnf
    have hifz := indexOfFirstZero_spec hb0 hz hlowb
    have hcL : c < 134217728 := by
      have h1 := open_lt (h := h) (by omega) hopen
      have h2 : t * 32 ^ (h - 1 - (n + 1)) ≤ t * 32 ^ (h - 1) :=
        Nat.mul_le_mul_left _ (Nat.pow_le_pow_right (by norm_num) (by omega))
      omega
    have hnew : u32 (u32 (c <<< NUM_BRANCHES_LOG2) + b0) = 32 * c + b0 := by
      simp only [NUM_BRANCHES_LOG2, Nat.shiftLeft_eq, u32]
      omega
    simp only [leafWithSpaceLoop, hro i hi', hifz, hnew]
    apply ih (i + 1) (32 * c + b0) (by omega) (by omega)
    · intro hcl
      have := (hnode.2 b0 hb0).2 hcl
      rw [hz] at this
      exact Bool.noConfusion this
    · intro c' hc'
      by_cases hq : c' / 32 < c
      · have := (closedAt_succ lv _ s n (c' / 32)).1 (hlow _ hq) (c' % 32)
          (Nat.mod_lt _ (by norm_num))
        rwa [show 32 * (c' / 32) + c' % 32 = c' by omega] at this
      · have hq' : c' / 32 = c := by omega
        have hb : c' % 32 < b0 := by omega
        have := (hnode.2 (c' % 32) (by omega)).1 (hlowb _ hb)
        rwa [show 32 * c + c' % 32 = c' by omega] at this

/-- The top node is all ones exactly when no leaf has a free slot of the class. -/
theorem top_full_iff {buf : List Nat} {lv : Nat → Nat} {T t h s : Nat}
    (ht : t ≤ 32) (hh : 1 ≤ h) (hok : TreeOK buf lv T t h s) :
    rd buf T = 4294967295 ↔ ∀ l, l < t * 32 ^ (h - 1) → ¬ leafFree (lv l) s := by
  have hrow := hok 0 (by omega) 0 (by simp [rowWidth])
  simp only [rowStart, Nat.add_zero, Nat.sub_zero, Nat.mul_zero, Nat.zero_add] at hrow
  rw [eq_ones_iff hrow.1]
  constructor
  · intro hall l hl
    have hb : l / 32 ^ (h - 1) < 32 := by
      have : l / 32 ^ (h - 1) < t := Nat.div_lt_of_lt_mul (by rw [Nat.mul_comm]; exact hl)
      omega
    exact (hrow.2 _ hb).1 (hall _ hb) l hl rfl
  · intro hnone b hb
    exact (hrow.2 b hb).2 (fun l hl _ => hnone l hl)

/-- The function `leafWithSpaceIndex` on a tree that is not full returns the lowest leaf
with a free aligned slot of the class. -/
theorem leafWithSpaceIndex_spec {buf : List Nat} {lv : Nat → Nat} {T t h s : Nat} {ro : List Nat}
    (hh : 1 ≤ h) (hL : t * 32 ^ (h - 1) ≤ 134217728)
    (hro : ∀ r, r < h → rd ro r = rowStart t r)
    (hok : TreeOK buf lv T t h s) (hne : rd buf T ≠ 4294967295) :
    leafWithSpaceIndex buf T ro h < t * 32 ^ (h - 1) ∧
    leafFree (lv (leafWithSpaceIndex buf T ro h)) s ∧
    ∀ l, l < leafWithSpaceIndex buf T ro h → ¬ leafFree (lv l) s := by
  have hrow := hok 0 (by omega) 0 (by simp [rowWidth])
  simp only [rowStart, Nat.add_zero, Nat.sub_zero, Nat.mul_zero, Nat.zero_add] at hrow
  obtain ⟨b0, hb0, hz, hlowb⟩ := exists_lowest_zero hrow.1 hne
  have hifz := indexOfFirstZero_spec hb0 hz hlowb
  have hopen : ¬ closedAt lv (t * 32 ^ (h - 1)) s (h - 1) b0 := by
    intro hcl
    have := (hrow.2 b0 hb0).2 hcl
    rw [hz] at this
    exact Bool.noConfusion this
  have hlow : ∀ c', c' < b0 → closedAt lv (t * 32 ^ (h - 1)) s (h - 1) c' :=
    fun c' hc' => (hrow.2 c' (by omega)).1 (hlowb c' hc')
  obtain ⟨r1, r2⟩ := leafWithSpaceLoop_spec hL hro hok (h - 1) 1 b0 (by omega) le_rfl hopen hlow
  unfold leafWithSpaceIndex
  rw [hifz]
  rw [closedAt_zero] at r1
  push_neg at r1
  refine ⟨r1.1, r1.2, fun l hl hf => ?_⟩
  have := (closedAt_zero lv _ s l).1 (r2 l hl) (by omega)
  exact this hf

/-! ## The six trees -/

/-- A tree is determined by its own words and by which subtrees are closed. -/
theorem treeOK_of_eq {buf buf' : List Nat} {lv lv' : Nat → Nat} {T t h s : Nat}
    (hE : ∀ j, T ≤ j → j < T + rowStart t h → rd buf' j = rd buf j)
    (hC : ∀ d c, closedAt lv' (t * 32 ^ (h - 1)) s d c ↔ closedAt lv (t * 32 ^ (h - 1)) s d c)
    (hok : TreeOK buf lv T t h s) : TreeOK buf' lv' T t h s := by
  intro r hr
  refine rowOK_of_eq (fun j hj => ?_) (fun c => hC _ c) (hok r hr)
  have := node_lt_stride hr hj
  exact hE _ (by omega) (by omega)

/-- Changing a leaf without changing whether it has a free slot closes no subtree and opens none. -/
theorem closedAt_congr_iff {lvn lvo : Nat → Nat} {L s l0 : Nat}
    (hsame : ∀ l, l ≠ l0 → lvn l = lvo l)
    (hiff : leafFree (lvn l0) s ↔ leafFree (lvo l0) s) (d c : Nat) :
    closedAt lvn L s d c ↔ closedAt lvo L s d c := by
  unfold closedAt
  constructor <;> intro h l hl hc hf
  · by_cases e : l = l0
    · subst e; exact h l hl hc (hiff.2 hf)
    · exact h l hl hc (by rw [hsame l e]; exact hf)
  · by_cases e : l = l0
    · subst e; exact h l hl hc (hiff.1 hf)
    · exact h l hl hc (by rw [← hsame l e]; exact hf)

theorem tree_base_le {L S : Nat} {i j : Nat} (h : i ≤ j) : L + i * S ≤ L + j * S :=
  Nat.add_le_add_left (Nat.mul_le_mul_right _ h) _

theorem tree_end_le {L S : Nat} {i j : Nat} (h : i < j) :
    L + i * S + S ≤ L + j * S := by
  have := tree_base_le (L := L) (S := S) (i := i + 1) (j := j) h
  rw [Nat.succ_mul] at this
  omega

theorem updateTreeLeafFull_eq (buf : List Nat) (T l0 : Nat) (ro : List Nat) (h : Nat) :
    updateTreeLeafFull buf T l0 ro h =
      updateTreeLeafFullLoop T ro (h - 1) (l0 / 32 ^ (h - 1 - (h - 1)) % 32)
        (l0 / 32 ^ (h - 1 - (h - 1)) / 32) buf := by
  unfold updateTreeLeafFull
  rw [and_mask_eq_mod, shift_eq_div, Nat.sub_self, pow_zero, Nat.div_one]

theorem updateTreeLeafHasSpace_eq (buf : List Nat) (T l0 : Nat) (ro : List Nat) (h : Nat) :
    updateTreeLeafHasSpace buf T l0 ro h =
      updateTreeLeafHasSpaceLoop T ro (h - 1) (l0 / 32 ^ (h - 1 - (h - 1)) % 32)
        (l0 / 32 ^ (h - 1 - (h - 1)) / 32) buf := by
  unfold updateTreeLeafHasSpace
  rw [and_mask_eq_mod, shift_eq_div, Nat.sub_self, pow_zero, Nat.div_one]

/-- One call of `updateTreeLeafFull` on a tree that summarises the old leaves. -/
theorem updateTreeLeafFull_spec {buf : List Nat} {lvn lvo : Nat → Nat} {T t h s l0 : Nat}
    {ro : List Nat} (ht : t ≤ 32) (hh : 1 ≤ h) (hl : l0 < t * 32 ^ (h - 1))
    (hro : ∀ r, r < h → rd ro r = rowStart t r)
    (hsame : ∀ l, l ≠ l0 → lvn l = lvo l) (hnew : ¬ leafFree (lvn l0) s)
    (hlen : T + rowStart t h ≤ buf.length) (hok : TreeOK buf lvo T t h s) :
    TreeOK (updateTreeLeafFull buf T l0 ro h) lvn T t h s ∧
    (updateTreeLeafFull buf T l0 ro h).length = buf.length ∧
    ∀ i, (i < T ∨ T + rowStart t h ≤ i) → rd (updateTreeLeafFull buf T l0 ro h) i = rd buf i := by
  rw [updateTreeLeafFull_eq]
  apply updateTreeLeafFullLoop_spec ht hl hro hsame hnew (h - 1) (by omega) buf hlen
  · intro r' h1 h2; omega
  · intro r' h1; exact hok r' (by omega)
  · rw [Nat.sub_self, pow_zero, Nat.div_one, closedAt_zero]
    exact fun _ => hnew

/-- One call of `updateTreeLeafHasSpace` on a tree that summarises the old leaves. -/
theorem updateTreeLeafHasSpace_spec {buf : List Nat} {lvn lvo : Nat → Nat} {T t h s l0 : Nat}
    {ro : List Nat} (ht : t ≤ 32) (hh : 1 ≤ h) (hl : l0 < t * 32 ^ (h - 1))
    (hro : ∀ r, r < h → rd ro r = rowStart t r)
    (hsame : ∀ l, l ≠ l0 → lvn l = lvo l) (hfree : leafFree (lvn l0) s)
    (hlen : T + rowStart t h ≤ buf.length) (hok : TreeOK buf lvo T t h s) :
    TreeOK (updateTreeLeafHasSpace buf T l0 ro h) lvn T t h s ∧
    (updateTreeLeafHasSpace buf T l0 ro h).length = buf.length ∧
    ∀ i, (i < T ∨ T + rowStart t h ≤ i) →
      rd (updateTreeLeafHasSpace buf T l0 ro h) i = rd buf i := by
  rw [updateTreeLeafHasSpace_eq]
  apply updateTreeLeafHasSpaceLoop_spec ht hl hro hsame hfree (h - 1) (by omega) buf hlen
  · intro r' h1 h2; omega
  · intro r' h1; exact hok r' (by omega)

/-- The tree loop of `tral_mark` over the trees `i .. i+n-1`, none of which has a free slot
left in leaf `l0`. -/
theorem markTreesLoop_spec {lvn lvo : Nat → Nat} {L t h l0 : Nat} {ro : List Nat}
    (ht : t ≤ 32) (hh : 1 ≤ h) (hl : l0 < t * 32 ^ (h - 1))
    (hro : ∀ r, r < h → rd ro r = rowStart t r)
    (hsame : ∀ l, l ≠ l0 → lvn l = lvo l) :
    ∀ n i buf, L + (i + n) * rowStart t h ≤ List.length buf →
      (∀ s, i ≤ s → s < i + n →
        TreeOK buf lvo (L + s * rowStart t h) t h s ∧ ¬ leafFree (lvn l0) s) →
      (markTreesLoop (rowStart t h) l0 ro h n (L + i * rowStart t h) buf).length = buf.length ∧
      (∀ s, i ≤ s → s < i + n →
        TreeOK (markTreesLoop (rowStart t h) l0 ro h n (L + i * rowStart t h) buf) lvn
          (L + s * rowStart t h) t h s) ∧
      ∀ j, (j < L + i * rowStart t h ∨ L + (i + n) * rowStart t h ≤ j) →
        rd (markTreesLoop (rowStart t h) l0 ro h n (L + i * rowStart t h) buf) j = rd buf j := by
  intro n
  induction n with
  | zero =>
    intro i buf _ _
    exact ⟨rfl, fun s h1 h2 => by omega, fun j _ => rfl⟩
  | succ n ih =>
    intro i buf hlen hpre
    have hend : L + i * rowStart t h + rowStart t h ≤ L + (i + (n + 1)) * rowStart t h :=
      tree_end_le (by omega)
    obtain ⟨a1, a2, a3⟩ := updateTreeLeafFull_spec (T := L + i * rowStart t h) ht hh hl hro hsame
      (hpre i le_rfl (by omega)).2 (by omega) (hpre i le_rfl (by omega)).1
    simp only [markTreesLoop]
    have hnext : L + i * rowStart t h + rowStart t h = L + (i + 1) * rowStart t h := by
      rw [Nat.succ_mul]; omega
    rw [hnext]
    have hidx : i + 1 + n = i + (n + 1) := by omega
    obtain ⟨b1, b2, b3⟩ := ih (i + 1) (updateTreeLeafFull buf (L + i * rowStart t h) l0 ro h)
      (by rw [a2, hidx]; exact hlen)
      (fun s h1 h2 => by
        refine ⟨treeOK_of_eq (fun j hj1 hj2 => a3 j ?_) (fun _ _ => Iff.rfl)
          (hpre s (by omega) (by omega)).1, (hpre s (by omega) (by omega)).2⟩
        right
        have := tree_end_le (L := L) (S := rowStart t h) (i := i) (j := s) (by omega)
        omega)
    refine ⟨by rw [b1, a2], fun s h1 h2 => ?_, fun j hj => ?_⟩
    · by_cases e : s = i
      · subst e
        refine treeOK_of_eq (fun j hj1 hj2 => b3 j ?_) (fun _ _ => Iff.rfl) a1
        left; omega
      · exact b2 s (by omega) (by omega)
    · rw [b3 j (by rw [hidx]; omega), a3 j (by omega)]

/-- The tree loop of `tral_clear` over the trees `i .. i+n-1`, each of which has a free slot
in leaf `l0` again. -/
theorem clearTreesLoop_spec {lvn lvo : Nat → Nat} {L t h l0 : Nat} {ro : List Nat}
    (ht : t ≤ 32) (hh : 1 ≤ h) (hl : l0 < t * 32 ^ (h - 1))
    (hro : ∀ r, r < h → rd ro r = rowStart t r)
    (hsame : ∀ l, l ≠ l0 → lvn l = lvo l) :
    ∀ n i buf, L + (i + n) * rowStart t h ≤ List.length buf →
      (∀ s, i ≤ s → s < i + n →
        TreeOK buf lvo (L + s * rowStart t h) t h s ∧ leafFree (lvn l0) s) →
      (clearTreesLoop (rowStart t h) l0 ro h n (L + i * rowStart t h) buf).length = buf.length ∧
      (∀ s, i ≤ s → s < i + n →
        TreeOK (clearTreesLoop (rowStart t h) l0 ro h n (L + i * rowStart t h) buf) lvn
          (L + s * rowStart t h) t h s) ∧
      ∀ j, (j < L + i * rowStart t h ∨ L + (i + n) * rowStart t h ≤ j) →
        rd (clearTreesLoop (rowStart t h) l0 ro h n (L + i * rowStart t h) buf) j = rd buf j := by
  intro n
  induction n with
  | zero =>
    intro i buf _ _
    exact ⟨rfl, fun s h1 h2 => by omega, fun j _ => rfl⟩
  | succ n ih =>
    intro i buf hlen hpre
    have hend : L + i * rowStart t h + rowStart t h ≤ L + (i + (n + 1)) * rowStart t h :=
      tree_end_le (by omega)
    obtain ⟨a1, a2, a3⟩ := updateTreeLeafHasSpace_spec (T := L + i * rowStart t h) ht hh hl hro
      hsame (hpre i le_rfl (by omega)).2 (by omega) (hpre i le_rfl (by omega)).1
    simp only [clearTreesLoop]
    have hnext : L + i * rowStart t h + rowStart t h = L + (i + 1) * rowStart t h := by
      rw [Nat.succ_mul]; omega
    rw [hnext]
    have hidx : i + 1 + n = i + (n + 1) := by omega
    obtain ⟨b1, b2, b3⟩ := ih (i + 1) (updateTreeLeafHasSpace buf (L + i * rowStart t h) l0 ro h)
      (by rw [a2, hidx]; exact hlen)
      (fun s h1 h2 => by
        refine ⟨treeOK_of_eq (fun j hj1 hj2 => a3 j ?_) (fun _ _ => Iff.rfl)
          (hpre s (by omega) (by omega)).1, (hpre s (by omega) (by omega)).2⟩
        right
        have := tree_end_le (L := L) (S := rowStart t h) (i := i) (j := s) (by omega)
        omega)
    refine ⟨by rw [b1, a2], fun s h1 h2 => ?_, fun j hj => ?_⟩
    · by_cases e : s = i
      · subst e
        refine treeOK_of_eq (fun j hj1 hj2 => b3 j ?_) (fun _ _ => Iff.rfl) a1
        left; omega
      · exact b2 s (by omega) (by omega)
    · rw [b3 j (by rw [hidx]; omega), a3 j (by omega)]

/-! ## `tral_mark` and `tral_clear` keep the invariant -/

theorem ceil_log2_lt (n : Nat) : CEIL_LOG2_SMALL n < 6 := by
  unfold CEIL_LOG2_SMALL b2n
  split_ifs <;> omega

theorem closedAt_congr_lt {lv lv' : Nat → Nat} {L : Nat} (h : ∀ l, l < L → lv' l = lv l)
    (s d c : Nat) : closedAt lv' L s d c ↔ closedAt lv L s d c := by
  unfold closedAt
  constructor <;> intro h1 l hl hc
  · rw [← h l hl]; exact h1 l hl hc
  · rw [h l hl]; exact h1 l hl hc

theorem Geom.stride_pos {m : Member} (g : Geom m) : 1 ≤ m.tree_stride := by
  rw [g.stride]
  have := rowStart_mono m.num_top_branches g.h_pos
  simpa [rowStart, rowWidth] using this

theorem Geom.tree_base {m : Member} (g : Geom m) {k : Nat} (hk : k ≤ 6) :
    u32 (k * m.tree_stride) = k * m.tree_stride ∧ u32 (m.tree_stride * k) = k * m.tree_stride := by
  have h1 := g.stride_le
  have h2 := g.leaves_le
  have h3 : k * m.tree_stride ≤ 6 * m.tree_stride := Nat.mul_le_mul_right _ hk
  rw [Nat.mul_comm m.tree_stride k]
  exact ⟨u32_of_lt (by omega), u32_of_lt (by omega)⟩

theorem Geom.tree_fits {m : Member} (g : Geom m) {s : Nat} (hs : s < 6) :
    m.num_leaves + s * m.tree_stride + m.tree_stride ≤ m.buf.length := by
  have h1 := tree_end_le (L := m.num_leaves) (S := m.tree_stride) (i := s) (j := 6) hs
  have h2 := g.len
  omega

/-- The two outcomes of `tral_mark`. -/
theorem tral_mark_eq (m : Member) (n a : Nat) :
    tral_mark m n a =
      if rd m.buf (m.num_leaves + u32 (CEIL_LOG2_SMALL n * m.tree_stride)) = 4294967295 then
        (false, m, a)
      else
        (true,
          { m with buf := (markBuf m (CEIL_LOG2_SMALL n)
              (leafWithSpaceIndex m.buf (m.num_leaves + u32 (CEIL_LOG2_SMALL n * m.tree_stride))
                m.row_offsets m.tree_height)) },
          u32 (u32 ((leafWithSpaceIndex m.buf
              (m.num_leaves + u32 (CEIL_LOG2_SMALL n * m.tree_stride))
              m.row_offsets m.tree_height) <<< NUM_BRANCHES_LOG2) +
            leafBlocksOffset (rd m.buf (leafWithSpaceIndex m.buf
              (m.num_leaves + u32 (CEIL_LOG2_SMALL n * m.tree_stride))
              m.row_offsets m.tree_height)) (CEIL_LOG2_SMALL n))) := rfl

/-- The buffer written by `tral_mark` for a leaf that has a free slot of the class: the slot
found by `leafBlocksOffset` is set in the leaf, nothing else changes in the leaf bitmap, and
the six trees summarise the new bitmap. -/
theorem markBuf_spec {m : Member} (hinv : Inv m) (s : Nat) {l0 : Nat}
    (hl0 : l0 < m.num_leaves) :
    (markBuf m s l0).length = m.buf.length ∧
    rd (markBuf m s l0) l0 =
      rd m.buf l0 ||| leafBlocksMask s (leafBlocksOffset (rd m.buf l0) s) ∧
    (∀ j, j ≠ l0 → (j < m.num_leaves ∨ m.num_leaves + 6 * m.tree_stride ≤ j) →
      rd (markBuf m s l0) j = rd m.buf j) ∧
    ∀ s', s' < 6 → TreeOK (markBuf m s l0) (rd (markBuf m s l0))
      (m.num_leaves + s' * m.tree_stride) m.num_top_branches m.tree_height s' := by
  have g := hinv.geom
  have hlen0 : l0 < m.buf.length := by
    have := g.len; omega
  have hL : m.num_leaves = m.num_top_branches * 32 ^ (m.tree_height - 1) := g.leaves
  set w' := rd m.buf l0 ||| leafBlocksMask s (leafBlocksOffset (rd m.buf l0) s) with hw'
  set buf1 := wr m.buf l0 w' with hbuf1
  have hr1 : rd buf1 l0 = w' := rd_wr_same hlen0 _
  have hw'lt : w' < 4294967296 := or_lt_word (hinv.words l0 hl0) (leafBlocksMask_lt _ _)
  have hk6 := leafHasSpaceEnd_le w'
  have hsame : ∀ l, l ≠ l0 → rd buf1 l = rd m.buf l := fun l hl => rd_wr_ne (Ne.symm hl) _
  have hmono : ∀ s', leafFree w' s' → leafFree (rd m.buf l0) s' := fun s' hf =>
    leafFree_mono (fun i hi => by rw [hw', Nat.testBit_or, hi]; rfl) hf
  have hpre : ∀ s', leafHasSpaceEnd w' ≤ s' → s' < leafHasSpaceEnd w' + (6 - leafHasSpaceEnd w') →
      TreeOK buf1 (rd m.buf) (m.num_leaves + s' * rowStart m.num_top_branches m.tree_height)
        m.num_top_branches m.tree_height s' ∧ ¬ leafFree (rd buf1 l0) s' := by
    intro s' h1 h2
    have hs' : s' < 6 := by omega
    constructor
    · rw [← g.stride]
      exact treeOK_of_eq (fun j hj1 hj2 => rd_wr_ne (by omega) _) (fun _ _ => Iff.rfl)
        (hinv.trees s' hs')
    · rw [hr1, ← leafHasSpaceEnd_spec hw'lt hs']
      omega
  have hlenb : m.num_leaves + (leafHasSpaceEnd w' + (6 - leafHasSpaceEnd w')) *
      rowStart m.num_top_branches m.tree_height ≤ buf1.length := by
    rw [hbuf1, length_wr, show leafHasSpaceEnd w' + (6 - leafHasSpaceEnd w') = 6 by omega,
      ← g.stride]
    exact g.len
  obtain ⟨c1, c2, c3⟩ := @markTreesLoop_spec (rd buf1) (rd m.buf) m.num_leaves _ _ _
    m.row_offsets g.t_le g.h_pos (by rw [← hL]; exact hl0) g.offs hsame
    (6 - leafHasSpaceEnd w') (leafHasSpaceEnd w') buf1 hlenb hpre
  rw [← g.stride] at c1 c2 c3
  have hdef : markBuf m s l0 = markTreesLoop m.tree_stride l0 m.row_offsets m.tree_height
      (6 - leafHasSpaceEnd w') (m.num_leaves + leafHasSpaceEnd w' * m.tree_stride) buf1 := by
    unfold markBuf
    simp only [← hw', ← hbuf1, hr1, (g.tree_base hk6).2]
    rfl
  rw [hdef]
  have hleaf : ∀ l, l < m.num_leaves →
      rd (markTreesLoop m.tree_stride l0 m.row_offsets m.tree_height
        (6 - leafHasSpaceEnd w') (m.num_leaves + leafHasSpaceEnd w' * m.tree_stride) buf1) l =
      rd buf1 l := fun l hl => c3 l (by left; omega)
  refine ⟨by rw [c1, hbuf1, length_wr], by rw [hleaf l0 hl0, hr1], ?_, ?_⟩
  · intro j hj hrange
    rw [c3 j ?_, hsame j hj]
    rcases hrange with h1 | h1
    · left; omega
    · right
      rw [show leafHasSpaceEnd w' + (6 - leafHasSpaceEnd w') = 6 by omega]
      exact h1
  · intro s' hs'
    by_cases hk : leafHasSpaceEnd w' ≤ s'
    · exact treeOK_of_eq (fun _ _ _ => rfl)
        (fun d c => by rw [← hL]; exact closedAt_congr_lt hleaf s' d c) (c2 s' hk (by omega))
    · have hf' : leafFree w' s' := (leafHasSpaceEnd_spec hw'lt hs').1 (by omega)
      refine treeOK_of_eq (fun j hj1 hj2 => ?_) (fun d c => ?_) (hinv.trees s' hs')
      · rw [c3 j ?_, hsame j (by omega)]
        left
        have := tree_end_le (L := m.num_leaves) (S := m.tree_stride) (i := s')
          (j := leafHasSpaceEnd w') (by omega)
        rw [g.stride] at this hj2 ⊢
        omega
      · rw [← hL, closedAt_congr_lt hleaf s' d c]
        exact closedAt_congr_iff hsame
          (by rw [hr1]; exact ⟨fun _ => hmono s' hf', fun _ => hf'⟩) d c

theorem tral_clear_fields (m : Member) (adr n : Nat) :
    (tral_clear m adr n).num_leaves = m.num_leaves ∧
    (tral_clear m adr n).tree_stride = m.tree_stride ∧
    (tral_clear m adr n).row_offsets = m.row_offsets ∧
    (tral_clear m adr n).num_top_branches = m.num_top_branches ∧
    (tral_clear m adr n).tree_height = m.tree_height := ⟨rfl, rfl, rfl, rfl, rfl⟩

/-- The buffer written by `tral_clear` for an address inside the allocator: the bits of the
mask are cleared in the leaf, nothing else changes in the leaf bitmap, and the six trees
summarise the new bitmap. -/
theorem tral_clear_spec {m : Member} (hinv : Inv m) {adr : Nat} (n : Nat)
    (hadr : adr < 32 * m.num_leaves) :
    (tral_clear m adr n).buf.length = m.buf.length ∧
    rd (tral_clear m adr n).buf (adr / 32) =
      rd m.buf (adr / 32) &&& not32 (leafBlocksMask (CEIL_LOG2_SMALL n) (adr % 32)) ∧
    (∀ j, j ≠ adr / 32 → (j < m.num_leaves ∨ m.num_leaves + 6 * m.tree_stride ≤ j) →
      rd (tral_clear m adr n).buf j = rd m.buf j) ∧
    ∀ s', s' < 6 → TreeOK (tral_clear m adr n).buf (rd (tral_clear m adr n).buf)
      (m.num_leaves + s' * m.tree_stride) m.num_top_branches m.tree_height s' := by
  have g := hinv.geom
  have hl0 : adr / 32 < m.num_leaves := by omega
  have hlen0 : adr / 32 < m.buf.length := by
    have := g.len; omega
  have hL : m.num_leaves = m.num_top_branches * 32 ^ (m.tree_height - 1) := g.leaves
  set l0 := adr / 32 with hl0def
  set w' := rd m.buf l0 &&& not32 (leafBlocksMask (CEIL_LOG2_SMALL n) (adr % 32)) with hw'
  set buf1 := wr m.buf l0 w' with hbuf1
  have hr1 : rd buf1 l0 = w' := rd_wr_same hlen0 _
  have hw'lt : w' < 4294967296 := and_lt_word (hinv.words l0 hl0)
  have hk6 := leafHasSpaceEnd_le w'
  have hsame : ∀ l, l ≠ l0 → rd buf1 l = rd m.buf l := fun l hl => rd_wr_ne (Ne.symm hl) _
  have hmono : ∀ s', leafFree (rd m.buf l0) s' → leafFree w' s' := fun s' hf =>
    leafFree_mono (fun i hi => by
      rw [hw', Nat.testBit_and] at hi
      simp only [Bool.and_eq_true] at hi
      exact hi.1) hf
  have hpre : ∀ s', 0 ≤ s' → s' < 0 + leafHasSpaceEnd w' →
      TreeOK buf1 (rd m.buf) (m.num_leaves + s' * rowStart m.num_top_branches m.tree_height)
        m.num_top_branches m.tree_height s' ∧ leafFree (rd buf1 l0) s' := by
    intro s' _ h2
    have hs' : s' < 6 := by omega
    constructor
    · rw [← g.stride]
      exact treeOK_of_eq (fun j hj1 hj2 => rd_wr_ne (by omega) _) (fun _ _ => Iff.rfl)
        (hinv.trees s' hs')
    · rw [hr1, ← leafHasSpaceEnd_spec hw'lt hs']
      omega
  have hlenb : m.num_leaves + (0 + leafHasSpaceEnd w') *
      rowStart m.num_top_branches m.tree_height ≤ buf1.length := by
    rw [hbuf1, length_wr, ← g.stride]
    have h1 : (0 + leafHasSpaceEnd w') * m.tree_stride ≤ 6 * m.tree_stride :=
      Nat.mul_le_mul_right _ (by omega)
    have := g.len
    omega
  obtain ⟨c1, c2, c3⟩ := @clearTreesLoop_spec (rd buf1) (rd m.buf)
    m.num_leaves _ _ _ m.row_offsets g.t_le g.h_pos (by rw [← hL]; exact hl0) g.offs
    hsame (leafHasSpaceEnd w') 0 buf1 hlenb hpre
  rw [← g.stride] at c1 c2 c3
  simp only [Nat.zero_mul, Nat.add_zero, Nat.zero_add] at c1 c2 c3
  have hdef : (tral_clear m adr n).buf = clearTreesLoop m.tree_stride l0 m.row_offsets
      m.tree_height (leafHasSpaceEnd w') m.num_leaves buf1 := by
    unfold tral_clear
    simp only [shift_eq_div, and_mask_eq_mod, ← hl0def, ← hw', ← hbuf1, hr1]
  rw [hdef]
  have hleaf : ∀ l, l < m.num_leaves →
      rd (clearTreesLoop m.tree_stride l0 m.row_offsets m.tree_height (leafHasSpaceEnd w')
        m.num_leaves buf1) l = rd buf1 l := fun l hl => c3 l (by left; omega)
  refine ⟨by rw [c1, hbuf1, length_wr], by rw [hleaf l0 hl0, hr1], ?_, ?_⟩
  · intro j hj hrange
    rw [c3 j ?_, hsame j hj]
    rcases hrange with h1 | h1
    · left; omega
    · right
      have h2 : leafHasSpaceEnd w' * m.tree_stride ≤ 6 * m.tree_stride :=
        Nat.mul_le_mul_right _ hk6
      omega
  · intro s' hs'
    by_cases hk : s' < leafHasSpaceEnd w'
    · exact treeOK_of_eq (fun _ _ _ => rfl)
        (fun d c => by rw [← hL]; exact closedAt_congr_lt hleaf s' d c)
        (c2 s' (Nat.zero_le _) hk)
    · have hf' : ¬ leafFree w' s' := fun hf => hk ((leafHasSpaceEnd_spec hw'lt hs').2 hf)
      refine treeOK_of_eq (fun j hj1 hj2 => ?_) (fun d c => ?_) (hinv.trees s' hs')
      · rw [c3 j ?_, hsame j (by omega)]
        right
        exact le_trans (tree_base_le (by omega)) hj1
      · rw [← hL, closedAt_congr_lt hleaf s' d c]
        exact closedAt_congr_iff hsame
          (by rw [hr1]; exact ⟨fun h => absurd h hf', fun h => absurd (hmono s' h) hf'⟩) d c

theorem words_of_frame {m : Member} (hinv : Inv m) {buf : List Nat} (l0 : Nat)
    (h0 : rd buf l0 < 4294967296)
    (hf : ∀ j, j ≠ l0 → (j < m.num_leaves ∨ m.num_leaves + 6 * m.tree_stride ≤ j) →
      rd buf j = rd m.buf j) :
    ∀ l, l < m.num_leaves → rd buf l < 4294967296 := by
  intro l hl
  by_cases e : l = l0
  · rw [e]; exact h0
  · rw [hf l e (Or.inl hl)]; exact hinv.words l hl

/-- The invariant survives `tral_clear` at any address inside the allocator. -/
theorem inv_clear {m : Member} (hinv : Inv m) {adr : Nat} (n : Nat)
    (hadr : adr < 32 * m.num_leaves) : Inv (tral_clear m adr n) := by
  obtain ⟨c1, c2, c3, c4⟩ := tral_clear_spec hinv n hadr
  have g := hinv.geom
  refine ⟨⟨g.h_pos, g.h_le, g.t_ge, g.t_le, g.leaves, g.leaves_le, g.stride, g.stride_le, g.offs,
    ?_⟩, ?_, c4⟩
  · rw [c1]; exact g.len
  · apply words_of_frame hinv (adr / 32) _ c3
    rw [c2]
    exact and_lt_word (hinv.words _ (by omega))

/-- On a member that satisfies the invariant, `tral_mark` fails exactly when no leaf has a
free aligned slot of the class. -/
theorem mark_fail_iff {m : Member} (hinv : Inv m) (n a : Nat) :
    (tral_mark m n a).1 = false ↔
      ∀ l, l < m.num_leaves → ¬ leafFree (rd m.buf l) (CEIL_LOG2_SMALL n) := by
  have g := hinv.geom
  have hs := ceil_log2_lt n
  have htop := top_full_iff g.t_le g.h_pos (hinv.trees _ hs)
  rw [← g.leaves] at htop
  rw [tral_mark_eq, (g.tree_base (Nat.le_of_lt hs)).1]
  split_ifs with h
  · simp only [true_iff]; exact htop.1 h
  · simp only [Bool.true_eq_false, false_iff]
    exact fun hc => h (htop.2 hc)

/-- A successful `tral_mark` on a member that satisfies the invariant: it takes the lowest
leaf `l0` with a free slot and the lowest free aligned offset in it. -/
theorem mark_success {m : Member} (hinv : Inv m) (n a : Nat)
    (hok : (tral_mark m n a).1 = true) :
    ∃ l0, l0 < m.num_leaves ∧ leafFree (rd m.buf l0) (CEIL_LOG2_SMALL n) ∧
      (∀ l, l < l0 → ¬ leafFree (rd m.buf l) (CEIL_LOG2_SMALL n)) ∧
      (tral_mark m n a).2.2 = 32 * l0 + leafBlocksOffset (rd m.buf l0) (CEIL_LOG2_SMALL n) ∧
      (tral_mark m n a).2.1 = { m with buf := markBuf m (CEIL_LOG2_SMALL n) l0 } := by
  have g := hinv.geom
  have hs := ceil_log2_lt n
  have hb := (g.tree_base (Nat.le_of_lt hs)).1
  rw [tral_mark_eq, hb] at hok ⊢
  by_cases h : rd m.buf (m.num_leaves + CEIL_LOG2_SMALL n * m.tree_stride) = 4294967295
  · rw [if_pos h] at hok
    exact absurd hok (by simp)
  · rw [if_neg h]
    obtain ⟨d1, d2, d3⟩ := @leafWithSpaceIndex_spec _ _ _ _ _ _ m.row_offsets g.h_pos
      (by rw [← g.leaves]; exact g.leaves_le) g.offs (hinv.trees _ hs) h
    rw [← g.leaves] at d1
    refine ⟨_, d1, d2, d3, ?_, rfl⟩
    have ho := (leafBlocksOffset_spec hs d2).1
    have hl := g.leaves_le
    simp only [NUM_BRANCHES_LOG2, Nat.shiftLeft_eq, u32]
    omega

/-- The invariant survives `tral_mark`. -/
theorem inv_mark {m : Member} (hinv : Inv m) (n a : Nat) : Inv (tral_mark m n a).2.1 := by
  by_cases hok : (tral_mark m n a).1 = true
  · obtain ⟨l0, h1, _, _, _, h5⟩ := mark_success hinv n a hok
    rw [h5]
    obtain ⟨c1, c2, c3, c4⟩ := markBuf_spec hinv (CEIL_LOG2_SMALL n) h1
    have g := hinv.geom
    refine ⟨⟨g.h_pos, g.h_le, g.t_ge, g.t_le, g.leaves, g.leaves_le, g.stride, g.stride_le,
      g.offs, ?_⟩, ?_, c4⟩
    · show m.num_leaves + 6 * m.tree_stride ≤ (markBuf m (CEIL_LOG2_SMALL n) l0).length
      rw [c1]; exact g.len
    · apply words_of_frame hinv l0 _ c3
      rw [c2]
      exact or_lt_word (hinv.words _ h1) (leafBlocksMask_lt _ _)
  · have hf : (tral_mark m n a).1 = false := by simpa using hok
    rw [tral_mark_eq] at hf ⊢
    by_cases h : rd m.buf (m.num_leaves + u32 (CEIL_LOG2_SMALL n * m.tree_stride)) = 4294967295
    · rw [if_pos h]; exact hinv
    · rw [if_neg h] at hf
      exact absurd hf (by simp)

/-! ## The state after `tral_init_member` -/

theorem leafFree_zero (s : Nat) : leafFree 0 s :=
  ⟨0, by norm_num, Nat.zero_mod _, fun _ _ => Nat.zero_testBit _⟩

/-- A child inside its row whose leaves all have a free slot is open. -/
theorem open_of_all_free {lv : Nat → Nat} {t h s d c : Nat} (hd : d ≤ h - 1)
    (hall : ∀ l, l < t * 32 ^ (h - 1) → leafFree (lv l) s) (hc : c < t * 32 ^ (h - 1 - d)) :
    ¬ closedAt lv (t * 32 ^ (h - 1)) s d c := by
  intro hcl
  have hpos : 0 < 32 ^ d := by positivity
  have hlt : c * 32 ^ d < t * 32 ^ (h - 1) := by
    have e : t * 32 ^ (h - 1) = t * 32 ^ (h - 1 - d) * 32 ^ d := by
      rw [Nat.mul_assoc, ← pow_add]; congr 2; omega
    rw [e]
    exact Nat.mul_lt_mul_of_pos_right hc hpos
  exact hcl (c * 32 ^ d) hlt (Nat.mul_div_cancel _ hpos) (hall _ hlt)

theorem init_buf_eq (mb : Nat) (buf : List Nat) :
    (tral_init_member mb buf).buf =
      initTopNodesLoop (tral_init_member mb buf).tree_stride
        ((tral_init_member mb buf).num_leaves + (tral_init_member mb buf).tree_stride * 6)
        (if (tral_init_member mb buf).num_top_branches < NUM_BRANCHES then
          not32 (u32 (u32 (1 <<< (tral_init_member mb buf).num_top_branches) + 4294967295))
        else 0) 6 (tral_init_member mb buf).num_leaves
        (memsetZero buf (requiredBufferSize (tral_init_member mb buf).num_leaves
          (tral_init_member mb buf).tree_stride)) := rfl

/-- The words of the buffer after `tral_init_member`: the six top nodes hold the sentinel
word, every other word of the leaves and trees is zero, the rest of the buffer is as found. -/
theorem init_rd {mb : Nat} {buf : List Nat} (h2 : mb ≤ 4294967296)
    (hbuf : tral_required_member_buffer_size mb ≤ 4 * buf.length) (i : Nat) :
    rd (tral_init_member mb buf).buf i =
      if (∃ k, k < 6 ∧ i = (tral_init_member mb buf).num_leaves +
          k * (tral_init_member mb buf).tree_stride) then
        (if (tral_init_member mb buf).num_top_branches < NUM_BRANCHES then
          not32 (u32 (u32 (1 <<< (tral_init_member mb buf).num_top_branches) + 4294967295))
        else 0)
      else if i < (tral_init_member mb buf).num_leaves +
          6 * (tral_init_member mb buf).tree_stride then 0
      else rd buf i := by
  have g := geom_init h2 hbuf
  have hlen : (tral_init_member mb buf).buf.length = buf.length := by
    rw [init_buf_eq, length_initTopNodesLoop, length_memsetZero]
  have hsz : requiredBufferSize (tral_init_member mb buf).num_leaves
      (tral_init_member mb buf).tree_stride =
      4 * ((tral_init_member mb buf).num_leaves + 6 * (tral_init_member mb buf).tree_stride) := by
    unfold requiredBufferSize
    have h1 := g.stride_le
    have h3 := g.leaves_le
    simp only [show NUM_TREES = 6 from rfl, u32]
    omega
  rw [init_buf_eq, rd_initTopNodesLoop _ _ _ _ g.stride_pos 6 _ _ (by ring)
    (by rw [length_memsetZero]; have := g.len; rw [hlen] at this; omega),
    rd_memsetZero, hsz]
  congr 1
  by_cases hi : i < (tral_init_member mb buf).num_leaves +
      6 * (tral_init_member mb buf).tree_stride
  · rw [if_pos hi, if_pos (by omega)]
  · rw [if_neg hi, if_neg (by omega)]

/-- The invariant holds after `tral_init_member` on a buffer of the required size. -/
theorem inv_init {mb : Nat} {buf : List Nat} (h2 : mb ≤ 4294967296)
    (hbuf : tral_required_member_buffer_size mb ≤ 4 * buf.length) :
    Inv (tral_init_member mb buf) := by
  have g := geom_init h2 hbuf
  have hrd := init_rd h2 hbuf
  set m := tral_init_member mb buf with hm
  have hspos := g.stride_pos
  have hleaf : ∀ l, l < m.num_leaves → rd m.buf l = 0 := by
    intro l hl
    rw [hrd l, if_neg, if_pos (by omega)]
    rintro ⟨k, _, e⟩
    omega
  have hall : ∀ s l, l < m.num_top_branches * 32 ^ (m.tree_height - 1) →
      leafFree (rd m.buf l) s := by
    intro s l hl
    rw [hleaf l (by rw [g.leaves]; exact hl)]
    exact leafFree_zero s
  refine ⟨g, fun l hl => by rw [hleaf l hl]; norm_num, ?_⟩
  intro s hs r hr j hj
  cases r with
  | zero =>
    have hj0 : j = 0 := by simpa [rowWidth] using hj
    subst hj0
    simp only [rowStart, Nat.add_zero, Nat.sub_zero, Nat.mul_zero, Nat.zero_add]
    rw [hrd, if_pos ⟨s, hs, rfl⟩]
    refine ⟨sentinel_lt _, fun b hb => ?_⟩
    rw [testBit_sentinel _ _ g.t_le]
    simp only [decide_eq_true_eq]
    constructor
    · rintro ⟨h1, _⟩ l hl hc
      have : l / 32 ^ (m.tree_height - 1) < m.num_top_branches :=
        Nat.div_lt_of_lt_mul (by rw [Nat.mul_comm]; exact hl)
      omega
    · intro hcl
      refine ⟨?_, hb⟩
      by_contra hlt
      exact open_of_all_free (le_refl _) (hall s) (by simpa using (Nat.lt_of_not_le hlt)) hcl
  | succ r =>
    have hx := node_lt_stride hr hj
    rw [← g.stride] at hx
    have hx1 : 1 ≤ rowStart m.num_top_branches (r + 1) := by
      have := rowStart_mono m.num_top_branches (show 1 ≤ r + 1 by omega)
      simpa [rowStart, rowWidth] using this
    have hnot : ¬ ∃ k, k < 6 ∧ m.num_leaves + s * m.tree_stride +
        rowStart m.num_top_branches (r + 1) + j = m.num_leaves + k * m.tree_stride := by
      rintro ⟨k, _, e⟩
      rcases Nat.lt_or_ge s k with h1 | h1
      · have := tree_end_le (L := m.num_leaves) (S := m.tree_stride) h1
        omega
      · have := tree_base_le (L := m.num_leaves) (S := m.tree_stride) h1
        omega
    have hin : m.num_leaves + s * m.tree_stride + rowStart m.num_top_branches (r + 1) + j <
        m.num_leaves + 6 * m.tree_stride := by
      have := tree_end_le (L := m.num_leaves) (S := m.tree_stride) (i := s) (j := 6) hs
      omega
    rw [hrd, if_neg hnot, if_pos hin]
    refine ⟨by norm_num, fun b hb => ?_⟩
    rw [Nat.zero_testBit]
    constructor
    · intro h; exact Bool.noConfusion h
    · intro hcl
      exfalso
      refine open_of_all_free (by omega) (hall s) ?_ hcl
      have e : m.tree_height - 1 - (m.tree_height - 1 - (r + 1)) = r + 1 := by omega
      rw [e]
      simp only [rowWidth] at hj
      rw [pow_succ, ← Nat.mul_assoc]
      omega

/-! ## From leaf words to blocks -/

theorem Geom.num_blocks {m : Member} (g : Geom m) : tral_num_blocks m = 32 * m.num_leaves := by
  unfold tral_num_blocks
  have := g.leaves_le
  simp only [NUM_BRANCHES_LOG2, Nat.shiftLeft_eq]
  omega

theorem align_fits {s o : Nat} (hs : s < 6) (ho : o < 32) (ha : o % 2 ^ s = 0) :
    o + 2 ^ s ≤ 32 := by
  interval_cases s <;> simp at ha ⊢ <;> omega

theorem align_mod32 {s : Nat} (hs : s < 6) (a : Nat) : a % 2 ^ s = 0 ↔ a % 32 % 2 ^ s = 0 := by
  interval_cases s <;> simp <;> omega

theorem width_pos (s : Nat) : 0 < 2 ^ s := Nat.two_pow_pos s

theorem div_eq_iff_range (l d c : Nat) :
    l / 32 ^ d = c ↔ c * 32 ^ d ≤ l ∧ l < (c + 1) * 32 ^ d := by
  have hpos : 0 < 32 ^ d := by positivity
  constructor
  · intro h
    subst h
    refine ⟨Nat.div_mul_le_self l _, ?_⟩
    have h1 := Nat.div_add_mod l (32 ^ d)
    have h2 := Nat.mod_lt l hpos
    rw [Nat.add_mul, Nat.one_mul, Nat.mul_comm]
    omega
  · rintro ⟨h1, h2⟩
    apply Nat.le_antisymm
    · exact Nat.le_of_lt_succ ((Nat.div_lt_iff_lt_mul hpos).2 h2)
    · exact (Nat.le_div_iff_mul_le hpos).2 h1

/-- A free run of a leaf word, read as a run of blocks. -/
theorem runFree_iff_blocks (m : Member) {s o : Nat} (l : Nat) (ho : o + 2 ^ s ≤ 32) :
    runFree (rd m.buf l) s o ↔ ∀ i, i < 2 ^ s → blockUsed m (32 * l + o + i) = false := by
  unfold runFree blockUsed
  constructor
  · intro h i hi
    have e1 : (32 * l + o + i) / 32 = l := by omega
    have e2 : (32 * l + o + i) % 32 = o + i := by omega
    rw [e1, e2]; exact h i hi
  · intro h i hi
    have e1 : (32 * l + o + i) / 32 = l := by omega
    have e2 : (32 * l + o + i) % 32 = o + i := by omega
    have := h i hi
    rwa [e1, e2] at this

/-- A free aligned run of blocks lies in one leaf, as a free aligned run of that leaf word. -/
theorem freeRunAt_iff {m : Member} (g : Geom m) {s : Nat} (hs : s < 6) (a : Nat) :
    freeRunAt m s a ↔
      a / 32 < m.num_leaves ∧ a % 32 % 2 ^ s = 0 ∧ runFree (rd m.buf (a / 32)) s (a % 32) := by
  unfold freeRunAt
  rw [g.num_blocks, align_mod32 hs a]
  constructor
  · rintro ⟨h1, h2, h3⟩
    have hfit := align_fits hs (Nat.mod_lt a (by norm_num)) h1
    have hp := width_pos s
    refine ⟨by omega, h1, (runFree_iff_blocks m (a / 32) hfit).2 ?_⟩
    rw [show 32 * (a / 32) + a % 32 = a by omega]
    exact h3
  · rintro ⟨h1, h2, h3⟩
    have hfit := align_fits hs (Nat.mod_lt a (by norm_num)) h2
    refine ⟨h2, by omega, ?_⟩
    have := (runFree_iff_blocks m (a / 32) hfit).1 h3
    rwa [show 32 * (a / 32) + a % 32 = a by omega] at this

theorem freeRunAt_lt {m : Member} {s a : Nat} (h : freeRunAt m s a) : a < tral_num_blocks m := by
  have := width_pos s
  have := h.2.1
  omega

/-- A leaf has a free aligned slot iff a free aligned run of blocks starts in it. -/
theorem leafFree_iff_blocks {m : Member} (g : Geom m) {s : Nat} (hs : s < 6) {l : Nat}
    (hl : l < m.num_leaves) :
    leafFree (rd m.buf l) s ↔ ∃ a, freeRunAt m s a ∧ a / 32 = l := by
  constructor
  · rintro ⟨o, ho, ha, hr⟩
    refine ⟨32 * l + o, (freeRunAt_iff g hs _).2 ?_, by omega⟩
    have e1 : (32 * l + o) / 32 = l := by omega
    have e2 : (32 * l + o) % 32 = o := by omega
    rw [e1, e2]
    exact ⟨hl, ha, hr⟩
  · rintro ⟨a, ha, rfl⟩
    obtain ⟨_, h2, h3⟩ := (freeRunAt_iff g hs a).1 ha
    exact ⟨a % 32, Nat.mod_lt a (by norm_num), h2, h3⟩

/-- A subtree is closed iff no free aligned run of blocks starts below it. -/
theorem closedAt_iff_blocks {m : Member} (g : Geom m) {s : Nat} (hs : s < 6) (r c : Nat) :
    closedAt (rd m.buf) (m.num_top_branches * 32 ^ (m.tree_height - 1)) s
      (m.tree_height - 1 - r) c ↔ ¬ subtreeHasFreeRun m s r c := by
  rw [← g.leaves]
  unfold closedAt subtreeHasFreeRun
  constructor
  · rintro h ⟨a, _, hf, h1, h2⟩
    have hl := ((freeRunAt_iff g hs a).1 hf).1
    exact h (a / 32) hl ((div_eq_iff_range _ _ _).2 ⟨h1, h2⟩)
      ((leafFree_iff_blocks g hs hl).2 ⟨a, hf, rfl⟩)
  · intro h l hl hc hfree
    obtain ⟨a, hf, rfl⟩ := (leafFree_iff_blocks g hs hl).1 hfree
    have := (div_eq_iff_range _ _ _).1 hc
    exact h ⟨a, freeRunAt_lt hf, hf, this.1, this.2⟩

/-- No leaf has a free slot iff no free aligned run of blocks exists. -/
theorem no_leafFree_iff {m : Member} (g : Geom m) {s : Nat} (hs : s < 6) :
    (∀ l, l < m.num_leaves → ¬ leafFree (rd m.buf l) s) ↔
      ¬ ∃ a, a < tral_num_blocks m ∧ freeRunAt m s a := by
  constructor
  · rintro h ⟨a, _, hf⟩
    have hl := ((freeRunAt_iff g hs a).1 hf).1
    exact h _ hl ((leafFree_iff_blocks g hs hl).2 ⟨a, hf, rfl⟩)
  · intro h l hl hfree
    obtain ⟨a, hf, _⟩ := (leafFree_iff_blocks g hs hl).1 hfree
    exact h ⟨a, freeRunAt_lt hf, hf⟩

/-! ## The effect of `tral_mark` and `tral_clear` on blocks -/

theorem mark_fields (m : Member) (n a : Nat) :
    (tral_mark m n a).2.1.num_leaves = m.num_leaves ∧
    (tral_mark m n a).2.1.tree_stride = m.tree_stride ∧
    (tral_mark m n a).2.1.row_offsets = m.row_offsets ∧
    (tral_mark m n a).2.1.num_top_branches = m.num_top_branches ∧
    (tral_mark m n a).2.1.tree_height = m.tree_height := by
  rw [tral_mark_eq]
  split_ifs <;> exact ⟨rfl, rfl, rfl, rfl, rfl⟩

theorem mark_num_blocks (m : Member) (n a : Nat) :
    tral_num_blocks (tral_mark m n a).2.1 = tral_num_blocks m := by
  unfold tral_num_blocks
  rw [(mark_fields m n a).1]

/-- A successful `tral_mark` returns the lowest free aligned run of the class and sets
exactly its blocks. -/
theorem mark_blocks {m : Member} (hinv : Inv m) (n a : Nat)
    (hok : (tral_mark m n a).1 = true) :
    freeRunAt m (CEIL_LOG2_SMALL n) (tral_mark m n a).2.2 ∧
    (∀ a', a' < (tral_mark m n a).2.2 → ¬ freeRunAt m (CEIL_LOG2_SMALL n) a') ∧
    ∀ x, x < tral_num_blocks m →
      blockUsed (tral_mark m n a).2.1 x =
        (blockUsed m x || decide ((tral_mark m n a).2.2 ≤ x ∧
          x < (tral_mark m n a).2.2 + 2 ^ CEIL_LOG2_SMALL n)) := by
  have g := hinv.geom
  have hs := ceil_log2_lt n
  obtain ⟨l0, h1, h2, h3, h4, h5⟩ := mark_success hinv n a hok
  obtain ⟨o1, o2, o3, o4⟩ := leafBlocksOffset_spec hs h2
  obtain ⟨c1, c2, c3, _⟩ := markBuf_spec hinv (CEIL_LOG2_SMALL n) h1
  rw [h4, h5]
  set s := CEIL_LOG2_SMALL n with hsdef
  set o := leafBlocksOffset (rd m.buf l0) s with hodef
  have hfit := align_fits hs o1 o2
  have e1 : (32 * l0 + o) / 32 = l0 := by omega
  have e2 : (32 * l0 + o) % 32 = o := by omega
  refine ⟨(freeRunAt_iff g hs _).2 (by rw [e1, e2]; exact ⟨h1, o2, o3⟩), ?_, ?_⟩
  · intro a' ha' hf
    obtain ⟨f1, f2, f3⟩ := (freeRunAt_iff g hs a').1 hf
    by_cases hl : a' / 32 < l0
    · exact h3 _ hl ⟨a' % 32, Nat.mod_lt _ (by norm_num), f2, f3⟩
    · have e : a' / 32 = l0 := by omega
      rw [e] at f3
      exact o4 (a' % 32) (by omega) f2 f3
  · intro x hx
    rw [g.num_blocks] at hx
    unfold blockUsed
    show (rd (markBuf m s l0) (x / 32)).testBit (x % 32) = _
    by_cases hl : x / 32 = l0
    · rw [hl, c2, Nat.testBit_or, testBit_leafBlocksMask hs]
      congr 1
      have hx32 : x % 32 < 32 := Nat.mod_lt _ (by norm_num)
      apply decide_eq_decide.2
      constructor
      · rintro ⟨_, p1, p2⟩; constructor <;> omega
      · rintro ⟨p1, p2⟩; refine ⟨hx32, ?_, ?_⟩ <;> omega
    · rw [c3 _ hl (Or.inl (by omega))]
      have : ¬ (32 * l0 + o ≤ x ∧ x < 32 * l0 + o + 2 ^ s) := by
        rintro ⟨p1, p2⟩; omega
      simp [this]

/-- A `tral_clear` of an aligned range inside the allocator clears exactly its blocks. -/
theorem clear_blocks {m : Member} (hinv : Inv m) {adr : Nat} (n : Nat)
    (hal : adr % 2 ^ CEIL_LOG2_SMALL n = 0)
    (hin : adr + 2 ^ CEIL_LOG2_SMALL n ≤ tral_num_blocks m) :
    ∀ x, x < tral_num_blocks m →
      blockUsed (tral_clear m adr n) x =
        (blockUsed m x && !decide (adr ≤ x ∧ x < adr + 2 ^ CEIL_LOG2_SMALL n)) := by
  have g := hinv.geom
  have hs := ceil_log2_lt n
  have hp := width_pos (CEIL_LOG2_SMALL n)
  rw [g.num_blocks] at hin
  obtain ⟨c1, c2, c3, _⟩ := tral_clear_spec hinv n (show adr < 32 * m.num_leaves by omega)
  have ho2 := (align_mod32 hs adr).1 hal
  have hfit := align_fits hs (Nat.mod_lt adr (by norm_num)) ho2
  intro x hx
  rw [g.num_blocks] at hx
  unfold blockUsed
  by_cases hl : x / 32 = adr / 32
  · rw [hl, c2, Nat.testBit_and, testBit_not32, testBit_leafBlocksMask hs]
    have hx32 : x % 32 < 32 := Nat.mod_lt _ (by norm_num)
    congr 1
    simp only [hx32, decide_True, Bool.true_and, true_and]
    congr 1
    apply decide_eq_decide.2
    constructor
    · rintro ⟨p1, p2⟩; constructor <;> omega
    · rintro ⟨p1, p2⟩; constructor <;> omega
  · rw [c3 _ hl (Or.inl (by omega))]
    have : ¬ (adr ≤ x ∧ x < adr + 2 ^ CEIL_LOG2_SMALL n) := by
      rintro ⟨p1, p2⟩; omega
    simp [this]

/-! ## Reachable states -/

theorem init_leaf_zero {mb : Nat} {buf : List Nat} (h2 : mb ≤ 4294967296)
    (hbuf : tral_required_member_buffer_size mb ≤ 4 * buf.length) {l : Nat}
    (hl : l < (tral_init_member mb buf).num_leaves) : rd (tral_init_member mb buf).buf l = 0 := by
  have g := geom_init h2 hbuf
  have := g.stride_pos
  rw [init_rd h2 hbuf l, if_neg, if_pos (by omega)]
  rintro ⟨k, _, e⟩
  omega

theorem disjointRanges_symm {p q : Nat × Nat} (h : disjointRanges p q) : disjointRanges q p :=
  Or.symm h

theorem pairwise_erase {l : List (Nat × Nat)} (hp : l.Pairwise disjointRanges)
    {a p : Nat × Nat} (ha : a ∈ l) (hmem : p ∈ l.erase a) : disjointRanges a p := by
  induction l with
  | nil => simp at ha
  | cons b l ih =>
    rw [List.pairwise_cons] at hp
    by_cases e : b = a
    · subst e
      rw [List.erase_cons_head] at hmem
      exact hp.1 p hmem
    · rw [List.erase_cons_tail (by simpa using e)] at hmem
      have ha' : a ∈ l := by
        rcases List.mem_cons.1 ha with h | h
        · exact absurd h.symm e
        · exact h
      rcases List.mem_cons.1 hmem with h | h
      · rw [h]; exact disjointRanges_symm (hp.1 a ha')
      · exact ih hp.2 ha' h

/-- Every reachable state satisfies the invariant and its bitmap is accounted for by the
outstanding marks. -/
theorem reachable_inv {m : Member} {outs : List (Nat × Nat)} (hr : Reachable m outs) :
    Inv m ∧ OutsOK m outs := by
  induction hr with
  | init mb buf h1 h2 hbuf =>
    have hinv := inv_init h2 hbuf
    refine ⟨hinv, ⟨fun x hx => ?_, List.Pairwise.nil, fun p hp => by simp at hp⟩⟩
    rw [hinv.geom.num_blocks] at hx
    unfold blockUsed
    rw [init_leaf_zero h2 hbuf (by omega), Nat.zero_testBit]
    simp
  | mark_ok m outs n a _ h1 h2 hok ih =>
    obtain ⟨hinv, ho⟩ := ih
    obtain ⟨b1, b2, b3⟩ := mark_blocks hinv n a hok
    have hnb := mark_num_blocks m n a
    refine ⟨inv_mark hinv n a, ⟨fun x hx => ?_, ?_, ?_⟩⟩
    · rw [hnb] at hx
      rw [b3 x hx, Bool.or_eq_true, ho.marked x hx, decide_eq_true_eq]
      constructor
      · rintro (⟨p, hp, hin⟩ | hnew)
        · exact ⟨p, List.mem_cons_of_mem _ hp, hin⟩
        · exact ⟨_, List.mem_cons_self _ _, hnew⟩
      · rintro ⟨p, hp, hin⟩
        rcases List.mem_cons.1 hp with h | h
        · right; rw [h] at hin; exact hin
        · left; exact ⟨p, h, hin⟩
    · rw [List.pairwise_cons]
      refine ⟨fun p hp => ?_, ho.disjoint⟩
      unfold disjointRanges
      by_contra hcon
      push_neg at hcon
      obtain ⟨q1, q2⟩ := hcon
      have hal := ho.aligned p hp
      simp only [classWidth] at q1 q2 hal
      have hp0 := width_pos (CEIL_LOG2_SMALL p.2)
      by_cases hc : (tral_mark m n a).2.2 ≤ p.1
      · have hu := (ho.marked p.1 (by omega)).2 ⟨p, hp, le_refl _, by simp only [classWidth]; omega⟩
        have hf := b1.2.2 (p.1 - (tral_mark m n a).2.2) (by omega)
        rw [show (tral_mark m n a).2.2 + (p.1 - (tral_mark m n a).2.2) = p.1 by omega, hu] at hf
        exact Bool.noConfusion hf
      · have hlt := freeRunAt_lt b1
        have hu := (ho.marked (tral_mark m n a).2.2 hlt).2
          ⟨p, hp, by omega, by simp only [classWidth]; omega⟩
        have hf := b1.2.2 0 (width_pos _)
        rw [Nat.add_zero, hu] at hf
        exact Bool.noConfusion hf
    · intro p hp
      rw [hnb]
      rcases List.mem_cons.1 hp with h | h
      · rw [h]; exact ⟨b1.1, b1.2.1⟩
      · exact ho.aligned p h
  | mark_fail m outs n a _ h1 h2 hok ih =>
    have e : (tral_mark m n a).2.1 = m := by
      rw [tral_mark_eq] at hok ⊢
      by_cases h : rd m.buf (m.num_leaves + u32 (CEIL_LOG2_SMALL n * m.tree_stride)) = 4294967295
      · rw [if_pos h]
      · rw [if_neg h] at hok; exact absurd hok (by simp)
    rw [e]; exact ih
  | clear m outs adr n _ hmem ih =>
    obtain ⟨hinv, ho⟩ := ih
    have hal := ho.aligned _ hmem
    simp only [classWidth] at hal
    have hp0 := width_pos (CEIL_LOG2_SMALL n)
    have hnb : tral_num_blocks (tral_clear m adr n) = tral_num_blocks m := rfl
    have hadr : adr < 32 * m.num_leaves := by
      rw [← hinv.geom.num_blocks]; omega
    have hb := clear_blocks hinv n hal.1 hal.2
    refine ⟨inv_clear hinv n hadr, ⟨fun x hx => ?_, ?_, ?_⟩⟩
    · rw [hnb] at hx
      rw [hb x hx, Bool.and_eq_true, ho.marked x hx]
      simp only [Bool.not_eq_true', decide_eq_false_iff_not]
      constructor
      · rintro ⟨⟨p, hp, hin⟩, hout⟩
        refine ⟨p, (List.mem_erase_of_ne ?_).2 hp, hin⟩
        rintro rfl
        exact hout (by simpa [classWidth] using hin)
      · rintro ⟨p, hp, hin⟩
        refine ⟨⟨p, List.mem_of_mem_erase hp, hin⟩, ?_⟩
        have hd := pairwise_erase ho.disjoint hmem hp
        unfold disjointRanges at hd
        simp only [classWidth] at hd hin
        rintro ⟨q1, q2⟩
        omega
    · exact ho.disjoint.sublist (List.erase_sublist _ _)
    · intro p hp
      rw [hnb]
      exact ho.aligned p (List.mem_of_mem_erase hp)

theorem reachableAny_inv {m : Member} (hr : ReachableAny m) : Inv m := by
  induction hr with
  | init mb buf h1 h2 hbuf => exact inv_init h2 hbuf
  | mark m n a _ h1 h2 ih => exact inv_mark ih n a
  | clear m adr n _ h1 h2 hadr ih =>
    exact inv_clear ih n (by rw [← ih.geom.num_blocks]; exact hadr)

/-! ## Round trip -/

/-- Every word of a tree is a node of some row. -/
theorem node_decomp (t : Nat) : ∀ h x, x < rowStart t h →
    ∃ r j, r < h ∧ j < rowWidth t r ∧ x = rowStart t r + j := by
  intro h
  induction h with
  | zero => intro x hx; simp [rowStart] at hx
  | succ h ih =>
    intro x hx
    by_cases hlt : x < rowStart t h
    · obtain ⟨r, j, h1, h2, h3⟩ := ih x hlt
      exact ⟨r, j, by omega, h2, h3⟩
    · simp only [rowStart] at hx
      exact ⟨h, x - rowStart t h, by omega, by omega, by omega⟩

/-- Two trees that summarise the same leaves hold the same words. -/
theorem treeOK_unique {buf buf' : List Nat} {lv lv' : Nat → Nat} {T t h s : Nat}
    (hl : ∀ l, l < t * 32 ^ (h - 1) → lv' l = lv l)
    (hok : TreeOK buf lv T t h s) (hok' : TreeOK buf' lv' T t h s) :
    ∀ x, x < rowStart t h → rd buf' (T + x) = rd buf (T + x) := by
  intro x hx
  obtain ⟨r, j, h1, h2, rfl⟩ := node_decomp t h x hx
  rw [← Nat.add_assoc]
  obtain ⟨a1, a2⟩ := hok r h1 j h2
  obtain ⟨b1, b2⟩ := hok' r h1 j h2
  apply Nat.eq_of_testBit_eq
  intro b
  by_cases hb : b < 32
  · have e1 := a2 b hb
    have e2 := b2 b hb
    rw [closedAt_congr_lt hl] at e2
    have := e2.trans e1.symm
    cases h1 : (rd buf' (T + rowStart t r + j)).testBit b <;>
      cases h2 : (rd buf (T + rowStart t r + j)).testBit b <;> simp_all
  · rw [testBit_of_lt_word a1 (by omega), testBit_of_lt_word b1 (by omega)]

/-- Setting and then clearing a mask over free bits gives the word back. -/
theorem or_and_not_mask {w k : Nat} (hw : w < 4294967296)
    (hfree : ∀ i, k.testBit i = true → w.testBit i = false) : (w ||| k) &&& not32 k = w := by
  apply Nat.eq_of_testBit_eq
  intro i
  rw [Nat.testBit_and, Nat.testBit_or, testBit_not32]
  by_cases hi : i < 32
  · cases hk : k.testBit i
    · simp [hi]
    · simp [hi, hfree i hk]
  · simp [hi, testBit_of_lt_word (i := i) hw (by omega)]

/-- Two members with the same geometry and the same leaves that both satisfy the invariant,
and agree beyond the trees, are equal. -/
theorem inv_buf_unique {m m' : Member} (hinv : Inv m) (hinv' : Inv m')
    (hL : m'.num_leaves = m.num_leaves) (hS : m'.tree_stride = m.tree_stride)
    (hT : m'.num_top_branches = m.num_top_branches) (hH : m'.tree_height = m.tree_height)
    (hlen : m'.buf.length = m.buf.length)
    (hleaf : ∀ l, l < m.num_leaves → rd m'.buf l = rd m.buf l)
    (hrest : ∀ i, m.num_leaves + 6 * m.tree_stride ≤ i → rd m'.buf i = rd m.buf i) :
    m'.buf = m.buf := by
  have g := hinv.geom
  apply buf_ext hlen
  intro i _
  by_cases h1 : i < m.num_leaves
  · exact hleaf i h1
  by_cases h2 : m.num_leaves + 6 * m.tree_stride ≤ i
  · exact hrest i h2
  have hsp := g.stride_pos
  have hdm := Nat.div_add_mod (i - m.num_leaves) m.tree_stride
  have hml := Nat.mod_lt (i - m.num_leaves) (show 0 < m.tree_stride by omega)
  have hs : (i - m.num_leaves) / m.tree_stride < 6 := by
    apply Nat.div_lt_of_lt_mul
    rw [Nat.mul_comm]; omega
  have hi : i = m.num_leaves + (i - m.num_leaves) / m.tree_stride * m.tree_stride +
      (i - m.num_leaves) % m.tree_stride := by
    rw [Nat.mul_comm]; omega
  have t1 := hinv.trees _ hs
  have t2 := hinv'.trees _ hs
  rw [hL, hS, hT, hH] at t2
  rw [hi]
  refine treeOK_unique (fun l hl => hleaf l (by rw [g.leaves]; exact hl)) t1 t2 _ ?_
  rw [← g.stride]; exact hml

/-- Round trip: `tral_clear` with the address and the `num_blocks` of a successful
`tral_mark` gives the member back, word for word. -/
theorem mark_clear_roundtrip {m : Member} (hinv : Inv m) (n a : Nat)
    (hok : (tral_mark m n a).1 = true) :
    tral_clear (tral_mark m n a).2.1 (tral_mark m n a).2.2 n = m := by
  have g := hinv.geom
  have hs := ceil_log2_lt n
  have hinv1 := inv_mark hinv n a
  obtain ⟨l0, h1, h2, h3, h4, h5⟩ := mark_success hinv n a hok
  obtain ⟨o1, o2, o3, o4⟩ := leafBlocksOffset_spec hs h2
  obtain ⟨c1, c2, c3, _⟩ := markBuf_spec hinv (CEIL_LOG2_SMALL n) h1
  have hadr : (tral_mark m n a).2.2 < 32 * (tral_mark m n a).2.1.num_leaves := by
    rw [(mark_fields m n a).1, h4]; omega
  have hinv2 := inv_clear hinv1 n hadr
  obtain ⟨d1, d2, d3, _⟩ := tral_clear_spec hinv1 n hadr
  obtain ⟨f1, f2, f3, f4, f5⟩ := tral_clear_fields (tral_mark m n a).2.1 (tral_mark m n a).2.2 n
  obtain ⟨k1, k2, k3, k4, k5⟩ := mark_fields m n a
  rw [k1] at f1; rw [k2] at f2; rw [k3] at f3; rw [k4] at f4; rw [k5] at f5
  rw [k1, k2] at d3
  have e1 : (tral_mark m n a).2.2 / 32 = l0 := by rw [h4]; omega
  have e2 : (tral_mark m n a).2.2 % 32 = leafBlocksOffset (rd m.buf l0) (CEIL_LOG2_SMALL n) := by
    rw [h4]; omega
  rw [e1] at d2 d3
  rw [e2] at d2
  have hb1 : (tral_mark m n a).2.1.buf = markBuf m (CEIL_LOG2_SMALL n) l0 := by rw [h5]
  rw [hb1] at d1 d2 d3
  have hfit := align_fits hs o1 o2
  have hbuf : (tral_clear (tral_mark m n a).2.1 (tral_mark m n a).2.2 n).buf = m.buf := by
    apply inv_buf_unique hinv hinv2 f1 f2 f4 f5 (by rw [d1, c1])
    · intro l hl
      by_cases e : l = l0
      · rw [e, d2, c2]
        apply or_and_not_mask (hinv.words l0 h1)
        intro i hi
        rw [testBit_leafBlocksMask hs] at hi
        simp only [decide_eq_true_eq] at hi
        have := o3 (i - leafBlocksOffset (rd m.buf l0) (CEIL_LOG2_SMALL n)) (by omega)
        rwa [show leafBlocksOffset (rd m.buf l0) (CEIL_LOG2_SMALL n) +
          (i - leafBlocksOffset (rd m.buf l0) (CEIL_LOG2_SMALL n)) = i by omega] at this
      · rw [d3 l e (Or.inl hl), c3 l e (Or.inl hl)]
    · intro i hi
      have hne : i ≠ l0 := by omega
      rw [d3 i hne (Or.inr hi), c3 i hne (Or.inr hi)]
  cases m with
  | mk b nl ts ro nt th =>
    cases hm : tral_clear (tral_mark ⟨b, nl, ts, ro, nt, th⟩ n a).2.1
        (tral_mark ⟨b, nl, ts, ro, nt, th⟩ n a).2.2 n with
    | mk b' nl' ts' ro' nt' th' =>
      rw [hm] at hbuf f1 f2 f3 f4 f5
      simp only at hbuf f1 f2 f3 f4 f5
      subst hbuf f1 f2 f3 f4 f5
      rfl

/-! ## The claims -/

/-- The macro `CEIL_LOG2_SMALL` is the ceiling of the binary logarithm on `1..32`. -/
theorem ceil_log2_spec (n : Nat) (h1 : 1 ≤ n) (h2 : n ≤ 32) :
    n ≤ 2 ^ CEIL_LOG2_SMALL n ∧ (CEIL_LOG2_SMALL n = 0 ∨ 2 ^ (CEIL_LOG2_SMALL n - 1) < n) := by
  interval_cases n <;> decide

theorem freeRunAt_iff_lt {m : Member} (g : Geom m) {s : Nat} (hs : s < 6) (a : Nat) :
    freeRunAt m s a ↔
      a < tral_num_blocks m ∧ a % 2 ^ s = 0 ∧ ∀ i, i < 2 ^ s → blockUsed m (a + i) = false := by
  constructor
  · intro h; exact ⟨freeRunAt_lt h, h.1, h.2.2⟩
  · rintro ⟨h1, h2, h3⟩
    refine ⟨h2, ?_, h3⟩
    rw [g.num_blocks] at h1 ⊢
    have := align_fits hs (Nat.mod_lt a (by norm_num)) ((align_mod32 hs a).1 h2)
    omega

/-- Claim C1. Tree consistency is an invariant: in every state reachable from
`tral_init_member` by `tral_mark` and valid `tral_clear` calls, for every tree `s`, every
node `j` of every row `r` and every bit `b` of it, the bit is set iff the subtree below
child `b` contains no free run of `2^s` blocks starting at a multiple of `2^s` (a child that
does not exist contains none). -/
theorem C1_tree_consistency (m : Member) (outs : List (Nat × Nat)) (hr : Reachable m outs)
    (s r j b : Nat) (hs : s < 6) (hrow : r < m.tree_height)
    (hj : j < rowWidth m.num_top_branches r) (hb : b < 32) :
    (rd m.buf (m.num_leaves + s * m.tree_stride + rd m.row_offsets r + j)).testBit b = true ↔
      ¬ subtreeHasFreeRun m s r (32 * j + b) := by
  obtain ⟨hinv, _⟩ := reachable_inv hr
  rw [hinv.geom.offs r hrow, ← closedAt_iff_blocks hinv.geom hs]
  exact (hinv.trees s hs r hrow j hj).2 b hb

/-- Witness of C1: the sentinel bit 2 of the top node of tree 0 after `tral_init_member 64`. -/
theorem C1_tree_consistency_witness :
    (rd (tral_init_member 64 (rawBuf 8)).buf
        ((tral_init_member 64 (rawBuf 8)).num_leaves + 0 * (tral_init_member 64 (rawBuf 8)).tree_stride +
          rd (tral_init_member 64 (rawBuf 8)).row_offsets 0 + 0)).testBit 2 = true ↔
      ¬ subtreeHasFreeRun (tral_init_member 64 (rawBuf 8)) 0 0 (32 * 0 + 2) :=
  C1_tree_consistency (tral_init_member 64 (rawBuf 8)) []
    (Reachable.init 64 (rawBuf 8) (by decide) (by decide) (by decide)) 0 0 0 2
    (by decide) (by decide) (by decide) (by decide)

/-- Claim C2. Non-overlap: when `tral_mark` succeeds in a reachable state, the `2^s` blocks
from the returned address on were free before the call and are in use after it, every other
block of the bitmap is unchanged, and the returned range is disjoint from the range of
every outstanding mark. -/
theorem C2_mark_non_overlap (m : Member) (outs : List (Nat × Nat)) (hr : Reachable m outs)
    (n a : Nat) (h1 : 1 ≤ n) (h2 : n ≤ 32) (hok : (tral_mark m n a).1 = true) :
    (∀ i, i < 2 ^ CEIL_LOG2_SMALL n → blockUsed m ((tral_mark m n a).2.2 + i) = false) ∧
    (∀ i, i < 2 ^ CEIL_LOG2_SMALL n →
      blockUsed (tral_mark m n a).2.1 ((tral_mark m n a).2.2 + i) = true) ∧
    (∀ x, x < tral_num_blocks m →
      ¬ ((tral_mark m n a).2.2 ≤ x ∧ x < (tral_mark m n a).2.2 + 2 ^ CEIL_LOG2_SMALL n) →
      blockUsed (tral_mark m n a).2.1 x = blockUsed m x) ∧
    (∀ p, p ∈ outs → disjointRanges ((tral_mark m n a).2.2, n) p) := by
  obtain ⟨hinv, _⟩ := reachable_inv hr
  obtain ⟨b1, _, b3⟩ := mark_blocks hinv n a hok
  obtain ⟨_, ho'⟩ := reachable_inv (Reachable.mark_ok m outs n a hr h1 h2 hok)
  refine ⟨b1.2.2, fun i hi => ?_, fun x hx hout => ?_, ?_⟩
  · rw [b3 _ (by have := b1.2.1; omega)]
    simp [hi]
  · rw [b3 x hx]
    simp [hout]
  · exact (List.pairwise_cons.1 ho'.disjoint).1

/-- Witness of C2: the first `tral_mark` of 3 blocks after `tral_init_member 64`. -/
theorem C2_mark_non_overlap_witness :
    (∀ i, i < 2 ^ CEIL_LOG2_SMALL 3 →
      blockUsed (tral_init_member 64 (rawBuf 8))
        ((tral_mark (tral_init_member 64 (rawBuf 8)) 3 0).2.2 + i) = false) ∧
    (∀ i, i < 2 ^ CEIL_LOG2_SMALL 3 →
      blockUsed (tral_mark (tral_init_member 64 (rawBuf 8)) 3 0).2.1
        ((tral_mark (tral_init_member 64 (rawBuf 8)) 3 0).2.2 + i) = true) ∧
    (∀ x, x < tral_num_blocks (tral_init_member 64 (rawBuf 8)) →
      ¬ ((tral_mark (tral_init_member 64 (rawBuf 8)) 3 0).2.2 ≤ x ∧
        x < (tral_mark (tral_init_member 64 (rawBuf 8)) 3 0).2.2 + 2 ^ CEIL_LOG2_SMALL 3) →
      blockUsed (tral_mark (tral_init_member 64 (rawBuf 8)) 3 0).2.1 x =
        blockUsed (tral_init_member 64 (rawBuf 8)) x) ∧
    (∀ p, p ∈ ([] : List (Nat × Nat)) →
      disjointRanges ((tral_mark (tral_init_member 64 (rawBuf 8)) 3 0).2.2, 3) p) :=
  C2_mark_non_overlap (tral_init_member 64 (rawBuf 8)) []
    (Reachable.init 64 (rawBuf 8) (by decide) (by decide) (by decide)) 3 0
    (by decide) (by decide) (by decide)

/-- Claim C3. Alignment and range: a successful `tral_mark` in a reachable state returns a
multiple of `2^s` whose whole run lies inside the allocator.  Scenario: after init with
`min_blocks = 128`, `mark(3)` returns 0, the next `mark(3)` returns 4, then `mark(1)`
returns 8. -/
theorem C3_mark_aligned_in_range (m : Member) (outs : List (Nat × Nat))
    (hr : Reachable m outs) (n a : Nat) (_h1 : 1 ≤ n) (_h2 : n ≤ 32)
    (hok : (tral_mark m n a).1 = true) :
    ((tral_mark m n a).2.2 % 2 ^ CEIL_LOG2_SMALL n = 0 ∧
      (tral_mark m n a).2.2 + 2 ^ CEIL_LOG2_SMALL n ≤ tral_num_blocks m ∧
      (tral_mark m n a).2.2 < tral_num_blocks m) ∧
    (markAll (tral_init_member 128 (rawBuf 10)) [3, 3, 1]).2 =
      [(true, 0), (true, 4), (true, 8)] := by
  obtain ⟨hinv, _⟩ := reachable_inv hr
  obtain ⟨b1, _, _⟩ := mark_blocks hinv n a hok
  exact ⟨⟨b1.1, b1.2.1, freeRunAt_lt b1⟩, by decide⟩

/-- Witness of C3: the second `tral_mark` of 3 blocks after `tral_init_member 128`. -/
theorem C3_mark_aligned_in_range_witness :
    ((tral_mark (markAll (tral_init_member 128 (rawBuf 10)) [3]).1 3 0).2.2 %
        2 ^ CEIL_LOG2_SMALL 3 = 0 ∧
      (tral_mark (markAll (tral_init_member 128 (rawBuf 10)) [3]).1 3 0).2.2 +
        2 ^ CEIL_LOG2_SMALL 3 ≤ tral_num_blocks (markAll (tral_init_member 128 (rawBuf 10)) [3]).1 ∧
      (tral_mark (markAll (tral_init_member 128 (rawBuf 10)) [3]).1 3 0).2.2 <
        tral_num_blocks (markAll (tral_init_member 128 (rawBuf 10)) [3]).1) ∧
    (markAll (tral_init_member 128 (rawBuf 10)) [3, 3, 1]).2 =
      [(true, 0), (true, 4), (true, 8)] :=
  C3_mark_aligned_in_range (markAll (tral_init_member 128 (rawBuf 10)) [3]).1 [(0, 3)]
    (Reachable.mark_ok (tral_init_member 128 (rawBuf 10)) [] 3 0
      (Reachable.init 128 (rawBuf 10) (by decide) (by decide) (by decide))
      (by decide) (by decide) (by decide)) 3 0 (by decide) (by decide) (by decide)

/-- Claim C4. Exhaustion is exact: in a reachable state `tral_mark` fails iff no address
below `tral_num_blocks` is a multiple of `2^s` with the `2^s` blocks from it on all free.
Scenario: init with `min_blocks = 64`, `mark(1)` gives 0, `mark(1)` gives 1, `mark(32)`
gives 32, thirty more `mark(1)` give 2..31, then `mark(1)` fails. -/
theorem C4_mark_fails_iff_exhausted (m : Member) (outs : List (Nat × Nat))
    (hr : Reachable m outs) (n a : Nat) (_h1 : 1 ≤ n) (_h2 : n ≤ 32) :
    ((tral_mark m n a).1 = false ↔
      ¬ ∃ x, x < tral_num_blocks m ∧ x % 2 ^ CEIL_LOG2_SMALL n = 0 ∧
        ∀ i, i < 2 ^ CEIL_LOG2_SMALL n → blockUsed m (x + i) = false) ∧
    (markAll (tral_init_member 64 (rawBuf 8)) ([1, 1, 32] ++ List.replicate 30 1 ++ [1])).2 =
      [(true, 0), (true, 1), (true, 32)] ++ (List.range' 2 30).map (fun i => (true, i)) ++
        [(false, 0)] := by
  obtain ⟨hinv, _⟩ := reachable_inv hr
  have hs := ceil_log2_lt n
  refine ⟨?_, by decide⟩
  rw [mark_fail_iff hinv n a, no_leafFree_iff hinv.geom hs]
  constructor
  · rintro h ⟨x, h1, h2, h3⟩
    exact h ⟨x, h1, (freeRunAt_iff_lt hinv.geom hs x).2 ⟨h1, h2, h3⟩⟩
  · rintro h ⟨x, h1, hf⟩
    exact h ⟨x, h1, hf.1, hf.2.2⟩

/-- Witness of C4: a request of one block on a member filled by two requests of 32 blocks. -/
theorem C4_mark_fails_iff_exhausted_witness :
    ((tral_mark (markAll (tral_init_member 64 (rawBuf 8)) [32]).1 1 0).1 = false ↔
      ¬ ∃ x, x < tral_num_blocks (markAll (tral_init_member 64 (rawBuf 8)) [32]).1 ∧
        x % 2 ^ CEIL_LOG2_SMALL 1 = 0 ∧
        ∀ i, i < 2 ^ CEIL_LOG2_SMALL 1 →
          blockUsed (markAll (tral_init_member 64 (rawBuf 8)) [32]).1 (x + i) = false) ∧
    (markAll (tral_init_member 64 (rawBuf 8)) ([1, 1, 32] ++ List.replicate 30 1 ++ [1])).2 =
      [(true, 0), (true, 1), (true, 32)] ++ (List.range' 2 30).map (fun i => (true, i)) ++
        [(false, 0)] :=
  C4_mark_fails_iff_exhausted (markAll (tral_init_member 64 (rawBuf 8)) [32]).1 [(0, 32)]
    (Reachable.mark_ok (tral_init_member 64 (rawBuf 8)) [] 32 0
      (Reachable.init 64 (rawBuf 8) (by decide) (by decide) (by decide))
      (by decide) (by decide) (by decide)) 1 0 (by decide) (by decide)

/-- Claim C5. Round trip: if `tral_mark` succeeds in a reachable state, `tral_clear` with
the returned address and the same `num_blocks` yields the state before the mark, leaf bitmap
and trees word for word.  Scenarios: init 1024, `mark(5)` returns a class-3 slot and
`clear(addr, 5)` restores the member; init 64, `mark(32)`, `mark(32)`, `clear(0, 32)`, then
`mark(1)` returns 0. -/
theorem C5_mark_clear_round_trip (m : Member) (outs : List (Nat × Nat))
    (hr : Reachable m outs) (n a : Nat) (_h1 : 1 ≤ n) (_h2 : n ≤ 32)
    (hok : (tral_mark m n a).1 = true) :
    tral_clear (tral_mark m n a).2.1 (tral_mark m n a).2.2 n = m ∧
    ((tral_mark (tral_init_member 1024 (rawBuf 38)) 5 0).1 = true ∧
      (tral_mark (tral_init_member 1024 (rawBuf 38)) 5 0).2.2 % 8 = 0 ∧
      (∀ i, i < 8 → blockUsed (tral_mark (tral_init_member 1024 (rawBuf 38)) 5 0).2.1
        ((tral_mark (tral_init_member 1024 (rawBuf 38)) 5 0).2.2 + i) = true) ∧
      tral_clear (tral_mark (tral_init_member 1024 (rawBuf 38)) 5 0).2.1
        (tral_mark (tral_init_member 1024 (rawBuf 38)) 5 0).2.2 5 =
        tral_init_member 1024 (rawBuf 38)) ∧
    ((markAll (tral_init_member 64 (rawBuf 8)) [32, 32]).2 = [(true, 0), (true, 32)] ∧
      (markAll (tral_clear (markAll (tral_init_member 64 (rawBuf 8)) [32, 32]).1 0 32) [1]).2 =
        [(true, 0)]) := by
  obtain ⟨hinv, _⟩ := reachable_inv hr
  exact ⟨mark_clear_roundtrip hinv n a hok, by decide, by decide⟩

/-- Witness of C5: a request of 5 blocks after `tral_init_member 1024`. -/
theorem C5_mark_clear_round_trip_witness :
    tral_clear (tral_mark (tral_init_member 1024 (rawBuf 38)) 5 0).2.1
        (tral_mark (tral_init_member 1024 (rawBuf 38)) 5 0).2.2 5 =
      tral_init_member 1024 (rawBuf 38) :=
  (C5_mark_clear_round_trip (tral_init_member 1024 (rawBuf 38)) []
    (Reachable.init 1024 (rawBuf 38) (by decide) (by decide) (by decide)) 5 0
    (by decide) (by decide) (by decide)).1

/-- Claim C6. Lowest slot: a successful `tral_mark` in a reachable state returns the smallest
address that is a multiple of `2^s` with the `2^s` blocks from it on all free, and the
outcome depends on the member and `num_blocks` only, not on what the output cell held. -/
theorem C6_mark_lowest_slot (m : Member) (outs : List (Nat × Nat))
    (hr : Reachable m outs) (n a : Nat) (_h1 : 1 ≤ n) (_h2 : n ≤ 32)
    (hok : (tral_mark m n a).1 = true) :
    ((tral_mark m n a).2.2 % 2 ^ CEIL_LOG2_SMALL n = 0 ∧
      ∀ i, i < 2 ^ CEIL_LOG2_SMALL n → blockUsed m ((tral_mark m n a).2.2 + i) = false) ∧
    (∀ x, x < (tral_mark m n a).2.2 → x % 2 ^ CEIL_LOG2_SMALL n = 0 →
      ∃ i, i < 2 ^ CEIL_LOG2_SMALL n ∧ blockUsed m (x + i) = true) ∧
    (∀ a', tral_mark m n a' = (true, (tral_mark m n a).2.1, (tral_mark m n a).2.2)) := by
  obtain ⟨hinv, _⟩ := reachable_inv hr
  have hs := ceil_log2_lt n
  obtain ⟨b1, b2, _⟩ := mark_blocks hinv n a hok
  refine ⟨⟨b1.1, b1.2.2⟩, fun x hx hal => ?_, fun a' => ?_⟩
  · have hnf := b2 x hx
    rw [freeRunAt_iff_lt hinv.geom hs] at hnf
    have hlt : x < tral_num_blocks m := lt_trans hx (freeRunAt_lt b1)
    by_contra hcon
    push_neg at hcon
    exact hnf ⟨hlt, hal, fun i hi => by simpa using hcon i hi⟩
  · by_cases h : rd m.buf (m.num_leaves + u32 (CEIL_LOG2_SMALL n * m.tree_stride)) = 4294967295
    · rw [tral_mark_eq, if_pos h] at hok; exact absurd hok (by simp)
    · simp only [tral_mark_eq, if_neg h]

/-- Witness of C6: a request of one block after two blocks have been marked. -/
theorem C6_mark_lowest_slot_witness :
    ((tral_mark (markAll (tral_init_member 64 (rawBuf 8)) [2]).1 1 0).2.2 %
        2 ^ CEIL_LOG2_SMALL 1 = 0 ∧
      ∀ i, i < 2 ^ CEIL_LOG2_SMALL 1 →
        blockUsed (markAll (tral_init_member 64 (rawBuf 8)) [2]).1
          ((tral_mark (markAll (tral_init_member 64 (rawBuf 8)) [2]).1 1 0).2.2 + i) = false) ∧
    (∀ x, x < (tral_mark (markAll (tral_init_member 64 (rawBuf 8)) [2]).1 1 0).2.2 →
      x % 2 ^ CEIL_LOG2_SMALL 1 = 0 →
      ∃ i, i < 2 ^ CEIL_LOG2_SMALL 1 ∧
        blockUsed (markAll (tral_init_member 64 (rawBuf 8)) [2]).1 (x + i) = true) ∧
    (∀ a', tral_mark (markAll (tral_init_member 64 (rawBuf 8)) [2]).1 1 a' =
      (true, (tral_mark (markAll (tral_init_member 64 (rawBuf 8)) [2]).1 1 0).2.1,
        (tral_mark (markAll (tral_init_member 64 (rawBuf 8)) [2]).1 1 0).2.2)) :=
  C6_mark_lowest_slot (markAll (tral_init_member 64 (rawBuf 8)) [2]).1 [(0, 2)]
    (Reachable.mark_ok (tral_init_member 64 (rawBuf 8)) [] 2 0
      (Reachable.init 64 (rawBuf 8) (by decide) (by decide) (by decide))
      (by decide) (by decide) (by decide)) 1 0 (by decide) (by decide) (by decide)

/-- Claim C7. Sentinels are an invariant: after `tral_init_member` and any sequence of
`tral_mark` calls and of `tral_clear` calls with an address below `tral_num_blocks`, the bits
`t..31` of the top node of each of the six trees are set, `t` the top-branch count. -/
theorem C7_sentinels_invariant (m : Member) (hr : ReachableAny m) (s b : Nat) (hs : s < 6)
    (hb1 : m.num_top_branches ≤ b) (hb2 : b < 32) :
    (rd m.buf (m.num_leaves + s * m.tree_stride)).testBit b = true := by
  have hinv := reachableAny_inv hr
  have g := hinv.geom
  have hrow := hinv.trees s hs 0 (by have := g.h_pos; omega) 0 (by simp [rowWidth])
  simp only [rowStart, Nat.add_zero, Nat.sub_zero, Nat.mul_zero, Nat.zero_add] at hrow
  apply (hrow.2 b hb2).2
  intro l hl hc
  have : l / 32 ^ (m.tree_height - 1) < m.num_top_branches :=
    Nat.div_lt_of_lt_mul (by rw [Nat.mul_comm]; exact hl)
  omega

/-- Witness of C7: bit 2 of the top node of tree 2 after a clear that matches no mark. -/
theorem C7_sentinels_invariant_witness :
    (rd (tral_clear (tral_init_member 64 (rawBuf 8)) 37 3).buf
      ((tral_clear (tral_init_member 64 (rawBuf 8)) 37 3).num_leaves +
        2 * (tral_clear (tral_init_member 64 (rawBuf 8)) 37 3).tree_stride)).testBit 2 = true :=
  C7_sentinels_invariant (tral_clear (tral_init_member 64 (rawBuf 8)) 37 3)
    (ReachableAny.clear (tral_init_member 64 (rawBuf 8)) 37 3
      (ReachableAny.init 64 (rawBuf 8) (by decide) (by decide) (by decide))
      (by decide) (by decide) (by decide)) 2 2 (by decide) (by decide) (by decide)

/-- Claim C8. Capacity: for every `min_blocks` in `1..2^32`, the boundary `2^32` included,
`tral_num_blocks` after `tral_init_member` equals `32 * num_leaves` and is at least
`min_blocks`. -/
theorem C8_capacity (min_blocks : Nat) (buf : List Nat) (_h1 : 1 ≤ min_blocks)
    (h2 : min_blocks ≤ 4294967296) :
    tral_num_blocks (tral_init_member min_blocks buf) =
      32 * (tral_init_member min_blocks buf).num_leaves ∧
    min_blocks ≤ tral_num_blocks (tral_init_member min_blocks buf) := by
  obtain ⟨c1, c2, c3⟩ := checkMinBlocks_bounds h2
  obtain ⟨a1, a2, a3, a4, a5, a6⟩ := height_branches c1 c2
  obtain ⟨_, _, g3, g4, _⟩ := loops_geometry a3 a4 a1 a2 a5
  obtain ⟨_, _, f3, _, _⟩ := init_fields min_blocks buf
  have eL : (tral_init_member min_blocks buf).num_leaves =
      numTopNodeBranches (checkMinBlocks min_blocks) *
        32 ^ (treeHeight (checkMinBlocks min_blocks) - 1) := by
    rw [f3]; unfold numLeaves; exact g3
  have enb : tral_num_blocks (tral_init_member min_blocks buf) =
      32 * (tral_init_member min_blocks buf).num_leaves := by
    unfold tral_num_blocks
    rw [eL]
    simp only [NUM_BRANCHES_LOG2, Nat.shiftLeft_eq]
    omega
  refine ⟨enb, ?_⟩
  rw [enb, eL]
  have hpow : 32 ^ treeHeight (checkMinBlocks min_blocks) =
      32 ^ (treeHeight (checkMinBlocks min_blocks) - 1) * 32 := by
    rw [← pow_succ]; congr 1; omega
  rw [hpow, ← Nat.mul_assoc] at a6
  omega

/-- Witness of C8: the boundary value `min_blocks = 2^32`. -/
theorem C8_capacity_witness :
    tral_num_blocks (tral_init_member 4294967296 []) =
      32 * (tral_init_member 4294967296 []).num_leaves ∧
    4294967296 ≤ tral_num_blocks (tral_init_member 4294967296 []) :=
  C8_capacity 4294967296 [] (by decide) (by decide)

/-- Claim C9. Atomic failure: whenever `tral_mark` returns false, the member (leaf bitmap,
trees and geometry fields) is the one before the call and the output cell holds what it held
before. -/
theorem C9_mark_failure_atomic (m : Member) (n a : Nat) (_h1 : 1 ≤ n) (_h2 : n ≤ 32)
    (hfail : (tral_mark m n a).1 = false) : tral_mark m n a = (false, m, a) := by
  rw [tral_mark_eq] at hfail ⊢
  by_cases h : rd m.buf (m.num_leaves + u32 (CEIL_LOG2_SMALL n * m.tree_stride)) = 4294967295
  · rw [if_pos h]
  · rw [if_neg h] at hfail; exact absurd hfail (by simp)

/-- Witness of C9: a request of one block on a member filled by two requests of 32 blocks. -/
theorem C9_mark_failure_atomic_witness :
    tral_mark (markAll (tral_init_member 64 (rawBuf 8)) [32, 32]).1 1 7 =
      (false, (markAll (tral_init_member 64 (rawBuf 8)) [32, 32]).1, 7) :=
  C9_mark_failure_atomic (markAll (tral_init_member 64 (rawBuf 8)) [32, 32]).1 1 7
    (by decide) (by decide) (by decide)

/-- Counterexample to C10 as stated: after `tral_init_member 64` and `tral_mark` of 3 blocks,
which returns address 0, block 3 is in use although it lies outside `[0, 0 + 3)`. -/
theorem C10_counterexample :
    Reachable (tral_mark (tral_init_member 64 (rawBuf 8)) 3 0).2.1 [(0, 3)] ∧
    3 < tral_num_blocks (tral_mark (tral_init_member 64 (rawBuf 8)) 3 0).2.1 ∧
    blockUsed (tral_mark (tral_init_member 64 (rawBuf 8)) 3 0).2.1 3 = true ∧
    ¬ ∃ p, p ∈ [((0 : Nat), (3 : Nat))] ∧ p.1 ≤ 3 ∧ 3 < p.1 + p.2 := by
  refine ⟨?_, by decide, by decide, by decide⟩
  exact Reachable.mark_ok (tral_init_member 64 (rawBuf 8)) [] 3 0
    (Reachable.init 64 (rawBuf 8) (by decide) (by decide) (by decide))
    (by decide) (by decide) (by decide)

/-- Claim C10, amended. In every reachable state the blocks in use are exactly the blocks of
the ranges `[addr, addr + 2^ceil(log2 n))` of the outstanding marks, each range as wide as
the size class of its request, and these ranges are pairwise disjoint. -/
theorem C10_marked_blocks_are_class_ranges (m : Member) (outs : List (Nat × Nat))
    (hr : Reachable m outs) :
    (∀ x, x < tral_num_blocks m →
      (blockUsed m x = true ↔ ∃ p, p ∈ outs ∧ p.1 ≤ x ∧ x < p.1 + classWidth p.2)) ∧
    outs.Pairwise disjointRanges := by
  obtain ⟨_, ho⟩ := reachable_inv hr
  exact ⟨ho.marked, ho.disjoint⟩

/-- Witness of C10, amended: the state after `tral_init_member 64` and a mark of 3 blocks. -/
theorem C10_marked_blocks_are_class_ranges_witness :
    (∀ x, x < tral_num_blocks (tral_mark (tral_init_member 64 (rawBuf 8)) 3 0).2.1 →
      (blockUsed (tral_mark (tral_init_member 64 (rawBuf 8)) 3 0).2.1 x = true ↔
        ∃ p, p ∈ [((0 : Nat), (3 : Nat))] ∧ p.1 ≤ x ∧ x < p.1 + classWidth p.2)) ∧
    [((0 : Nat), (3 : Nat))].Pairwise disjointRanges :=
  C10_marked_blocks_are_class_ranges (tral_mark (tral_init_member 64 (rawBuf 8)) 3 0).2.1
    [(0, 3)]
    (Reachable.mark_ok (tral_init_member 64 (rawBuf 8)) [] 3 0
      (Reachable.init 64 (rawBuf 8) (by decide) (by decide) (by decide))
      (by decide) (by decide) (by decide))

/-- Claim C16. The function `leafHasSpaceEnd` is exact: on every 32-bit leaf word `w` its
result `k` is at most 6, and for every size class `s` in `0..5`, `s < k` iff `w` has `2^s`
consecutive clear bits starting at a multiple of `2^s`; availability is monotone, `k = 6`
iff `w = 0` and `k = 0` iff `w = 0xFFFFFFFF`. -/
theorem C16_leafHasSpaceEnd_exact (w : Nat) (hw : w < 4294967296) :
    leafHasSpaceEnd w ≤ 6 ∧
    (∀ s, s < 6 → (s < leafHasSpaceEnd w ↔ leafFree w s)) ∧
    (∀ s, s < 5 → leafFree w (s + 1) → leafFree w s) ∧
    (leafHasSpaceEnd w = 6 ↔ w = 0) ∧
    (leafHasSpaceEnd w = 0 ↔ w = 4294967295) := by
  have hle := leafHasSpaceEnd_le w
  have h5 := leafHasSpaceEnd_spec hw (show 5 < 6 by norm_num)
  have h0 := leafHasSpaceEnd_spec hw (show 0 < 6 by norm_num)
  refine ⟨hle, fun s hs => leafHasSpaceEnd_spec hw hs, fun s _ hf => leafFree_pred hf, ?_, ?_⟩
  · rw [← leafFree_five_iff hw, ← h5]
    omega
  · rw [eq_ones_iff hw]
    constructor
    · intro hk b hb
      by_contra hc
      have hf : leafFree w 0 :=
        ⟨b, hb, Nat.mod_one b, (runFree_zero w b).2 (by simpa using hc)⟩
      have := h0.2 hf
      omega
    · intro hall
      by_contra hk
      obtain ⟨o, ho, _, hr⟩ := h0.1 (by omega)
      have := (runFree_zero w o).1 hr
      rw [hall o ho] at this
      exact Bool.noConfusion this

/-- Witness of C16: the leaf word `0x0000FF0F`. -/
theorem C16_leafHasSpaceEnd_exact_witness :
    leafHasSpaceEnd 65295 ≤ 6 ∧
    (∀ s, s < 6 → (s < leafHasSpaceEnd 65295 ↔ leafFree 65295 s)) ∧
    (∀ s, s < 5 → leafFree 65295 (s + 1) → leafFree 65295 s) ∧
    (leafHasSpaceEnd 65295 = 6 ↔ 65295 = 0) ∧
    (leafHasSpaceEnd 65295 = 0 ↔ 65295 = 4294967295) :=
  C16_leafHasSpaceEnd_exact 65295 (by decide)

/-- Claim C17. The function `leafBlocksOffset` finds the lowest aligned slot: for a 32-bit
word `w` and a class `s` in `0..5` such that `w` has `2^s` consecutive clear bits starting at
a multiple of `2^s`, the result is the smallest offset below 32 that is a multiple of `2^s`
with the bits `o .. o+2^s-1` of `w` all clear; for `s = 0` it is the index of the lowest
clear bit, computed as `countTrailingZeros (~w)`. -/
theorem C17_leafBlocksOffset_lowest (w s : Nat) (_hw : w < 4294967296) (hs : s < 6)
    (hfree : leafFree w s) :
    leafBlocksOffset w s < 32 ∧ leafBlocksOffset w s % 2 ^ s = 0 ∧
    runFree w s (leafBlocksOffset w s) ∧
    (∀ o, o < leafBlocksOffset w s → o % 2 ^ s = 0 → ¬ runFree w s o) ∧
    leafBlocksOffset w 0 = countTrailingZeros (not32 w) ∧
    (s = 0 → w.testBit (leafBlocksOffset w s) = false ∧
      ∀ i, i < leafBlocksOffset w s → w.testBit i = true) := by
  obtain ⟨h1, h2, h3, h4⟩ := leafBlocksOffset_spec hs hfree
  refine ⟨h1, h2, h3, h4, rfl, ?_⟩
  rintro rfl
  refine ⟨(runFree_zero w _).1 h3, fun i hi => ?_⟩
  have := h4 i hi (Nat.mod_one i)
  rw [runFree_zero] at this
  simpa using this

/-- Witness of C17: class 2 in the leaf word `0x0000FF0F`, lowest free aligned offset 4. -/
theorem C17_leafBlocksOffset_lowest_witness :
    leafBlocksOffset 65295 2 < 32 ∧ leafBlocksOffset 65295 2 % 2 ^ 2 = 0 ∧
    runFree 65295 2 (leafBlocksOffset 65295 2) ∧
    (∀ o, o < leafBlocksOffset 65295 2 → o % 2 ^ 2 = 0 → ¬ runFree 65295 2 o) ∧
    leafBlocksOffset 65295 0 = countTrailingZeros (not32 65295) ∧
    (2 = 0 → Nat.testBit 65295 (leafBlocksOffset 65295 2) = false ∧
      ∀ i, i < leafBlocksOffset 65295 2 → Nat.testBit 65295 i = true) :=
  C17_leafBlocksOffset_lowest 65295 2 (by decide) (by decide) (by decide)

/-- Claim C18. The function `leafBlocksMask` equals the width mask: for `s` in `0..4` and an
offset `o` below 32 that is a multiple of `2^s`, `leafBlocksMask s o` is
`((1 << 2^s) - 1) << o` as a 32-bit word, exactly the bits `o .. o+2^s-1`; and
`leafBlocksMask 5 0 = 0xFFFFFFFF`. -/
theorem C18_leafBlocksMask_width_mask (s o : Nat) (hs : s < 5) (ho : o < 32)
    (ha : o % 2 ^ s = 0) :
    leafBlocksMask s o = u32 (((1 <<< 2 ^ s) - 1) <<< o) ∧
    (∀ i, (leafBlocksMask s o).testBit i = true ↔ o ≤ i ∧ i < o + 2 ^ s) ∧
    leafBlocksMask 5 0 = 4294967295 := by
  have hfit := align_fits (show s < 6 by omega) ho ha
  refine ⟨?_, fun i => ?_, by decide⟩
  · interval_cases s <;> rfl
  · rw [testBit_leafBlocksMask (show s < 6 by omega), decide_eq_true_eq]
    constructor
    · rintro ⟨_, h1, h2⟩; exact ⟨h1, h2⟩
    · rintro ⟨h1, h2⟩; exact ⟨by omega, h1, h2⟩

/-- Witness of C18: class 3 at offset 8, the mask `0x0000FF00`. -/
theorem C18_leafBlocksMask_width_mask_witness :
    leafBlocksMask 3 8 = u32 (((1 <<< 2 ^ 3) - 1) <<< 8) ∧
    (∀ i, (leafBlocksMask 3 8).testBit i = true ↔ 8 ≤ i ∧ i < 8 + 2 ^ 3) ∧
    leafBlocksMask 5 0 = 4294967295 :=
  C18_leafBlocksMask_width_mask 3 8 (by decide) (by decide) (by decide)

theorem checkMinBlocks_eq_max (mb : Nat) : checkMinBlocks mb = max mb 64 := by
  unfold checkMinBlocks
  simp only [show NUM_BRANCHES * 2 = 64 from rfl]
  split_ifs <;> omega

/-- Height and top-branch count against their definition, for a clamped request. -/
theorem geometry_def {mb : Nat} (h1 : 64 ≤ mb) (h2 : mb ≤ 4294967296) :
    mb ≤ 32 ^ treeHeight mb * 32 ∧ (∀ h', h' < treeHeight mb → 32 ^ h' * 32 < mb) ∧
    numTopNodeBranches mb = (mb + 32 ^ treeHeight mb - 1) / 32 ^ treeHeight mb := by
  have hh := treeHeight_eq mb
  unfold numTopNodeBranches
  simp only [NUM_BRANCHES_LOG2]
  unfold b2n at hh ⊢
  by_cases c1 : mb > 1024
  swap
  · have e : treeHeight mb = 1 := by rw [hh]; split_ifs <;> omega
    rw [e]; clear hh e
    refine ⟨by norm_num; omega, fun h' hh' => by interval_cases h'; norm_num; omega, ?_⟩
    simp only [Nat.shiftLeft_eq, u32]; norm_num
    split_ifs <;> omega
  by_cases c2 : mb > 32768
  swap
  · have e : treeHeight mb = 2 := by rw [hh]; split_ifs <;> omega
    rw [e]; clear hh e
    refine ⟨by norm_num; omega, fun h' hh' => by interval_cases h' <;> norm_num <;> omega, ?_⟩
    simp only [Nat.shiftLeft_eq, u32]; norm_num
    split_ifs <;> omega
  by_cases c3 : mb > 1048576
  swap
  · have e : treeHeight mb = 3 := by rw [hh]; split_ifs <;> omega
    rw [e]; clear hh e
    refine ⟨by norm_num; omega, fun h' hh' => by interval_cases h' <;> norm_num <;> omega, ?_⟩
    simp only [Nat.shiftLeft_eq, u32]; norm_num
    split_ifs <;> omega
  by_cases c4 : mb > 33554432
  swap
  · have e : treeHeight mb = 4 := by rw [hh]; split_ifs <;> omega
    rw [e]; clear hh e
    refine ⟨by norm_num; omega, fun h' hh' => by interval_cases h' <;> norm_num <;> omega, ?_⟩
    simp only [Nat.shiftLeft_eq, u32]; norm_num
    split_ifs <;> omega
  by_cases c5 : mb > 1073741824
  swap
  · have e : treeHeight mb = 5 := by rw [hh]; split_ifs <;> omega
    rw [e]; clear hh e
    refine ⟨by norm_num; omega, fun h' hh' => by interval_cases h' <;> norm_num <;> omega, ?_⟩
    simp only [Nat.shiftLeft_eq, u32]; norm_num
    split_ifs <;> omega
  · have e : treeHeight mb = 6 := by rw [hh]; split_ifs <;> omega
    rw [e]; clear hh e
    refine ⟨by norm_num; omega, fun h' hh' => by interval_cases h' <;> norm_num <;> omega, ?_⟩
    simp only [Nat.shiftLeft_eq, u32]; norm_num
    split_ifs <;> omega

/-- Claim C13. Geometry matches its definition: for every `min_blocks` in `1..2^32`, with
`m = max min_blocks 64`, the tree height stored by `tral_init_member` is the smallest `h`
with `32^h * 32 ≥ m` and lies in `1..6`, the top-branch count is `ceil (m / 32^h)` and lies
in `2..32`, and `num_leaves = t * 32^(h-1)`; the loop of `treeHeight` leaves through its exit
test because the capacity counter is nonzero for five shifts and becomes 0 at the sixth. -/
theorem C13_geometry_definition (min_blocks : Nat) (buf : List Nat) (_h1 : 1 ≤ min_blocks)
    (h2 : min_blocks ≤ 4294967296) :
    (max min_blocks 64 ≤ 32 ^ (tral_init_member min_blocks buf).tree_height * 32 ∧
      ∀ h', h' < (tral_init_member min_blocks buf).tree_height →
        32 ^ h' * 32 < max min_blocks 64) ∧
    (1 ≤ (tral_init_member min_blocks buf).tree_height ∧
      (tral_init_member min_blocks buf).tree_height ≤ 6) ∧
    ((tral_init_member min_blocks buf).num_top_branches =
        (max min_blocks 64 + 32 ^ (tral_init_member min_blocks buf).tree_height - 1) /
          32 ^ (tral_init_member min_blocks buf).tree_height ∧
      2 ≤ (tral_init_member min_blocks buf).num_top_branches ∧
      (tral_init_member min_blocks buf).num_top_branches ≤ 32) ∧
    (tral_init_member min_blocks buf).num_leaves =
      (tral_init_member min_blocks buf).num_top_branches *
        32 ^ ((tral_init_member min_blocks buf).tree_height - 1) ∧
    ((∃ h, treeHeightLoop (max min_blocks 64) 7 NUM_BRANCHES 1 = some h) ∧
      (∀ k, k < 6 → capacityAfter k ≠ 0) ∧ capacityAfter 6 = 0) := by
  obtain ⟨c1, c2, _⟩ := checkMinBlocks_bounds h2
  obtain ⟨a1, a2, a3, a4, a5, _⟩ := height_branches c1 c2
  obtain ⟨d1, d2, d3⟩ := geometry_def c1 c2
  obtain ⟨_, _, g3, _, _⟩ := loops_geometry a3 a4 a1 a2 a5
  obtain ⟨f1, f2, f3, _, _⟩ := init_fields min_blocks buf
  have eh : treeHeight (checkMinBlocks min_blocks) % 256 = treeHeight (checkMinBlocks min_blocks) :=
    Nat.mod_eq_of_lt (by omega)
  have et : numTopNodeBranches (checkMinBlocks min_blocks) % 256 =
      numTopNodeBranches (checkMinBlocks min_blocks) := Nat.mod_eq_of_lt (by omega)
  rw [eh] at f1
  rw [et] at f2
  rw [f1, f2, f3, ← checkMinBlocks_eq_max]
  refine ⟨⟨d1, d2⟩, ⟨a1, a2⟩, ⟨d3, a3, a4⟩, ?_, treeHeightLoop_some _, ?_, by decide⟩
  · unfold numLeaves; exact g3
  · intro k hk
    interval_cases k <;> decide

/-- Witness of C13: `min_blocks = 100000`, height 3 with 4 top branches. -/
theorem C13_geometry_definition_witness :
    (tral_init_member 100000 []).num_leaves =
      (tral_init_member 100000 []).num_top_branches *
        32 ^ ((tral_init_member 100000 []).tree_height - 1) :=
  (C13_geometry_definition 100000 [] (by decide) (by decide)).2.2.2.1

theorem rowStart_eq_nodeCount (t k : Nat) : rowStart t (k + 1) = nodeCount t k := by
  induction k with
  | zero => simp [rowStart, rowWidth, nodeCount]
  | succ k ih =>
    rw [rowStart, ih]
    simp [rowWidth, nodeCount]

/-- Counterexample to C12 as stated: for `min_blocks = 64` (height 1, two top branches, two
leaves) the buffer size is 32 bytes and `tree_stride` is 1, while the formula
`1 + t + … + t * 32^(h-1)` gives 3 and a buffer size of 80. -/
theorem C12_counterexample :
    treeHeight (max 64 64) = 1 ∧ numTopNodeBranches (max 64 64) = 2 ∧
    numLeaves (max 64 64) = 2 ∧
    nodeCount (numTopNodeBranches (max 64 64)) (treeHeight (max 64 64)) = 3 ∧
    (tral_init_member 64 (rawBuf 8)).tree_stride = 1 ∧
    tral_required_member_buffer_size 64 = 32 ∧
    tral_required_member_buffer_size 64 ≠
      (numLeaves (max 64 64) +
        6 * nodeCount (numTopNodeBranches (max 64 64)) (treeHeight (max 64 64))) * 4 := by
  decide

/-- Claim C12, amended. Buffer size formula: for every `min_blocks` in `1..2^32`, with `h`,
`t` and `L` the tree height, top-branch count and leaf count computed for
`max min_blocks 64`, `tral_required_member_buffer_size min_blocks` equals
`(L + 6 * tree_stride) * 4` where `tree_stride = 1 + t + t * 32 + … + t * 32^(h-2)` (the top
node and the `h - 1` rows below it), and the `tree_stride` field after `tral_init_member`
has that same value. -/
theorem C12_buffer_size_formula (min_blocks : Nat) (buf : List Nat) (_h1 : 1 ≤ min_blocks)
    (h2 : min_blocks ≤ 4294967296) :
    tral_required_member_buffer_size min_blocks =
      (numLeaves (max min_blocks 64) +
        6 * nodeCount (numTopNodeBranches (max min_blocks 64))
          (treeHeight (max min_blocks 64) - 1)) * 4 ∧
    (tral_init_member min_blocks buf).tree_stride =
      nodeCount (numTopNodeBranches (max min_blocks 64)) (treeHeight (max min_blocks 64) - 1) := by
  obtain ⟨c1, c2, _⟩ := checkMinBlocks_bounds h2
  obtain ⟨a1, a2, a3, a4, a5, _⟩ := height_branches c1 c2
  obtain ⟨g1, _, g3, g4, g5⟩ := loops_geometry a3 a4 a1 a2 a5
  obtain ⟨_, _, _, f4, _⟩ := init_fields min_blocks buf
  have eS : numTreeNodes (checkMinBlocks min_blocks) =
      nodeCount (numTopNodeBranches (checkMinBlocks min_blocks))
        (treeHeight (checkMinBlocks min_blocks) - 1) := by
    unfold numTreeNodes
    rw [g1, ← rowStart_eq_nodeCount]
    congr 1; omega
  have eL : numLeaves (checkMinBlocks min_blocks) =
      numTopNodeBranches (checkMinBlocks min_blocks) *
        32 ^ (treeHeight (checkMinBlocks min_blocks) - 1) := by
    unfold numLeaves; exact g3
  have hle : numTreeNodes (checkMinBlocks min_blocks) ≤ numLeaves (checkMinBlocks min_blocks) := by
    rw [eL]; unfold numTreeNodes; rw [g1]; exact g5
  rw [f4, ← checkMinBlocks_eq_max]
  refine ⟨?_, eS⟩
  unfold tral_required_member_buffer_size requiredBufferSize
  simp only [show NUM_TREES = 6 from rfl, u32]
  rw [← eS]
  rw [eL] at hle ⊢
  omega

/-- Witness of C12, amended: the boundary value `min_blocks = 2^32`. -/
theorem C12_buffer_size_formula_witness :
    tral_required_member_buffer_size 4294967296 =
      (numLeaves (max 4294967296 64) +
        6 * nodeCount (numTopNodeBranches (max 4294967296 64))
          (treeHeight (max 4294967296 64) - 1)) * 4 ∧
    (tral_init_member 4294967296 []).tree_stride =
      nodeCount (numTopNodeBranches (max 4294967296 64))
        (treeHeight (max 4294967296 64) - 1) :=
  C12_buffer_size_formula 4294967296 [] (by decide) (by decide)

theorem blockUsed_leaf (m : Member) (l o : Nat) (ho : o < 32) :
    blockUsed m (32 * l + o) = (rd m.buf l).testBit o := by
  unfold blockUsed
  rw [show (32 * l + o) / 32 = l by omega, show (32 * l + o) % 32 = o by omega]

/-- When every block is in use, the top node of every tree is all ones. -/
theorem top_full_of_exhausted {m : Member} (hinv : Inv m)
    (hfull : ∀ x, x < tral_num_blocks m → blockUsed m x = true) {s : Nat} (hs : s < 6) :
    rd m.buf (m.num_leaves + s * m.tree_stride) = 4294967295 := by
  have g := hinv.geom
  apply (top_full_iff g.t_le g.h_pos (hinv.trees s hs)).2
  intro l hl
  rw [← g.leaves] at hl
  rintro ⟨o, ho, _, hr⟩
  have h0 := hr 0 (width_pos s)
  rw [Nat.add_zero, ← blockUsed_leaf m l o ho, hfull _ (by rw [g.num_blocks]; omega)] at h0
  exact Bool.noConfusion h0

/-- Counterexample to C14 as stated: `tral_init_member` with `min_blocks = 65` gives three
top branches, not two, and the top nodes hold `0xFFFFFFF8`, not `0xFFFFFFFC`. -/
theorem C14_counterexample :
    (tral_init_member 65 (rawBuf 9)).num_top_branches = 3 ∧
    (tral_init_member 65 (rawBuf 9)).num_top_branches ≠ 2 ∧
    rd (tral_init_member 65 (rawBuf 9)).buf (tral_init_member 65 (rawBuf 9)).num_leaves =
      4294967288 ∧
    rd (tral_init_member 65 (rawBuf 9)).buf (tral_init_member 65 (rawBuf 9)).num_leaves ≠
      4294967292 := by
  decide

/-- Claim C14, amended. Top-sentinel scenario: after `tral_init_member` with
`min_blocks = 65` the member has 3 top branches (height 1, 3 leaves) and the top node of
each of the six trees is `0xFFFFFFF8`; once the capacity is exhausted (here by three marks of
32 blocks) the bits 0-2 of each top node are 1 and the bits 3-31 are still 1.  In general
the top node of every tree is all ones in every reachable state with all blocks in use. -/
theorem C14_top_sentinel_scenario (m : Member) (outs : List (Nat × Nat))
    (hr : Reachable m outs) (hfull : ∀ x, x < tral_num_blocks m → blockUsed m x = true)
    (s : Nat) (hs : s < 6) :
    rd m.buf (m.num_leaves + s * m.tree_stride) = 4294967295 ∧
    ((tral_init_member 65 (rawBuf 9)).num_top_branches = 3 ∧
      (tral_init_member 65 (rawBuf 9)).tree_height = 1 ∧
      (tral_init_member 65 (rawBuf 9)).num_leaves = 3 ∧
      ∀ i, i < 6 → rd (tral_init_member 65 (rawBuf 9)).buf
        ((tral_init_member 65 (rawBuf 9)).num_leaves +
          i * (tral_init_member 65 (rawBuf 9)).tree_stride) = 4294967288) ∧
    ((markAll (tral_init_member 65 (rawBuf 9)) [32, 32, 32, 1]).2 =
        [(true, 0), (true, 32), (true, 64), (false, 0)] ∧
      (∀ x, x < tral_num_blocks (markAll (tral_init_member 65 (rawBuf 9)) [32, 32, 32]).1 →
        blockUsed (markAll (tral_init_member 65 (rawBuf 9)) [32, 32, 32]).1 x = true) ∧
      ∀ i, i < 6 → ∀ b, b < 32 →
        (rd (markAll (tral_init_member 65 (rawBuf 9)) [32, 32, 32]).1.buf
          ((markAll (tral_init_member 65 (rawBuf 9)) [32, 32, 32]).1.num_leaves +
            i * (markAll (tral_init_member 65 (rawBuf 9)) [32, 32, 32]).1.tree_stride)).testBit b =
          true) := by
  obtain ⟨hinv, _⟩ := reachable_inv hr
  exact ⟨top_full_of_exhausted hinv hfull hs, by decide, by decide, by decide, by decide⟩

/-- Witness of C14, amended: tree 4 of the member filled by two marks of 32 blocks after
`tral_init_member 64`. -/
theorem C14_top_sentinel_scenario_witness :
    rd (markAll (tral_init_member 64 (rawBuf 8)) [32, 32]).1.buf
      ((markAll (tral_init_member 64 (rawBuf 8)) [32, 32]).1.num_leaves +
        4 * (markAll (tral_init_member 64 (rawBuf 8)) [32, 32]).1.tree_stride) = 4294967295 :=
  (C14_top_sentinel_scenario (markAll (tral_init_member 64 (rawBuf 8)) [32, 32]).1
    [(32, 32), (0, 32)]
    (Reachable.mark_ok (markAll (tral_init_member 64 (rawBuf 8)) [32]).1 [(0, 32)] 32 0
      (Reachable.mark_ok (tral_init_member 64 (rawBuf 8)) [] 32 0
        (Reachable.init 64 (rawBuf 8) (by decide) (by decide) (by decide))
        (by decide) (by decide) (by decide))
      (by decide) (by decide) (by decide))
    (by decide) 4 (by decide)).1

theorem sentinel_eq (t : Nat) (ht : t ≤ 32) :
    (if t < NUM_BRANCHES then not32 (u32 (u32 (1 <<< t) + 4294967295)) else 0) =
      4294967296 - 2 ^ t := by
  interval_cases t <;> decide

/-- After `tral_init_member` every node below the top node of every tree is zero. -/
theorem init_node_zero {mb : Nat} {buf : List Nat} (h2 : mb ≤ 4294967296)
    (hbuf : tral_required_member_buffer_size mb ≤ 4 * buf.length) {s r j : Nat} (hs : s < 6)
    (hr : r + 1 < (tral_init_member mb buf).tree_height)
    (hj : j < rowWidth (tral_init_member mb buf).num_top_branches (r + 1)) :
    rd (tral_init_member mb buf).buf
      ((tral_init_member mb buf).num_leaves + s * (tral_init_member mb buf).tree_stride +
        rowStart (tral_init_member mb buf).num_top_branches (r + 1) + j) = 0 := by
  have g := geom_init h2 hbuf
  have hrd := init_rd h2 hbuf
  set m := tral_init_member mb buf with hm
  have hx := node_lt_stride hr hj
  rw [← g.stride] at hx
  have hx1 : 1 ≤ rowStart m.num_top_branches (r + 1) := by
    have := rowStart_mono m.num_top_branches (show 1 ≤ r + 1 by omega)
    simpa [rowStart, rowWidth] using this
  have hnot : ¬ ∃ k, k < 6 ∧ m.num_leaves + s * m.tree_stride +
      rowStart m.num_top_branches (r + 1) + j = m.num_leaves + k * m.tree_stride := by
    rintro ⟨k, _, e⟩
    rcases Nat.lt_or_ge s k with h1 | h1
    · have := tree_end_le (L := m.num_leaves) (S := m.tree_stride) h1
      omega
    · have := tree_base_le (L := m.num_leaves) (S := m.tree_stride) h1
      omega
  have hin : m.num_leaves + s * m.tree_stride + rowStart m.num_top_branches (r + 1) + j <
      m.num_leaves + 6 * m.tree_stride := by
    have := tree_end_le (L := m.num_leaves) (S := m.tree_stride) (i := s) (j := 6) hs
    omega
  rw [hrd, if_neg hnot, if_pos hin]

/-- The first `tral_mark` on a member whose leaf 0 is zero returns address 0. -/
theorem mark_first {m : Member} (hinv : Inv m) (h0 : rd m.buf 0 = 0) (n a : Nat) :
    (tral_mark m n a).1 = true ∧ (tral_mark m n a).2.2 = 0 := by
  have g := hinv.geom
  have hs := ceil_log2_lt n
  have hL : 0 < m.num_leaves := by
    rw [g.leaves]
    have := g.t_ge
    positivity
  have hfree : leafFree (rd m.buf 0) (CEIL_LOG2_SMALL n) := by rw [h0]; exact leafFree_zero _
  have hok : (tral_mark m n a).1 = true := by
    by_contra hc
    have hf : (tral_mark m n a).1 = false := by simpa using hc
    exact (mark_fail_iff hinv n a).1 hf 0 hL hfree
  obtain ⟨l0, _, _, h3, h4, _⟩ := mark_success hinv n a hok
  have hl0 : l0 = 0 := by
    by_contra hne
    exact h3 0 (by omega) hfree
  subst hl0
  refine ⟨hok, ?_⟩
  rw [h4, h0, leafBlocksOffset_eq hs (k := 0) (by norm_num) (Nat.zero_mod _)
    (fun _ _ => Nat.zero_testBit _) (fun o ho => absurd ho (Nat.not_lt_zero o))]

/-- Claim C15. Initial state: after `tral_init_member` for any `min_blocks` in `1..2^32`
(on a buffer of the required size) every leaf word is 0, every node below the top node of
every tree is 0, and the top node of each of the six trees is the word with the bits
`t..31` set and the bits `0..t-1` clear, `t` the top-branch count; the first `tral_mark` of
any `n` in `1..32` succeeds with address 0. -/
theorem C15_initial_state (min_blocks : Nat) (buf : List Nat) (_h1 : 1 ≤ min_blocks)
    (h2 : min_blocks ≤ 4294967296)
    (hbuf : tral_required_member_buffer_size min_blocks ≤ 4 * buf.length) :
    (∀ l, l < (tral_init_member min_blocks buf).num_leaves →
      rd (tral_init_member min_blocks buf).buf l = 0) ∧
    (∀ s r j, s < 6 → 1 ≤ r → r < (tral_init_member min_blocks buf).tree_height →
      j < rowWidth (tral_init_member min_blocks buf).num_top_branches r →
      rd (tral_init_member min_blocks buf).buf
        ((tral_init_member min_blocks buf).num_leaves +
          s * (tral_init_member min_blocks buf).tree_stride +
          rd (tral_init_member min_blocks buf).row_offsets r + j) = 0) ∧
    (∀ s, s < 6 →
      rd (tral_init_member min_blocks buf).buf
        ((tral_init_member min_blocks buf).num_leaves +
          s * (tral_init_member min_blocks buf).tree_stride) =
        4294967296 - 2 ^ (tral_init_member min_blocks buf).num_top_branches ∧
      ∀ b, (rd (tral_init_member min_blocks buf).buf
        ((tral_init_member min_blocks buf).num_leaves +
          s * (tral_init_member min_blocks buf).tree_stride)).testBit b =
        decide ((tral_init_member min_blocks buf).num_top_branches ≤ b ∧ b < 32)) ∧
    (∀ n a, 1 ≤ n → n ≤ 32 →
      (tral_mark (tral_init_member min_blocks buf) n a).1 = true ∧
      (tral_mark (tral_init_member min_blocks buf) n a).2.2 = 0) := by
  have hinv := inv_init h2 hbuf
  have g := hinv.geom
  have hrd := init_rd h2 hbuf
  have hleaf : ∀ l, l < (tral_init_member min_blocks buf).num_leaves →
      rd (tral_init_member min_blocks buf).buf l = 0 := fun l hl => init_leaf_zero h2 hbuf hl
  have hL : 0 < (tral_init_member min_blocks buf).num_leaves := by
    rw [g.leaves]
    have := g.t_ge
    positivity
  refine ⟨hleaf, ?_, ?_, fun n a _ _ => mark_first hinv (hleaf 0 hL) n a⟩
  · intro s r j hs hr1 hr hj
    obtain ⟨r', rfl⟩ : ∃ r', r = r' + 1 := ⟨r - 1, by omega⟩
    rw [g.offs _ hr]
    exact init_node_zero h2 hbuf hs hr hj
  · intro s hs
    have htop : rd (tral_init_member min_blocks buf).buf
        ((tral_init_member min_blocks buf).num_leaves +
          s * (tral_init_member min_blocks buf).tree_stride) =
        (if (tral_init_member min_blocks buf).num_top_branches < NUM_BRANCHES then
          not32 (u32 (u32 (1 <<< (tral_init_member min_blocks buf).num_top_branches) + 4294967295))
        else 0) := by
      rw [hrd, if_pos ⟨s, hs, rfl⟩]
    refine ⟨by rw [htop, sentinel_eq _ g.t_le], fun b => ?_⟩
    rw [htop, testBit_sentinel _ _ g.t_le]

/-- Witness of C15: `tral_init_member` with `min_blocks = 65` on a buffer of 9 words. -/
theorem C15_initial_state_witness :
    rd (tral_init_member 65 (rawBuf 9)).buf 2 = 0 ∧
    (tral_mark (tral_init_member 65 (rawBuf 9)) 5 7).1 = true ∧
    (tral_mark (tral_init_member 65 (rawBuf 9)) 5 7).2.2 = 0 :=
  ⟨(C15_initial_state 65 (rawBuf 9) (by decide) (by decide) (by decide)).1 2 (by decide),
    (C15_initial_state 65 (rawBuf 9) (by decide) (by decide) (by decide)).2.2.2 5 7
      (by decide) (by decide)⟩

theorem member_ext {m m' : Member} (hb : m'.buf = m.buf) (h1 : m'.num_leaves = m.num_leaves)
    (h2 : m'.tree_stride = m.tree_stride) (h3 : m'.row_offsets = m.row_offsets)
    (h4 : m'.num_top_branches = m.num_top_branches) (h5 : m'.tree_height = m.tree_height) :
    m' = m := by
  cases m; cases m'
  simp only at hb h1 h2 h3 h4 h5
  subst hb h1 h2 h3 h4 h5
  rfl

/-- Clearing an aligned range whose blocks are all free changes nothing. -/
theorem clear_free_noop {m : Member} (hinv : Inv m) (n : Nat) {adr : Nat}
    (hadr : adr < tral_num_blocks m) (hal : adr % 2 ^ CEIL_LOG2_SMALL n = 0)
    (hfree : ∀ i, i < 2 ^ CEIL_LOG2_SMALL n → blockUsed m (adr + i) = false) :
    tral_clear m adr n = m := by
  have g := hinv.geom
  have hs := ceil_log2_lt n
  rw [g.num_blocks] at hadr
  have hinv' := inv_clear hinv n hadr
  obtain ⟨c1, c2, c3, _⟩ := tral_clear_spec hinv n hadr
  obtain ⟨f1, f2, f3, f4, f5⟩ := tral_clear_fields m adr n
  have ho2 := (align_mod32 hs adr).1 hal
  have hfit := align_fits hs (Nat.mod_lt adr (by norm_num)) ho2
  have hl : adr / 32 < m.num_leaves := by omega
  refine member_ext ?_ f1 f2 f3 f4 f5
  apply inv_buf_unique hinv hinv' f1 f2 f4 f5 c1
  · intro l hl'
    by_cases e : l = adr / 32
    · rw [e, c2]
      apply Nat.eq_of_testBit_eq
      intro i
      rw [Nat.testBit_and, testBit_not32, testBit_leafBlocksMask hs]
      by_cases hi : i < 32
      · by_cases hm : adr % 32 ≤ i ∧ i < adr % 32 + 2 ^ CEIL_LOG2_SMALL n
        · have hf := hfree (i - adr % 32) (by omega)
          unfold blockUsed at hf
          rw [show (adr + (i - adr % 32)) / 32 = adr / 32 by omega,
            show (adr + (i - adr % 32)) % 32 = i by omega] at hf
          simp [hf]
        · have hm' : ¬ (i < 32 ∧ adr % 32 ≤ i ∧ i < adr % 32 + 2 ^ CEIL_LOG2_SMALL n) :=
            fun h => hm h.2
          rw [decide_eq_false hm']
          simp [hi]
      · simp [hi, testBit_of_lt_word (i := i) (hinv.words _ hl) (by omega)]
    · exact c3 l e (Or.inl hl')
  · intro i hi
    exact c3 i (by omega) (Or.inr hi)

/-- Claim C20. Clearing a free range is a no-op: in every reachable state, for `n` in
`1..32` with class `s` and an address below `tral_num_blocks` that is a multiple of `2^s`
with the `2^s` blocks from it on all free, `tral_clear` returns the member unchanged (leaf
bitmap and all six trees); in particular repeating a valid `tral_clear` changes nothing. -/
theorem C20_clear_free_is_noop (m : Member) (outs : List (Nat × Nat)) (hr : Reachable m outs)
    (n adr : Nat) (_h1 : 1 ≤ n) (_h2 : n ≤ 32) (hadr : adr < tral_num_blocks m)
    (hal : adr % 2 ^ CEIL_LOG2_SMALL n = 0)
    (hfree : ∀ i, i < 2 ^ CEIL_LOG2_SMALL n → blockUsed m (adr + i) = false) :
    tral_clear m adr n = m ∧
    ∀ p, p ∈ outs → tral_clear (tral_clear m p.1 p.2) p.1 p.2 = tral_clear m p.1 p.2 := by
  obtain ⟨hinv, ho⟩ := reachable_inv hr
  refine ⟨clear_free_noop hinv n hadr hal hfree, fun p hp => ?_⟩
  have hal' := ho.aligned p hp
  simp only [classWidth] at hal'
  have hp0 := width_pos (CEIL_LOG2_SMALL p.2)
  have hlt : p.1 < tral_num_blocks m := by omega
  have hinv1 : Inv (tral_clear m p.1 p.2) :=
    inv_clear hinv p.2 (by rw [← hinv.geom.num_blocks]; exact hlt)
  have hb := clear_blocks hinv p.2 hal'.1 hal'.2
  apply clear_free_noop hinv1 p.2 (show p.1 < tral_num_blocks (tral_clear m p.1 p.2) from hlt)
    hal'.1
  intro i hi
  rw [hb _ (by omega)]
  have : p.1 ≤ p.1 + i ∧ p.1 + i < p.1 + 2 ^ CEIL_LOG2_SMALL p.2 := ⟨by omega, by omega⟩
  simp [this]

/-- Witness of C20: clearing the free range at address 8 of a fresh member, class 3. -/
theorem C20_clear_free_is_noop_witness :
    tral_clear (markAll (tral_init_member 64 (rawBuf 8)) [3]).1 8 5 =
      (markAll (tral_init_member 64 (rawBuf 8)) [3]).1 :=
  (C20_clear_free_is_noop (markAll (tral_init_member 64 (rawBuf 8)) [3]).1 [(0, 3)]
    (Reachable.mark_ok (tral_init_member 64 (rawBuf 8)) [] 3 0
      (Reachable.init 64 (rawBuf 8) (by decide) (by decide) (by decide))
      (by decide) (by decide) (by decide))
    5 8 (by decide) (by decide) (by decide) (by decide) (by decide)).1

/-! ## Counting the bits in use -/

theorem countP_or_disjoint (l : List Nat) (p q : Nat → Bool)
    (h : ∀ x, x ∈ l → ¬ (p x = true ∧ q x = true)) :
    l.countP (fun x => p x || q x) = l.countP p + l.countP q := by
  induction l with
  | nil => rfl
  | cons a l ih =>
    have hd := h a (List.mem_cons_self _ _)
    rw [List.countP_cons, List.countP_cons, List.countP_cons,
      ih (fun x hx => h x (List.mem_cons_of_mem _ hx))]
    cases hp : p a <;> cases hq : q a <;> simp_all <;> omega

theorem countP_interval_gen (a w : Nat) : ∀ N,
    (List.range N).countP (fun x => decide (a ≤ x ∧ x < a + w)) = min (a + w) N - min a N := by
  intro N
  induction N with
  | zero => simp
  | succ N ih =>
    rw [List.range_succ, List.countP_append, ih]
    by_cases h : a ≤ N ∧ N < a + w
    · simp [List.countP_cons, h]; omega
    · simp [List.countP_cons, h]; omega

theorem countP_interval {a w N : Nat} (h : a + w ≤ N) :
    (List.range N).countP (fun x => decide (a ≤ x ∧ x < a + w)) = w := by
  rw [countP_interval_gen]; omega

/-- The blocks covered by pairwise disjoint ranges inside `0..N-1` number the sum of the
widths. -/
theorem countP_ranges (N : Nat) : ∀ outs : List (Nat × Nat), outs.Pairwise disjointRanges →
    (∀ p, p ∈ outs → p.1 + classWidth p.2 ≤ N) →
    (List.range N).countP
      (fun x => decide (∃ p, p ∈ outs ∧ p.1 ≤ x ∧ x < p.1 + classWidth p.2)) =
      (outs.map (fun p => classWidth p.2)).sum := by
  intro outs
  induction outs with
  | nil => intro _ _; simp
  | cons q rest ih =>
    intro hp hin
    rw [List.pairwise_cons] at hp
    have e : (List.range N).countP
        (fun x => decide (∃ p, p ∈ q :: rest ∧ p.1 ≤ x ∧ x < p.1 + classWidth p.2)) =
        (List.range N).countP (fun x => decide (q.1 ≤ x ∧ x < q.1 + classWidth q.2) ||
          decide (∃ p, p ∈ rest ∧ p.1 ≤ x ∧ x < p.1 + classWidth p.2)) := by
      apply List.countP_congr
      intro x _
      simp only [List.mem_cons, decide_eq_true_eq, Bool.or_eq_true]
      constructor
      · rintro ⟨p, hp' | hp', h1⟩
        · left; rw [hp'] at h1; exact h1
        · right; exact ⟨p, hp', h1⟩
      · rintro (h1 | ⟨p, hp', h1⟩)
        · exact ⟨q, Or.inl rfl, h1⟩
        · exact ⟨p, Or.inr hp', h1⟩
    rw [e, countP_or_disjoint, countP_interval (hin q (List.mem_cons_self _ _)),
      ih hp.2 (fun p hp' => hin p (List.mem_cons_of_mem _ hp'))]
    · simp
    · intro x _
      simp only [decide_eq_true_eq]
      rintro ⟨h1, p, hp', h2⟩
      have := hp.1 p hp'
      unfold disjointRanges at this
      omega

theorem popCount_blocks (m : Member) : ∀ L,
    ((List.range L).map (fun l => popCount32 (rd m.buf l))).sum =
      (List.range (32 * L)).countP (fun x => blockUsed m x) := by
  intro L
  induction L with
  | zero => simp
  | succ L ih =>
    rw [List.range_succ, List.map_append, List.sum_append, ih,
      show 32 * (L + 1) = 32 * L + 32 by ring, List.range_add, List.countP_append,
      List.countP_map]
    congr 1
    simp only [List.map_cons, List.map_nil, List.sum_cons, List.sum_nil, Nat.add_zero]
    unfold popCount32
    apply List.countP_congr
    intro i hi
    have hi32 : i < 32 := List.mem_range.1 hi
    simp only [Function.comp]
    rw [blockUsed_leaf m L i hi32]

theorem sum_widths_erase {l : List (Nat × Nat)} {a : Nat × Nat} (ha : a ∈ l) :
    classWidth a.2 + ((l.erase a).map (fun p => classWidth p.2)).sum =
      (l.map (fun p => classWidth p.2)).sum := by
  induction l with
  | nil => simp at ha
  | cons b l ih =>
    by_cases e : b = a
    · subst e
      rw [List.erase_cons_head]
      simp
    · rw [List.erase_cons_tail (by simpa using e)]
      have ha' : a ∈ l := by
        rcases List.mem_cons.1 ha with h | h
        · exact absurd h.symm e
        · exact h
      have := ih ha'
      simp only [List.map_cons, List.sum_cons]
      omega

theorem reachableCount_reachable {m : Member} {outs : List (Nat × Nat)} {W C : Nat}
    (hr : ReachableCount m outs W C) :
    Reachable m outs ∧ W = C + (outs.map (fun p => classWidth p.2)).sum := by
  induction hr with
  | init mb buf h1 h2 hbuf => exact ⟨Reachable.init mb buf h1 h2 hbuf, by simp⟩
  | mark_ok m outs W C n a _ h1 h2 hok ih =>
    refine ⟨Reachable.mark_ok m outs n a ih.1 h1 h2 hok, ?_⟩
    simp only [List.map_cons, List.sum_cons]
    omega
  | mark_fail m outs W C n a _ h1 h2 hok ih =>
    exact ⟨Reachable.mark_fail m outs n a ih.1 h1 h2 hok, ih.2⟩
  | clear m outs W C adr n _ hmem ih =>
    refine ⟨Reachable.clear m outs adr n ih.1 hmem, ?_⟩
    have := sum_widths_erase hmem
    simp only at this
    omega

/-- Claim C11. Conservation: after successful `tral_mark` calls of total class width `W` and
valid `tral_clear` calls of total class width `C`, the number of 1 bits over all leaf words
is `W - C`; and a block is in use exactly when it lies in the range of a mark that has not
been cleared. -/
theorem C11_conservation (m : Member) (outs : List (Nat × Nat)) (W C : Nat)
    (hr : ReachableCount m outs W C) :
    leafBitCount m = W - C ∧ C ≤ W ∧
    (∀ x, x < tral_num_blocks m →
      (blockUsed m x = true ↔ ∃ p, p ∈ outs ∧ p.1 ≤ x ∧ x < p.1 + classWidth p.2)) := by
  obtain ⟨hreach, hW⟩ := reachableCount_reachable hr
  obtain ⟨hinv, ho⟩ := reachable_inv hreach
  refine ⟨?_, by omega, ho.marked⟩
  unfold leafBitCount
  rw [popCount_blocks, ← hinv.geom.num_blocks]
  have e : (List.range (tral_num_blocks m)).countP (fun x => blockUsed m x) =
      (List.range (tral_num_blocks m)).countP
        (fun x => decide (∃ p, p ∈ outs ∧ p.1 ≤ x ∧ x < p.1 + classWidth p.2)) := by
    apply List.countP_congr
    intro x hx
    rw [ho.marked x (List.mem_range.1 hx)]
    simp
  rw [e, countP_ranges _ outs ho.disjoint (fun p hp => (ho.aligned p hp).2)]
  omega

/-- Witness of C11: a mark of 3 blocks, a mark of 32 blocks and the clear of the first. -/
theorem C11_conservation_witness :
    leafBitCount (tral_clear (markAll (tral_init_member 64 (rawBuf 8)) [3, 32]).1 0 3) =
      (0 + classWidth 3 + classWidth 32) - (0 + classWidth 3) :=
  (C11_conservation (tral_clear (markAll (tral_init_member 64 (rawBuf 8)) [3, 32]).1 0 3)
    ([(32, 32), (0, 3)].erase (0, 3)) (0 + classWidth 3 + classWidth 32) (0 + classWidth 3)
    (ReachableCount.clear (markAll (tral_init_member 64 (rawBuf 8)) [3, 32]).1
      [(32, 32), (0, 3)] (0 + classWidth 3 + classWidth 32) 0 0 3
      (ReachableCount.mark_ok (markAll (tral_init_member 64 (rawBuf 8)) [3]).1 [(0, 3)]
        (0 + classWidth 3) 0 32 0
        (ReachableCount.mark_ok (tral_init_member 64 (rawBuf 8)) [] 0 0 3 0
          (ReachableCount.init 64 (rawBuf 8) (by decide) (by decide) (by decide))
          (by decide) (by decide) (by decide))
        (by decide) (by decide) (by decide))
      (by decide))).1

/-! ## Index safety -/

/-- The nodes touched by the loop of `updateTreeLeafFull` lie on the path of the leaf. -/
theorem updateTreeLeafFullWrites_path {T t h l0 : Nat} {R : List Nat} (ht : t ≤ 32)
    (hl : l0 < t * 32 ^ (h - 1)) :
    ∀ r, r < h → ∀ buf p,
      p ∈ updateTreeLeafFullWrites T R r (l0 / 32 ^ (h - 1 - r) % 32)
        (l0 / 32 ^ (h - 1 - r) / 32) buf →
      p.1 < h ∧ p.2 < rowWidth t p.1 := by
  intro r
  induction r with
  | zero =>
    intro hr buf p hp
    simp only [updateTreeLeafFullWrites, List.mem_singleton] at hp
    rw [hp]
    exact ⟨hr, path_node_lt ht hr hl⟩
  | succ r ih =>
    intro hr buf p hp
    have ed : h - 1 - (r + 1) + 1 = h - 1 - r := by omega
    have ec : l0 / 32 ^ (h - 1 - (r + 1)) / 32 = l0 / 32 ^ (h - 1 - r) := by
      rw [← div_pow_succ, ed]
    simp only [updateTreeLeafFullWrites] at hp
    split_ifs at hp
    · rw [List.mem_singleton] at hp
      rw [hp]
      exact ⟨hr, path_node_lt ht hr hl⟩
    · rcases List.mem_cons.1 hp with h1 | h1
      · rw [h1]
        exact ⟨hr, path_node_lt ht hr hl⟩
      · rw [and_mask_eq_mod, shift_eq_div, ec] at h1
        exact ih (by omega) _ p h1

/-- The nodes touched by the loop of `updateTreeLeafHasSpace` lie on the path of the leaf. -/
theorem updateTreeLeafHasSpaceWrites_path {T t h l0 : Nat} {R : List Nat} (ht : t ≤ 32)
    (hl : l0 < t * 32 ^ (h - 1)) :
    ∀ r, r < h → ∀ buf p,
      p ∈ updateTreeLeafHasSpaceWrites T R r (l0 / 32 ^ (h - 1 - r) % 32)
        (l0 / 32 ^ (h - 1 - r) / 32) buf →
      p.1 < h ∧ p.2 < rowWidth t p.1 := by
  intro r
  induction r with
  | zero =>
    intro hr buf p hp
    simp only [updateTreeLeafHasSpaceWrites, List.mem_singleton] at hp
    rw [hp]
    exact ⟨hr, path_node_lt ht hr hl⟩
  | succ r ih =>
    intro hr buf p hp
    have ed : h - 1 - (r + 1) + 1 = h - 1 - r := by omega
    have ec : l0 / 32 ^ (h - 1 - (r + 1)) / 32 = l0 / 32 ^ (h - 1 - r) := by
      rw [← div_pow_succ, ed]
    simp only [updateTreeLeafHasSpaceWrites] at hp
    split_ifs at hp
    · rw [List.mem_singleton] at hp
      rw [hp]
      exact ⟨hr, path_node_lt ht hr hl⟩
    · rcases List.mem_cons.1 hp with h1 | h1
      · rw [h1]
        exact ⟨hr, path_node_lt ht hr hl⟩
      · rw [and_mask_eq_mod, shift_eq_div, ec] at h1
        exact ih (by omega) _ p h1

/-- The loop of `updateTreeLeafFull` changes no word outside the nodes it touches. -/
theorem updateTreeLeafFullLoop_frame (T : Nat) (ro : List Nat) :
    ∀ r b c buf i,
      (∀ p, p ∈ updateTreeLeafFullWrites T ro r b c buf → T + rd ro p.1 + p.2 ≠ i) →
      rd (updateTreeLeafFullLoop T ro r b c buf) i = rd buf i := by
  intro r
  induction r with
  | zero =>
    intro b c buf i h
    simp only [updateTreeLeafFullLoop]
    exact rd_wr_ne (h (0, c) (by simp [updateTreeLeafFullWrites])) _
  | succ r ih =>
    intro b c buf i h
    simp only [updateTreeLeafFullWrites] at h
    simp only [updateTreeLeafFullLoop]
    split_ifs at h ⊢ with hsp
    · exact rd_wr_ne (h (r + 1, c) (by simp)) _
    · rw [ih _ _ _ i (fun p hp => h p (List.mem_cons_of_mem _ hp))]
      exact rd_wr_ne (h (r + 1, c) (List.mem_cons_self _ _)) _

/-- The loop of `updateTreeLeafHasSpace` changes no word outside the nodes it touches. -/
theorem updateTreeLeafHasSpaceLoop_frame (T : Nat) (ro : List Nat) :
    ∀ r b c buf i,
      (∀ p, p ∈ updateTreeLeafHasSpaceWrites T ro r b c buf → T + rd ro p.1 + p.2 ≠ i) →
      rd (updateTreeLeafHasSpaceLoop T ro r b c buf) i = rd buf i := by
  intro r
  induction r with
  | zero =>
    intro b c buf i h
    simp only [updateTreeLeafHasSpaceLoop]
    exact rd_wr_ne (h (0, c) (by simp [updateTreeLeafHasSpaceWrites])) _
  | succ r ih =>
    intro b c buf i h
    simp only [updateTreeLeafHasSpaceWrites] at h
    simp only [updateTreeLeafHasSpaceLoop]
    split_ifs at h ⊢ with hsp
    · exact rd_wr_ne (h (r + 1, c) (by simp)) _
    · rw [ih _ _ _ i (fun p hp => h p (List.mem_cons_of_mem _ hp))]
      exact rd_wr_ne (h (r + 1, c) (List.mem_cons_self _ _)) _

/-- The nodes read by the descent loop lie inside their rows. -/
theorem leafWithSpaceReads_bound {buf : List Nat} {lv : Nat → Nat} {T t h s : Nat}
    {ro : List Nat} (hL : t * 32 ^ (h - 1) ≤ 134217728)
    (hro : ∀ r, r < h → rd ro r = rowStart t r)
    (hok : TreeOK buf lv T t h s) :
    ∀ n i c, n + i = h → 1 ≤ i →
      ¬ closedAt lv (t * 32 ^ (h - 1)) s n c →
      ∀ p, p ∈ leafWithSpaceReads buf T ro n i c → p.1 < h ∧ p.2 < rowWidth t p.1 := by
  intro n
  induction n with
  | zero =>
    intro i c _ _ _ p hp
    simp [leafWithSpaceReads] at hp
  | succ n ih =>
    intro i c hni hi hopen p hp
    have hi' : i < h := by omega
    have hc : c < rowWidth t i := by
      have := open_lt (h := h) (by omega) hopen
      obtain ⟨i', rfl⟩ : ∃ i', i = i' + 1 := ⟨i - 1, by omega⟩
      simp only [rowWidth]
      rwa [show h - 1 - (n + 1) = i' by omega] at this
    have hrow := hok i hi'
    have hd : h - 1 - i = n := by omega
    have hnode := hrow c hc
    rw [hd] at hnode
    have hnf : rd buf (T + rowStart t i + c) ≠ 4294967295 := by
      intro hfull
      apply hopen
      rw [closedAt_succ]
      intro b hb
      exact (hnode.2 b hb).1 ((eq_ones_iff hnode.1).1 hfull b hb)
    obtain ⟨b0, hb0, hz, hlowb⟩ := exists_lowest_zero hnode.1 hnf
    have hifz := indexOfFirstZero_spec hb0 hz hlowb
    have hcL : c < 134217728 := by
      have h1 := open_lt (h := h) (by omega) hopen
      have h2 : t * 32 ^ (h - 1 - (n + 1)) ≤ t * 32 ^ (h - 1) :=
        Nat.mul_le_mul_left _ (Nat.pow_le_pow_right (by norm_num) (by omega))
      omega
    have hnew : u32 (u32 (c <<< NUM_BRANCHES_LOG2) + b0) = 32 * c + b0 := by
      simp only [NUM_BRANCHES_LOG2, Nat.shiftLeft_eq, u32]
      omega
    simp only [leafWithSpaceReads, hro i hi', hifz, hnew] at hp
    rcases List.mem_cons.1 hp with h1 | h1
    · rw [h1]; exact ⟨hi', hc⟩
    · refine ih (i + 1) (32 * c + b0) (by omega) (by omega) ?_ p h1
      intro hcl
      have := (hnode.2 b0 hb0).2 hcl
      rw [hz] at this
      exact Bool.noConfusion this

theorem length_rowOffsetsLoop : ∀ n row_i offset row_width (offs : List Nat),
    (rowOffsetsLoop n row_i offset row_width offs).length = offs.length := by
  intro n
  induction n with
  | zero => intro _ _ _ offs; rfl
  | succ n ih =>
    intro row_i offset row_width offs
    simp only [rowOffsetsLoop]
    rw [ih, length_wr]

theorem reachable_row_offsets {m : Member} {outs : List (Nat × Nat)} (hr : Reachable m outs) :
    m.row_offsets.length = 6 := by
  induction hr with
  | init mb buf h1 h2 hbuf =>
    rw [(init_fields mb buf).2.2.2.2]
    unfold rowOffsets
    rw [length_rowOffsetsLoop, length_wr]
    simp
  | mark_ok m outs n a _ h1 h2 hok ih => rw [(mark_fields m n a).2.2.1]; exact ih
  | mark_fail m outs n a _ h1 h2 hok ih => rw [(mark_fields m n a).2.2.1]; exact ih
  | clear m outs adr n _ hmem ih => exact ih


theorem updateTreeLeafFullWrites_top {T t h l0 : Nat} {R : List Nat} (hh : 1 ≤ h) (ht : t ≤ 32)
    (hl : l0 < t * 32 ^ (h - 1)) (buf : List Nat) (p : Nat × Nat)
    (hp : p ∈ updateTreeLeafFullWrites T R (h - 1) (l0 &&& BRANCH_INDEX_MASK)
      (l0 >>> NUM_BRANCHES_LOG2) buf) :
    p.1 < h ∧ p.2 < rowWidth t p.1 := by
  have := updateTreeLeafFullWrites_path (T := T) (R := R) ht hl (h - 1) (by omega) buf p
  rw [Nat.sub_self, pow_zero, Nat.div_one, ← and_mask_eq_mod, ← shift_eq_div] at this
  exact this hp

theorem updateTreeLeafHasSpaceWrites_top {T t h l0 : Nat} {R : List Nat} (hh : 1 ≤ h)
    (ht : t ≤ 32) (hl : l0 < t * 32 ^ (h - 1)) (buf : List Nat) (p : Nat × Nat)
    (hp : p ∈ updateTreeLeafHasSpaceWrites T R (h - 1) (l0 &&& BRANCH_INDEX_MASK)
      (l0 >>> NUM_BRANCHES_LOG2) buf) :
    p.1 < h ∧ p.2 < rowWidth t p.1 := by
  have := updateTreeLeafHasSpaceWrites_path (T := T) (R := R) ht hl (h - 1) (by omega) buf p
  rw [Nat.sub_self, pow_zero, Nat.div_one, ← and_mask_eq_mod, ← shift_eq_div] at this
  exact this hp

/-- The tree loop of `tral_mark` touches only nodes of the six trees, inside their rows. -/
theorem markTreesWrites_bound {L S t h l0 : Nat} {R : List Nat} (hh : 1 ≤ h) (ht : t ≤ 32)
    (hl : l0 < t * 32 ^ (h - 1)) :
    ∀ k i0 buf, i0 + k ≤ 6 → ∀ q, q ∈ markTreesWrites S l0 R h k (L + i0 * S) buf →
      (∃ i, i < 6 ∧ q.1 = L + i * S) ∧ q.2.1 < h ∧ q.2.2 < rowWidth t q.2.1 := by
  intro k
  induction k with
  | zero => intro i0 buf _ q hq; simp [markTreesWrites] at hq
  | succ k ih =>
    intro i0 buf hk q hq
    simp only [markTreesWrites, List.mem_append, List.mem_map] at hq
    rcases hq with ⟨p, hp, rfl⟩ | hq
    · exact ⟨⟨i0, by omega, rfl⟩, updateTreeLeafFullWrites_top hh ht hl buf p hp⟩
    · rw [show L + i0 * S + S = L + (i0 + 1) * S by rw [Nat.succ_mul]; omega] at hq
      exact ih (i0 + 1) _ (by omega) q hq

/-- The tree loop of `tral_clear` touches only nodes of the six trees, inside their rows. -/
theorem clearTreesWrites_bound {L S t h l0 : Nat} {R : List Nat} (hh : 1 ≤ h) (ht : t ≤ 32)
    (hl : l0 < t * 32 ^ (h - 1)) :
    ∀ k i0 buf, i0 + k ≤ 6 → ∀ q, q ∈ clearTreesWrites S l0 R h k (L + i0 * S) buf →
      (∃ i, i < 6 ∧ q.1 = L + i * S) ∧ q.2.1 < h ∧ q.2.2 < rowWidth t q.2.1 := by
  intro k
  induction k with
  | zero => intro i0 buf _ q hq; simp [clearTreesWrites] at hq
  | succ k ih =>
    intro i0 buf hk q hq
    simp only [clearTreesWrites, List.mem_append, List.mem_map] at hq
    rcases hq with ⟨p, hp, rfl⟩ | hq
    · exact ⟨⟨i0, by omega, rfl⟩, updateTreeLeafHasSpaceWrites_top hh ht hl buf p hp⟩
    · rw [show L + i0 * S + S = L + (i0 + 1) * S by rw [Nat.succ_mul]; omega] at hq
      exact ih (i0 + 1) _ (by omega) q hq

/-- A node of one of the six trees that lies inside its row is inside the tree, and its word
is inside the buffer. -/
theorem node_safe {m : Member} (g : Geom m) {q : Nat × Nat × Nat}
    (hq : (∃ i, i < 6 ∧ q.1 = m.num_leaves + i * m.tree_stride) ∧ q.2.1 < m.tree_height ∧
      q.2.2 < rowWidth m.num_top_branches q.2.1) :
    (q.2.1 < m.tree_height ∧ rd m.row_offsets q.2.1 + q.2.2 < m.tree_stride) ∧
    nodeWord m.row_offsets q < m.num_leaves + 6 * m.tree_stride := by
  obtain ⟨⟨i, hi, hT⟩, hr, hn⟩ := hq
  have h1 := node_lt_stride hr hn
  have h2 := g.offs _ hr
  have h3 := g.stride
  have h4 := tree_end_le (L := m.num_leaves) (S := m.tree_stride) (i := i) (j := 6) hi
  unfold nodeWord
  refine ⟨⟨hr, by omega⟩, by omega⟩

/-- The nodes that `tral_mark` addresses lie in one of the six trees, inside their rows. -/
theorem mark_nodes_bound {m : Member} (hinv : Inv m) (n : Nat) :
    ∀ q, q ∈ tral_mark_nodes m n →
      (∃ i, i < 6 ∧ q.1 = m.num_leaves + i * m.tree_stride) ∧ q.2.1 < m.tree_height ∧
        q.2.2 < rowWidth m.num_top_branches q.2.1 := by
  have g := hinv.geom
  have hs := ceil_log2_lt n
  intro q hq
  unfold tral_mark_nodes at hq
  simp only [(g.tree_base (Nat.le_of_lt hs)).1] at hq
  by_cases hfull : rd m.buf (m.num_leaves + CEIL_LOG2_SMALL n * m.tree_stride) = 4294967295
  · rw [if_pos hfull] at hq
    simp at hq
  · rw [if_neg hfull] at hq
    have hL : m.num_top_branches * 32 ^ (m.tree_height - 1) ≤ 134217728 := by
      rw [← g.leaves]; exact g.leaves_le
    have hok := hinv.trees _ hs
    have hidx := (leafWithSpaceIndex_spec g.h_pos hL g.offs hok hfull).1
    rcases List.mem_append.1 hq with h1 | h1
    · obtain ⟨p, hp, rfl⟩ := List.mem_map.1 h1
      have hrow := hok 0 (by have := g.h_pos; omega) 0 (by simp [rowWidth])
      simp only [rowStart, Nat.add_zero, Nat.sub_zero, Nat.mul_zero, Nat.zero_add] at hrow
      obtain ⟨b0, hb0, hz, hlowb⟩ := exists_lowest_zero hrow.1 hfull
      have hifz := indexOfFirstZero_spec hb0 hz hlowb
      have hopen : ¬ closedAt (rd m.buf) (m.num_top_branches * 32 ^ (m.tree_height - 1))
          (CEIL_LOG2_SMALL n) (m.tree_height - 1) b0 := by
        intro hcl
        have := (hrow.2 b0 hb0).2 hcl
        rw [hz] at this
        exact Bool.noConfusion this
      rw [hifz] at hp
      have := leafWithSpaceReads_bound hL g.offs hok (m.tree_height - 1) 1 b0
        (by have := g.h_pos; omega) le_rfl hopen p hp
      exact ⟨⟨_, hs, rfl⟩, this⟩
    · have hle := leafHasSpaceEnd_le (rd (wr m.buf
          (leafWithSpaceIndex m.buf (m.num_leaves + CEIL_LOG2_SMALL n * m.tree_stride)
            m.row_offsets m.tree_height)
          (rd m.buf (leafWithSpaceIndex m.buf (m.num_leaves + CEIL_LOG2_SMALL n * m.tree_stride)
            m.row_offsets m.tree_height) |||
            leafBlocksMask (CEIL_LOG2_SMALL n) (leafBlocksOffset (rd m.buf
              (leafWithSpaceIndex m.buf (m.num_leaves + CEIL_LOG2_SMALL n * m.tree_stride)
                m.row_offsets m.tree_height)) (CEIL_LOG2_SMALL n))))
          (leafWithSpaceIndex m.buf (m.num_leaves + CEIL_LOG2_SMALL n * m.tree_stride)
            m.row_offsets m.tree_height))
      rw [(g.tree_base hle).2] at h1
      exact markTreesWrites_bound g.h_pos g.t_le hidx _ _ _
        (by simp only [NUM_TREES, NUM_BRANCHES_LOG2]; omega) q h1

/-- The nodes that a `tral_clear` of a leaf of the bitmap addresses lie in one of the six
trees, inside their rows. -/
theorem clear_nodes_bound {m : Member} (g : Geom m) (adr n : Nat)
    (hadr : adr >>> NUM_BRANCHES_LOG2 < m.num_leaves) :
    ∀ q, q ∈ tral_clear_nodes m adr n →
      (∃ i, i < 6 ∧ q.1 = m.num_leaves + i * m.tree_stride) ∧ q.2.1 < m.tree_height ∧
        q.2.2 < rowWidth m.num_top_branches q.2.1 := by
  intro q hq
  unfold tral_clear_nodes at hq
  have hle := leafHasSpaceEnd_le (rd (wr m.buf (adr >>> NUM_BRANCHES_LOG2)
    (rd m.buf (adr >>> NUM_BRANCHES_LOG2) &&&
      not32 (leafBlocksMask (CEIL_LOG2_SMALL n) (adr &&& BRANCH_INDEX_MASK))))
    (adr >>> NUM_BRANCHES_LOG2))
  rw [g.leaves] at hadr
  have key := fun k buf hk => clearTreesWrites_bound (L := m.num_leaves) (S := m.tree_stride)
    (R := m.row_offsets) g.h_pos g.t_le hadr k 0 buf hk q
  simp only [Nat.zero_mul, Nat.add_zero] at key
  exact key _ _ (by omega) hq


/-- The tree loop of `tral_mark` changes no word outside the nodes it touches. -/
theorem markTreesLoop_frame (S l0 : Nat) (ro : List Nat) (h : Nat) :
    ∀ k T buf i,
      (∀ q, q ∈ markTreesWrites S l0 ro h k T buf → nodeWord ro q ≠ i) →
      rd (markTreesLoop S l0 ro h k T buf) i = rd buf i := by
  intro k
  induction k with
  | zero => intro T buf i _; rfl
  | succ k ih =>
    intro T buf i hq
    simp only [markTreesWrites, List.mem_append, List.mem_map] at hq
    simp only [markTreesLoop]
    rw [ih _ _ i (fun q hm => hq q (Or.inr hm))]
    unfold updateTreeLeafFull
    exact updateTreeLeafFullLoop_frame _ _ _ _ _ _ _
      (fun p hp => hq (T, p) (Or.inl ⟨p, hp, rfl⟩))

/-- The tree loop of `tral_clear` changes no word outside the nodes it touches. -/
theorem clearTreesLoop_frame (S l0 : Nat) (ro : List Nat) (h : Nat) :
    ∀ k T buf i,
      (∀ q, q ∈ clearTreesWrites S l0 ro h k T buf → nodeWord ro q ≠ i) →
      rd (clearTreesLoop S l0 ro h k T buf) i = rd buf i := by
  intro k
  induction k with
  | zero => intro T buf i _; rfl
  | succ k ih =>
    intro T buf i hq
    simp only [clearTreesWrites, List.mem_append, List.mem_map] at hq
    simp only [clearTreesLoop]
    rw [ih _ _ i (fun q hm => hq q (Or.inr hm))]
    unfold updateTreeLeafHasSpace
    exact updateTreeLeafHasSpaceLoop_frame _ _ _ _ _ _ _
      (fun p hp => hq (T, p) (Or.inl ⟨p, hp, rfl⟩))

/-- The call `tral_mark` changes no word of the buffer outside `tral_mark_words`. -/
theorem tral_mark_frame (m : Member) (n a i : Nat) (hi : i ∉ tral_mark_words m n) :
    rd (tral_mark m n a).2.1.buf i = rd m.buf i := by
  unfold tral_mark_words at hi
  unfold tral_mark
  by_cases hfull : rd m.buf (m.num_leaves + u32 (CEIL_LOG2_SMALL n * m.tree_stride)) = 4294967295
  · simp only [if_pos hfull]
  · simp only [if_neg hfull] at hi ⊢
    simp only [List.mem_cons, List.mem_append, List.mem_map, not_or] at hi
    rw [markTreesLoop_frame _ _ _ _ _ _ _ i
      (fun q hq e => hi.2.2.2 ⟨q, hq, e⟩)]
    exact rd_wr_ne (fun e => hi.2.2.1 e.symm) _

/-- The call `tral_clear` changes no word of the buffer outside `tral_clear_words`. -/
theorem tral_clear_frame (m : Member) (adr n i : Nat) (hi : i ∉ tral_clear_words m adr n) :
    rd (tral_clear m adr n).buf i = rd m.buf i := by
  unfold tral_clear_words tral_clear_nodes at hi
  unfold tral_clear
  simp only [List.mem_cons, List.mem_map, not_or] at hi
  simp only []
  rw [clearTreesLoop_frame _ _ _ _ _ _ _ i (fun q hq e => hi.2 ⟨q, hq, e⟩)]
  exact rd_wr_ne (fun e => hi.1 e.symm) _

/-- Claim C19 (index safety): in every state reachable from `tral_init_member` (with
`min_blocks` in `1 .. 2^32`) by `tral_mark` calls and valid `tral_clear` calls, the tree
height is at most 6, the length of `row_offsets`, and the buffer holds
`num_leaves + 6 * tree_stride` words; every word index that a `tral_mark` with
`1 ≤ n ≤ 32` reads or writes is below `num_leaves + 6 * tree_stride`, every node it
addresses has a row index below `tree_height` and an index `row_offsets[row] + node_i`
below `tree_stride`, and the leaf index returned by `leafWithSpaceIndex` is below
`num_leaves`; the same holds for every valid `tral_clear`, whose leaf index is below
`num_leaves`. -/
theorem C19_index_safety (m : Member) (outs : List (Nat × Nat)) (hr : Reachable m outs) :
    m.tree_height ≤ 6 ∧ m.row_offsets.length = 6 ∧
    m.num_leaves + 6 * m.tree_stride ≤ m.buf.length ∧
    (∀ n, 1 ≤ n → n ≤ 32 →
      (∀ i, i ∈ tral_mark_words m n → i < m.num_leaves + 6 * m.tree_stride) ∧
      (∀ q, q ∈ tral_mark_nodes m n →
        q.2.1 < m.tree_height ∧ rd m.row_offsets q.2.1 + q.2.2 < m.tree_stride) ∧
      (∀ a, (tral_mark m n a).1 = true →
        leafWithSpaceIndex m.buf (m.num_leaves + u32 (CEIL_LOG2_SMALL n * m.tree_stride))
          m.row_offsets m.tree_height < m.num_leaves)) ∧
    (∀ p, p ∈ outs →
      (∀ i, i ∈ tral_clear_words m p.1 p.2 → i < m.num_leaves + 6 * m.tree_stride) ∧
      (∀ q, q ∈ tral_clear_nodes m p.1 p.2 →
        q.2.1 < m.tree_height ∧ rd m.row_offsets q.2.1 + q.2.2 < m.tree_stride) ∧
      p.1 >>> NUM_BRANCHES_LOG2 < m.num_leaves) := by
  obtain ⟨hinv, houts⟩ := reachable_inv hr
  have g := hinv.geom
  have hpos := g.stride_pos
  refine ⟨g.h_le, reachable_row_offsets hr, g.len, fun n _ _ => ?_, fun p hp => ?_⟩
  · have hs := ceil_log2_lt n
    have hbase := (g.tree_base (Nat.le_of_lt hs)).1
    have hend := tree_end_le (L := m.num_leaves) (S := m.tree_stride) hs
    have hnodes := mark_nodes_bound hinv n
    have hL : m.num_top_branches * 32 ^ (m.tree_height - 1) ≤ 134217728 := by
      rw [← g.leaves]; exact g.leaves_le
    have hleaf : rd m.buf (m.num_leaves + u32 (CEIL_LOG2_SMALL n * m.tree_stride)) ≠ 4294967295 →
        leafWithSpaceIndex m.buf (m.num_leaves + u32 (CEIL_LOG2_SMALL n * m.tree_stride))
          m.row_offsets m.tree_height < m.num_leaves := by
      intro hne
      rw [hbase] at hne ⊢
      have := (leafWithSpaceIndex_spec g.h_pos hL g.offs (hinv.trees _ hs) hne).1
      rwa [← g.leaves] at this
    refine ⟨fun i hi => ?_, fun q hq => (node_safe g (hnodes q hq)).1, fun a ha => ?_⟩
    · by_cases hfull :
          rd m.buf (m.num_leaves + u32 (CEIL_LOG2_SMALL n * m.tree_stride)) = 4294967295
      · unfold tral_mark_words at hi
        simp only [if_pos hfull, List.mem_singleton] at hi
        rw [hi, hbase]; omega
      · have hl := hleaf hfull
        have hsub : ∀ q, q ∈ tral_mark_nodes m n →
            nodeWord m.row_offsets q < m.num_leaves + 6 * m.tree_stride :=
          fun q hq => (node_safe g (hnodes q hq)).2
        unfold tral_mark_nodes at hsub
        unfold tral_mark_words at hi
        simp only [if_neg hfull, List.mem_append, List.mem_map] at hsub
        simp only [if_neg hfull, List.mem_cons, List.mem_append, List.mem_map] at hi
        rcases hi with e | ⟨p, hp, e⟩ | e | ⟨q, hq, e⟩
        · rw [e, hbase]; omega
        · rw [← e]; exact hsub _ (Or.inl ⟨p, hp, rfl⟩)
        · rw [e]; omega
        · rw [← e]; exact hsub _ (Or.inr hq)
    · apply hleaf
      intro hfull
      rw [tral_mark_eq, if_pos hfull] at ha
      exact Bool.noConfusion ha
  · have hal := (houts.aligned p hp).2
    rw [g.num_blocks] at hal
    have hw : 1 ≤ classWidth p.2 := Nat.one_le_two_pow
    have hadr : p.1 >>> NUM_BRANCHES_LOG2 < m.num_leaves := by
      rw [shift_eq_div]
      exact Nat.div_lt_of_lt_mul (by omega)
    have hnodes := clear_nodes_bound g p.1 p.2 hadr
    refine ⟨fun i hi => ?_, fun q hq => (node_safe g (hnodes q hq)).1, hadr⟩
    unfold tral_clear_words at hi
    rcases List.mem_cons.1 hi with e | hi
    · rw [e]; omega
    · obtain ⟨q, hq, e⟩ := List.mem_map.1 hi
      rw [← e]; exact (node_safe g (hnodes q hq)).2

set_option maxRecDepth 8000 in
theorem C19_index_safety_witness :
    (markAll (tral_init_member 2049 (rawBuf 120)) [32]).1.tree_height = 2 ∧
    tral_mark_words (markAll (tral_init_member 2049 (rawBuf 120)) [32]).1 2 =
      [100, 101, 1, 117] ∧
    tral_clear_words (markAll (tral_init_member 2049 (rawBuf 120)) [32]).1 0 32 =
      [0, 97, 101, 105, 109, 113, 117] ∧
    ∀ i, i ∈ tral_mark_words (markAll (tral_init_member 2049 (rawBuf 120)) [32]).1 2 →
      i < (markAll (tral_init_member 2049 (rawBuf 120)) [32]).1.num_leaves +
        6 * (markAll (tral_init_member 2049 (rawBuf 120)) [32]).1.tree_stride :=
  ⟨by decide, by decide, by decide,
    ((C19_index_safety (markAll (tral_init_member 2049 (rawBuf 120)) [32]).1 [(0, 32)]
      (Reachable.mark_ok (tral_init_member 2049 (rawBuf 120)) [] 32 0
        (Reachable.init 2049 (rawBuf 120) (by decide) (by decide) (by decide))
        (by decide) (by decide) (by decide))).2.2.2.1 2 (by decide) (by decide)).1⟩

end TreeAlloc
